import Mathlib

/-!
Shallow embedding of the `epunfold` repository.

`distgame.py` is embedded as `DistributedGame` (states are the indices of
`state_names`, the move map is a Python dict modelled as an association
list), `epmodel.py` as `EpistemicModel` together with its operations
`next`, `unfold`, `core` and `is_isomorphic`, and the `Locations` section
of the game-file loader as `readLocations`.

The repository delegates its undirected-graph kernel, the retraction
search and the isomorphism search to external libraries (`networkx` and
the `homsearch` C extension); those parts are modelled from the spec
(sections 4.1 to 4.3), as noted on each definition.  Everything else is
translated directly from the Python source.
-/

namespace Epunfold

/-- Python dict lookup on an association list (first matching key wins,
and keys are unique by construction of `dictSet`). -/
def dictGet {α β : Type} [DecidableEq α] : List (α × β) → α → Option β
  | [], _ => none
  | p :: d, k => if p.1 = k then some p.2 else dictGet d k

/-- Python dict assignment: overwrite in place when the key is present
(CPython dicts keep the key's original position), otherwise append. -/
def dictSet {α β : Type} [DecidableEq α] : List (α × β) → α → β → List (α × β)
  | [], k, v => [(k, v)]
  | p :: d, k, v => if p.1 = k then (k, v) :: d else p :: dictSet d k v

/-- Python `==` between two dicts: the same keys bound to equal values. -/
def dictEq (d1 d2 : List (Nat × Nat)) : Bool :=
  d1.all (fun p => dictGet d2 p.1 = some p.2) &&
    d2.all (fun p => dictGet d1 p.1 = some p.2)

/-- Applying a trimmed vertex mapping: keys are mapped to their value,
every other vertex is fixed (the trimmed entries of a Python dict whose
untrimmed form is the identity elsewhere). -/
def dictApply (d : List (Nat × Nat)) (u : Nat) : Nat :=
  (dictGet d u).getD u

/-- `itertools.product` over a list of lists, the rightmost factor
varying fastest. -/
def listProd {α : Type} : List (List α) → List (List α)
  | [] => [[]]
  | l :: ls => (l.map (fun x => (listProd ls).map (x :: ·))).flatten

/-- `itertools.product(l, repeat := k)`. -/
def listPow {α : Type} (l : List α) (k : Nat) : List (List α) :=
  listProd (List.replicate k l)

/-- Python `zip(*ls)`: rows up to the shortest list; `zip()` of no lists
is empty. -/
def zipRows {α : Type} (ls : List (List α)) : List (List α) :=
  match ls with
  | [] => []
  | l0 :: rest =>
      (List.range ((rest.map List.length).foldl min l0.length)).map
        (fun i => ls.filterMap (fun l => l.get? i))

/-- A `networkx.Graph`: undirected, self-loops allowed.  `nodes` is the
node list in insertion order (never containing duplicates), `edges` the
edge list, each edge stored once in the orientation it was first added.
Relabelling may leave duplicate entries in `edges`; every consumer in the
embedding reads edges through membership or iterates them idempotently,
so this does not affect any modelled behaviour. -/
structure Graph where
  nodes : List Nat
  edges : List (Nat × Nat)
  deriving Repr, DecidableEq

namespace Graph

def empty : Graph := ⟨[], []⟩

/-- `G.has_edge(u, v)`, insensitive to orientation. -/
def hasEdge (g : Graph) (u v : Nat) : Bool :=
  g.edges.any (fun e => (e.1 == u && e.2 == v) || (e.1 == v && e.2 == u))

def addNode (g : Graph) (u : Nat) : Graph :=
  if u ∈ g.nodes then g else { g with nodes := g.nodes ++ [u] }

/-- `G.add_edge(u, v)`: missing endpoints are inserted, adding an edge
that is already present is a no-op. -/
def addEdge (g : Graph) (u v : Nat) : Graph :=
  let g' := (g.addNode u).addNode v
  if g'.hasEdge u v then g' else { g' with edges := g'.edges ++ [(u, v)] }

def addEdgesFrom (g : Graph) (l : List (Nat × Nat)) : Graph :=
  l.foldl (fun h e => h.addEdge e.1 e.2) g

/-- `G.subgraph(hs)`: vertex-induced subgraph, nodes kept in host order. -/
def subgraph (g : Graph) (hs : List Nat) : Graph :=
  ⟨g.nodes.filter (· ∈ hs), g.edges.filter (fun e => e.1 ∈ hs && e.2 ∈ hs)⟩

/-- `nx.relabel_nodes` under a total vertex function. -/
def relabel (g : Graph) (f : Nat → Nat) : Graph :=
  ⟨(g.nodes.map f).dedup, g.edges.map (fun e => (f e.1, f e.2))⟩

/-- `nx.convert_node_labels_to_integers` with the default ordering: node
number `i` of `g` becomes node `i`; the old label of new node `i` is
`g.nodes[i]` (the source keeps it in the `old_label` attribute). -/
def convertLabels (g : Graph) : Graph :=
  g.relabel (fun u => g.nodes.indexOf u)

/-- One union step of the component computation: all components touched
by the edge are merged into one. -/
def ccStep (comps : List (List Nat)) (e : Nat × Nat) : List (List Nat) :=
  let t := comps.filter (fun c => c.contains e.1 || c.contains e.2)
  let r := comps.filter (fun c => !(c.contains e.1 || c.contains e.2))
  if t.isEmpty then comps else t.flatten :: r

/-- Modelled from the spec (section 4.1; the source calls
`networkx.connected_components`): the partition of the nodes into maximal
connected subsets, computed by merging singleton classes along edges. -/
def connectedComponents (g : Graph) : List (List Nat) :=
  g.edges.foldl ccStep (g.nodes.map (fun u => [u]))

/-- Well-formedness that `networkx` guarantees for every graph it hands
out: no duplicate nodes, and every edge endpoint is a node. -/
def WF (g : Graph) : Prop :=
  g.nodes.Nodup ∧ ∀ e ∈ g.edges, e.1 ∈ g.nodes ∧ e.2 ∈ g.nodes

instance (g : Graph) : Decidable g.WF := by
  unfold WF; infer_instance

end Graph

/-- A joint action: the Python tuple holding one action per player. -/
abbrev JointAction := List String

/-- A move-map key: `(joint_action, state)`. -/
abbrev MoveKey := JointAction × Nat

/-- Errors raised by `DistributedGame` accessors. -/
inductive GameErr where
  | keyError (msg : String)
  | valueError (msg : String)
  deriving Repr, DecidableEq

/-- `distgame.DistributedGame`.  States are `0 .. stateNames.length - 1`;
`actionsList` is the deduplicated `_actions_list` (the source stores
`tuple(set(actions))` per player); `moves` is the `_moves` dict. -/
structure DistributedGame where
  stateNames : List String
  initialState : Nat
  actionsList : List (List String)
  moves : List (MoveKey × List Nat)
  indistGraphs : List Graph
  deriving Repr, DecidableEq

namespace DistributedGame

def stateCount (g : DistributedGame) : Nat := g.stateNames.length

def playerCount (g : DistributedGame) : Nat := g.actionsList.length

/-- `get_actions(player)`. -/
def getActions (g : DistributedGame) (player : Nat) : List String :=
  g.actionsList.getD player []

/-- `are_distinguishable(player, state1, state2)`. -/
def areDistinguishable (g : DistributedGame) (player s1 s2 : Nat) : Bool :=
  !((g.indistGraphs.getD player Graph.empty).hasEdge s1 s2)

/-- `_is_partition(classes, elements)` from `distgame.py`: no element
occurs in two classes (or twice in one class) and every classed element
is one of `elements`. -/
def isPartition (classes : List (List Nat)) (elements : List Nat) : Bool :=
  (classes.flatten.Nodup : Bool) && classes.flatten.all (· ∈ elements)

/-- `itertools.combinations(l, 2)`: ordered pairs of distinct positions. -/
def combinations2 : List Nat → List (Nat × Nat)
  | [] => []
  | x :: xs => xs.map (fun y => (x, y)) ++ combinations2 xs

/-- `_indist_graph_from_classes`: a complete subgraph per class, then a
self-loop on every state.  Fails (ValueError) when the classes do not
partition the state ids. -/
def indistGraphFromClasses (states : List Nat) (classes : List (List Nat)) :
    Except String Graph :=
  if isPartition classes states then
    .ok (((classes.map combinations2).flatten.foldl
          (fun g e => g.addEdge e.1 e.2) Graph.empty).addEdgesFrom
        (states.map (fun s => (s, s))))
  else
    .error "the indistinguishability classes must partition the state ids"

/-- `_validate_key(joint_action, state)`: checks in source order and
returns the message of the first KeyError raised, if any. -/
def validateKey (g : DistributedGame) (ja : JointAction) (state : Nat) :
    Option String :=
  if ¬ state < g.stateCount then some "invalid state id in key"
  else if ja.length ≠ g.playerCount then
    some "joint action length is not the same as the player count"
  else if ¬ (List.range g.playerCount).all
      (fun i => (ja.getD i "") ∈ g.actionsList.getD i []) then
    some "some action cant be performed by corresponding player"
  else none

/-- `_validate_next_states(next_states)`: the message of the first
ValueError raised, if any. -/
def validateNextStates (g : DistributedGame) (nextStates : List Nat) :
    Option String :=
  if nextStates.length = 0 then some "successor states must be non-empty"
  else if ¬ nextStates.all (· < g.stateCount) then
    some "some state in value is not a valid state id"
  else if nextStates.length ≠ nextStates.dedup.length then
    some "successor states must contain only unique values"
  else none

/-- `__getitem__`: validate the key, then look the move up in the dict
(a missing dict key would itself surface as a KeyError). -/
def getItem (g : DistributedGame) (k : MoveKey) : Except GameErr (List Nat) :=
  match g.validateKey k.1 k.2 with
  | some msg => .error (.keyError msg)
  | none =>
      match dictGet g.moves k with
      | some v => .ok v
      | none => .error (.keyError "move key not present")

/-- `__setitem__`: validate the key, then the value, then store
`tuple(set(next_states))` (modelled as `dedup`).  The returned game is
the state of the object after the call: unchanged whenever an error is
raised, since both validations precede the mutation. -/
def setItem (g : DistributedGame) (k : MoveKey) (v : List Nat) :
    DistributedGame × Option GameErr :=
  match g.validateKey k.1 k.2 with
  | some msg => (g, some (.keyError msg))
  | none =>
      match g.validateNextStates v with
      | some msg => (g, some (.valueError msg))
      | none => ({ g with moves := dictSet g.moves k v.dedup }, none)

/-- The dict comprehension `{(joint_action, state): (state,) for state in
self._states for joint_action in itertools.product(*actions_list)}`
seeding `_moves`: a deterministic self-loop for every pair of state and
joint action over the raw (not yet deduplicated) action lists. -/
def initMoves (stateNames : List String) (actionsList : List (List String)) :
    List (MoveKey × List Nat) :=
  (((List.range stateNames.length).map (fun s =>
      (listProd actionsList).map (fun ja => ((ja, s), [s])))).flatten).foldl
    (fun d kv => dictSet d kv.1 kv.2) []

/-- A Python list comprehension whose body may raise: the first raised
exception propagates, otherwise the list of results is produced. -/
def mapExcept {α β ε : Type} (f : α → Except ε β) : List α → Except ε (List β)
  | [] => .ok []
  | a :: l =>
      match f a with
      | .error e => .error e
      | .ok b =>
          match mapExcept f l with
          | .error e => .error e
          | .ok bs => .ok (b :: bs)

/-- `__init__(state_names, initial_state, actions_list, indist_classes_list)`. -/
def init (stateNames : List String) (initialState : Nat)
    (actionsList : List (List String)) (indistClassesList : List (List (List Nat))) :
    Except String DistributedGame :=
  if ¬ initialState < stateNames.length then
    .error "initial state is not a state id"
  else if actionsList.length ≠ indistClassesList.length then
    .error "actions list and the indist class list are of different lengths"
  else
    (mapExcept (indistGraphFromClasses (List.range stateNames.length))
        indistClassesList).map
      (fun graphs =>
        { stateNames := stateNames, initialState := initialState,
          actionsList := actionsList.map List.dedup,
          moves := initMoves stateNames actionsList, indistGraphs := graphs })

/-- One external `__setitem__` call (the result state of the object,
whether or not the call raised). -/
def applyOp (g : DistributedGame) (op : MoveKey × List Nat) : DistributedGame :=
  (g.setItem op.1 op.2).1

/-- A sequence of external `__setitem__` calls. -/
def applyOps (g : DistributedGame) (ops : List (MoveKey × List Nat)) :
    DistributedGame :=
  ops.foldl applyOp g

/-- The key-validity predicate stated by `_validate_key`'s docstring:
the state is a state id, the joint action has one entry per player, and
each entry is an action of the corresponding player. -/
def ValidKey (g : DistributedGame) (k : MoveKey) : Prop :=
  k.2 < g.stateCount ∧ k.1.length = g.playerCount ∧
    ∀ i < g.playerCount, k.1.getD i "" ∈ g.actionsList.getD i []

instance (g : DistributedGame) (k : MoveKey) : Decidable (g.ValidKey k) := by
  unfold ValidKey; infer_instance

end DistributedGame

/-- Append to the bucket of `k`, or open a new bucket at the end: the
behaviour of `defaultdict(list)` under `d[k].append(a)`, with buckets in
key-insertion order. -/
def bucketAdd {κ α : Type} [DecidableEq κ] :
    List (κ × List α) → κ → α → List (κ × List α)
  | [], k, a => [(k, [a])]
  | b :: bs, k, a =>
      if b.1 = k then (k, b.2 ++ [a]) :: bs else b :: bucketAdd bs k a

/-- The trimming `{k: v for k, v in r.items() if k != v}` applied by
`_retractions` and `_graph_isomorphisms`. -/
def trim (f : List (Nat × Nat)) : List (Nat × Nat) :=
  f.filter (fun p => p.1 ≠ p.2)

/-- All total maps from `dom` into `rng`, as association lists. -/
def allMaps (dom rng : List Nat) : List (List (Nat × Nat)) :=
  (listProd (dom.map (fun _ => rng))).map (fun vs => dom.zip vs)

/-- Modelled from the spec (section 4.2; the source calls the external
`homsearch.find_retracts` C extension): every retraction of the graph —
an idempotent endomorphism that maps edges to edges — trimmed of its
fixed entries exactly as `_retractions` does.  The identity is included
(it trims to the empty dict); `core` relies on its presence to recognise
a model that is already its own core. -/
def retractions (gr : Graph) : List (List (Nat × Nat)) :=
  ((allMaps gr.nodes gr.nodes).filter (fun f =>
    gr.nodes.all (fun u => dictApply f (dictApply f u) == dictApply f u) &&
      gr.edges.all (fun e => gr.hasEdge (dictApply f e.1) (dictApply f e.2)))).map
    trim

/-- `_retract(graph, retraction)`: `nx.relabel_nodes` under the trimmed
retraction, entries absent from the dict staying fixed. -/
def retract (gr : Graph) (r : List (Nat × Nat)) : Graph :=
  gr.relabel (dictApply r)

/-- Modelled from the spec (section 4.3; the source calls networkx's
`GraphMatcher.isomorphisms_iter`): every bijection between the two node
sets preserving edges in both directions, trimmed of fixed points as
`_graph_isomorphisms` does. -/
def graphIsomorphisms (g1 g2 : Graph) : List (List (Nat × Nat)) :=
  (((g2.nodes.permutations'.filter
        (fun vs => vs.length == g1.nodes.length)).map
      (fun vs => g1.nodes.zip vs)).filter (fun f =>
    g1.edges.all (fun e => g2.hasEdge (dictApply f e.1) (dictApply f e.2)) &&
      g2.edges.all (fun e =>
        g1.hasEdge (dictApply (f.map (fun p => (p.2, p.1))) e.1)
          (dictApply (f.map (fun p => (p.2, p.1))) e.2)))).map trim

/-- `_partition_preserving_maps(maps, partition)`: keep the maps whose
trimmed entries satisfy `partition[x] == partition[f[x]]`.  The source
indexes the Python list `partition` on both sides; an out-of-range index
(which would raise in Python and never occurs in the modelled uses) is
read as 0. -/
def partitionPreservingMaps (maps : List (List (Nat × Nat)))
    (partition : List Nat) : List (List (Nat × Nat)) :=
  maps.filter (fun f => f.all
    (fun p => partition.getD p.1 0 = partition.getD p.2 0))

/-- `_intersect_lists(list1, list2)`, with Python's `in` comparing dicts
by key-value equality. -/
def intersectLists (l1 l2 : List (List (Nat × Nat))) :
    List (List (Nat × Nat)) :=
  l1.filter (fun e => l2.any (fun e2 => dictEq e e2))

/-- Python `max(l, key=len)`: the first element of maximal length;
`none` when the list is empty (where Python raises a ValueError). -/
def pyMaxByLen (l : List (List (Nat × Nat))) : Option (List (Nat × Nat)) :=
  match l with
  | [] => none
  | x :: xs =>
      some (xs.foldl (fun best y => if y.length > best.length then y else best) x)

/-- A Python iteration whose body may raise: `none` as soon as one
element produces `none` (the exception propagates), otherwise the list
of results. -/
def mapOption {α β : Type} (f : α → Option β) : List α → Option (List β)
  | [] => some []
  | a :: l =>
      match f a with
      | none => none
      | some b =>
          match mapOption f l with
          | none => none
          | some bs => some (b :: bs)

/-- `epmodel.EpistemicModel`: the last-state tag of every history, and
one indistinguishability graph per player.  (The source also stores the
game; the embedding passes it to the operations explicitly.) -/
structure EpistemicModel where
  lastStates : List Nat
  indistGraphs : List Graph
  deriving Repr, DecidableEq

namespace EpistemicModel

def historyCount (m : EpistemicModel) : Nat := m.lastStates.length

def playerCount (m : EpistemicModel) : Nat := m.indistGraphs.length

/-- `EpistemicModel(game)`: the singleton history of the initial state,
each player's graph holding exactly the self-loop on history 0. -/
def init (g : DistributedGame) : EpistemicModel :=
  ⟨[g.initialState],
    (List.range g.playerCount).map (fun _ => Graph.empty.addEdge 0 0)⟩

/-- `self._game[joint_action, state]` as used inside the model methods.
A KeyError from `__getitem__` propagates in Python; the embedding reads
it as the empty tuple, and every modelled call site is exercised only
with valid keys, where the two agree. -/
def gameLookup (g : DistributedGame) (k : MoveKey) : List Nat :=
  match g.getItem k with
  | .ok v => v
  | .error _ => []

/-- The `compatible_actions` dict of `_compatible_actions`: every
history of each indistinguishability class is bound to the class's
chosen action. -/
def buildClassDict (classes : List (List Nat)) (classActions : List String) :
    List (Nat × String) :=
  (classes.zip classActions).foldl
    (fun d p => p.1.foldl (fun d h => dictSet d h p.2) d) []

/-- `_compatible_actions(player)` for the player's graph and action
list: one action per connected component, spelled out as the
history-indexed tuple
`tuple(compatible_actions[i] for i in range(len(compatible_actions)))`.
A history id absent from the dict would raise a KeyError in the source;
the embedding reads it as `""`, and the function is only applied to
models whose graph nodes are exactly `0 .. n-1`, where the two agree. -/
def compatibleActions (gr : Graph) (actions : List String) :
    List (List String) :=
  let classes := gr.connectedComponents
  (listPow actions classes.length).map (fun classActions =>
    let d := buildClassDict classes classActions
    (List.range d.length).map (fun i => (dictGet d i).getD ""))

/-- `_compatible_joint_actions()`: the per-player compatible action
tuples are crossed with `itertools.product` and each combination is
transposed by `zip` into a history-indexed tuple of joint actions. -/
def compatibleJointActions (g : DistributedGame) (m : EpistemicModel) :
    List (List JointAction) :=
  (listProd ((List.range m.playerCount).map (fun p =>
      compatibleActions (m.indistGraphs.getD p Graph.empty)
        (g.getActions p)))).map zipRows

/-- The successor-state tuple `tuple(game[joint_action, state] for
joint_action, state in zip(joint_actions, self._last_states))` used as
the grouping key in `_joint_actions_by_result`. -/
def resultOf (g : DistributedGame) (m : EpistemicModel)
    (jas : List JointAction) : List (List Nat) :=
  (jas.zip m.lastStates).map (fun p => gameLookup g (p.1, p.2))

/-- `_joint_actions_by_result(joint_actions_list)`: the defaultdict from
successor tuples to the assignments inducing them, buckets in insertion
order. -/
def jointActionsByResult (g : DistributedGame) (m : EpistemicModel)
    (l : List (List JointAction)) :
    List (List (List Nat) × List (List JointAction)) :=
  l.foldl (fun acc jas => bucketAdd acc (resultOf g m jas) jas) []

/-- The consecutive fresh-id ranges `succ_map` assigned by
`_next_histories`: block `h` receives the ids
`start_h, …, start_h + |succ(h)| - 1`. -/
def offsetRanges : List (List Nat) → Nat → List (List Nat)
  | [], _ => []
  | b :: bs, start => List.range' start b.length :: offsetRanges bs (start + b.length)

/-- `_next_histories(joint_actions)`: the loop appends every history's
successor tuple in turn, handing out consecutive fresh ids, so the new
last-state list is the concatenation of the per-history successor tuples
and the successor sets are the matching id ranges. -/
def nextHistories (g : DistributedGame) (m : EpistemicModel)
    (jas : List JointAction) : List Nat × List (List Nat) :=
  let blocks := (m.lastStates.zip jas).map (fun p => gameLookup g (p.2, p.1))
  (blocks.flatten, offsetRanges blocks 0)

/-- `_new_indist_histories(player, new_last_states, successors_list)`:
for every old edge, every pair of successor histories whose new last
states the player cannot distinguish in the base game. -/
def newIndistHistories (g : DistributedGame) (m : EpistemicModel)
    (player : Nat) (newLastStates : List Nat) (succList : List (List Nat)) :
    List (Nat × Nat) :=
  (((m.indistGraphs.getD player Graph.empty).edges.map (fun e =>
    ((succList.getD e.1 []).map (fun n1 =>
      (succList.getD e.2 []).map (fun n2 => (n1, n2)))).flatten)).flatten).filter
    (fun p => !(g.areDistinguishable player (newLastStates.getD p.1 0)
      (newLastStates.getD p.2 0)))

/-- `_new_submodel(histories, last_states, indist_graphs)`: each graph
is induced on `histories` and densely renumbered by its own node order;
the new last states are read back through the first subgraph's old
labels.  A slot no node of the first subgraph maps to stays `None` in
the source — impossible in the modelled uses — and is embedded as 0. -/
def newSubmodel (histories : List Nat) (lastStates : List Nat)
    (indistGraphs : List Graph) : EpistemicModel :=
  let subs := indistGraphs.map (fun gr => gr.subgraph histories)
  let base := subs.headD Graph.empty
  ⟨(List.range histories.length).map
      (fun i => ((base.nodes.get? i).bind (lastStates.get? ·)).getD 0),
    subs.map Graph.convertLabels⟩

/-- `core()`.  `none` models an uncaught Python exception: the
StopIteration escaping from `next(retraction_gen)` on a model with no
players (or a ValueError from `max` on an empty intersection, which the
identity retraction in fact rules out). -/
def coreOf (m : EpistemicModel) : Option EpistemicModel :=
  match m.indistGraphs.map
      (fun gr => partitionPreservingMaps (retractions gr) m.lastStates) with
  | [] => none
  | l0 :: rest =>
      match pyMaxByLen (rest.foldl intersectLists l0) with
      | none => none
      | some cr =>
          if cr.length = 0 then some m
          else
            let newGraphs := m.indistGraphs.map (fun gr => retract gr cr)
            some (newSubmodel (newGraphs.headD Graph.empty).nodes
              m.lastStates newGraphs)

/-- `next(joint_actions, core)`: build the successor histories and the
per-player indistinguishability graphs, split along the connected
components of their union, and optionally reduce every returned model to
its core.  `none` models an exception escaping from `core()`. -/
def next (g : DistributedGame) (m : EpistemicModel) (jas : List JointAction)
    (core : Bool) : Option (List EpistemicModel) :=
  let p := nextHistories g m jas
  let newGraphs := (List.range m.playerCount).map (fun pl =>
    Graph.empty.addEdgesFrom (newIndistHistories g m pl p.1 p.2))
  let indistUnion := newGraphs.foldl
    (fun u gr => u.addEdgesFrom gr.edges) Graph.empty
  let comps := indistUnion.connectedComponents
  let nextModels := if comps.length = 1 then [EpistemicModel.mk p.1 newGraphs]
    else comps.map (fun c => newSubmodel c p.1 newGraphs)
  if core then mapOption coreOf nextModels else some nextModels

/-- `is_isomorphic(other_model)`.  `some b` is a normal boolean return;
`none` models the StopIteration escaping from `next(isomorphism_gen)`
when the models comprise no players. -/
def isIsomorphic (m1 m2 : EpistemicModel) : Option Bool :=
  if m1.lastStates.length ≠ m2.lastStates.length then some false
  else if m1.indistGraphs.length ≠ m2.indistGraphs.length then some false
  else if List.insertionSort (· ≤ ·) m1.lastStates ≠
      List.insertionSort (· ≤ ·) m2.lastStates then some false
  else
    match (m1.indistGraphs.zip m2.indistGraphs).map (fun p =>
        partitionPreservingMaps (graphIsomorphisms p.1 p.2) m1.lastStates) with
    | [] => none
    | l0 :: rest => some (decide (0 < (rest.foldl intersectLists l0).length))

/-- `unfold(core)`: group the compatible assignments by the successor
tuple they induce, call `next` once per group on the group's first
assignment, and pair every model it returns with the group's full
assignment list. -/
def unfold (g : DistributedGame) (m : EpistemicModel) (core : Bool) :
    Option (List (EpistemicModel × List (List JointAction))) :=
  (mapOption
    (fun b => (next g m (b.2.headD []) core).map
      (fun ms => ms.map (fun n => (n, b.2))))
    (jointActionsByResult g m (compatibleJointActions g m))).map List.flatten

end EpistemicModel

/-- `_read_locations` of `distgame.py`, taken after each
`<index> = <name>` line of the section has been split on `=` and
stripped (the index as the Python `int` it parses to).  The lines are
folded into a dict, a later line silently overwriting an earlier one
with the same index, and a ValueError is raised iff some stored index
lies outside `range(len(locations))`.  The `locations_list` the source
then builds is dead code: the function returns the dict itself. -/
def readLocations (entries : List (Int × String)) :
    Except String (List (Int × String)) :=
  let locations := entries.foldl (fun d p => dictSet d p.1 p.2) []
  if locations.all (fun kv =>
      decide (0 ≤ kv.1) && decide (kv.1 < (locations.length : Int))) then
    .ok locations
  else
    .error "Location indices must range from 0 to n, where n is the number of locations."

/-! ### Association-list (Python dict) lemmas -/

theorem dictGet_cons {α β : Type} [DecidableEq α] (p : α × β)
    (d : List (α × β)) (k : α) :
    dictGet (p :: d) k = if p.1 = k then some p.2 else dictGet d k := rfl

theorem dictGet_dictSet {α β : Type} [DecidableEq α]
    (d : List (α × β)) (k k' : α) (v : β) :
    dictGet (dictSet d k v) k' = if k = k' then some v else dictGet d k' := by
  induction d with
  | nil => by_cases h : k = k' <;> simp [dictSet, dictGet, h]
  | cons p d ih =>
      by_cases h : p.1 = k
      · by_cases h' : k = k' <;> simp [dictSet, dictGet, h, h', h ▸ h']
      · by_cases h' : p.1 = k'
        · have h2 : ¬ k = k' := fun e => h (e ▸ h')
          have h3 : ¬ k' = k := fun e => h2 e.symm
          simp [dictSet, dictGet, h, h', h2, h3]
        · simp [dictSet, dictGet, h, h', ih]

theorem dictGet_foldl_dictSet {α β : Type} [DecidableEq α]
    (ps : List (α × β)) (d : List (α × β)) (k : α) :
    dictGet (ps.foldl (fun d kv => dictSet d kv.1 kv.2) d) k =
      match ps.reverse.find? (fun kv => decide (kv.1 = k)) with
      | some kv => some kv.2
      | none => dictGet d k := by
  induction ps generalizing d with
  | nil => simp
  | cons p ps ih =>
      simp only [List.foldl_cons, List.reverse_cons, ih, List.find?_append]
      cases hf : ps.reverse.find? (fun kv => decide (kv.1 = k)) with
      | some kv => simp
      | none =>
          by_cases h : p.1 = k <;>
            simp [List.find?, h, dictGet_dictSet, dictGet]

theorem dictGet_isSome_iff {α β : Type} [DecidableEq α]
    (d : List (α × β)) (k : α) :
    (dictGet d k).isSome ↔ ∃ v, (k, v) ∈ d := by
  induction d with
  | nil => simp [dictGet]
  | cons p d ih =>
      by_cases h : p.1 = k
      · subst h
        simp [dictGet]
        exact ⟨p.2, Or.inl rfl⟩
      · simp only [dictGet, h, if_false, ih]
        constructor
        · rintro ⟨v, hv⟩; exact ⟨v, List.mem_cons_of_mem _ hv⟩
        · rintro ⟨v, hv⟩
          rcases List.mem_cons.1 hv with h1 | h1
          · exact absurd (congrArg Prod.fst h1).symm h
          · exact ⟨v, h1⟩

theorem dictGet_mem {α β : Type} [DecidableEq α]
    {d : List (α × β)} {k : α} {v : β} (h : dictGet d k = some v) :
    (k, v) ∈ d := by
  induction d with
  | nil => simp [dictGet] at h
  | cons p d ih =>
      by_cases hp : p.1 = k
      · subst hp
        simp [dictGet] at h
        exact h ▸ List.mem_cons_self _ _
      · simp only [dictGet, hp, if_false] at h
        exact List.mem_cons_of_mem _ (ih h)

/-! ### `itertools.product` lemmas -/

theorem mem_listProd {α : Type} {ls : List (List α)} {xs : List α} :
    xs ∈ listProd ls ↔ List.Forall₂ (fun x l => x ∈ l) xs ls := by
  induction ls generalizing xs with
  | nil =>
      simp only [listProd, List.mem_singleton]
      constructor
      · rintro rfl; exact List.Forall₂.nil
      · intro h; cases h; rfl
  | cons l ls ih =>
      simp only [listProd, List.mem_flatten, List.mem_map]
      constructor
      · rintro ⟨_, ⟨x, hx, rfl⟩, hmem⟩
        obtain ⟨ys, hys, rfl⟩ := List.mem_map.1 hmem
        exact List.Forall₂.cons hx (ih.1 hys)
      · intro h
        cases h with
        | cons hx hys =>
            exact ⟨_, ⟨_, hx, rfl⟩, List.mem_map.2 ⟨_, ih.2 hys, rfl⟩⟩

theorem listProd_length {α : Type} (ls : List (List α)) :
    (listProd ls).length = (ls.map List.length).prod := by
  induction ls with
  | nil => simp [listProd]
  | cons l ls ih =>
      simp only [listProd, List.length_flatten, List.map_map, List.map_cons,
        List.prod_cons]
      have hc : (List.length ∘ fun x : α => (listProd ls).map (x :: ·)) =
          fun _ => (listProd ls).length := by
        funext x; simp
      rw [hc, List.map_const', List.sum_replicate, smul_eq_mul, ih,
        Nat.mul_comm]

theorem length_of_mem_listProd {α : Type} {ls : List (List α)} {xs : List α}
    (h : xs ∈ listProd ls) : xs.length = ls.length :=
  (mem_listProd.1 h).length_eq

theorem forall₂_mem_iff_getD (xs : List String) (ls : List (List String)) :
    List.Forall₂ (fun x l => x ∈ l) xs ls ↔
      xs.length = ls.length ∧
        ∀ i < ls.length, xs.getD i "" ∈ ls.getD i [] := by
  induction ls generalizing xs with
  | nil =>
      constructor
      · intro h; cases h; simp
      · rintro ⟨hl, _⟩
        cases xs with
        | nil => exact List.Forall₂.nil
        | cons x xs => simp at hl
  | cons l ls ih =>
      cases xs with
      | nil =>
          constructor
          · intro h; cases h
          · rintro ⟨hl, _⟩; simp at hl
      | cons x xs =>
          constructor
          · intro h
            cases h with
            | cons hx hxs =>
                obtain ⟨hl, hp⟩ := (ih xs).1 hxs
                refine ⟨by simp [hl], ?_⟩
                intro i hi
                cases i with
                | zero => simpa using hx
                | succ j =>
                    simpa using hp j (Nat.lt_of_succ_lt_succ hi)
          · rintro ⟨hl, hp⟩
            refine List.Forall₂.cons (by simpa using hp 0 (Nat.succ_pos _)) ?_
            refine (ih xs).2 ⟨Nat.succ_injective hl, ?_⟩
            intro i hi
            simpa using hp (i + 1) (Nat.succ_lt_succ hi)

/-! ### DistributedGame lemmas -/

namespace DistributedGame

theorem validateKey_eq_none_iff (g : DistributedGame) (ja : JointAction)
    (s : Nat) : g.validateKey ja s = none ↔ g.ValidKey (ja, s) := by
  unfold validateKey ValidKey
  constructor
  · intro h
    split_ifs at h with h1 h2 h3
    refine ⟨h1, not_ne_iff.1 h2, ?_⟩
    intro i hi
    have := List.all_eq_true.1 h3 i (List.mem_range.2 hi)
    simpa using this
  · rintro ⟨hs, hlen, hact⟩
    rw [if_neg (not_not.2 hs), if_neg (not_ne_iff.2 hlen), if_neg]
    refine not_not.2 (List.all_eq_true.2 ?_)
    intro i hi
    simpa using hact i (List.mem_range.1 hi)

theorem validateNextStates_eq_none_iff (g : DistributedGame) (v : List Nat) :
    g.validateNextStates v = none ↔
      v ≠ [] ∧ (∀ s ∈ v, s < g.stateCount) ∧ v.Nodup := by
  unfold validateNextStates
  constructor
  · intro h
    split_ifs at h with h1 h2 h3
    refine ⟨fun hv => h1 (by simp [hv]), ?_, ?_⟩
    · intro s hs
      have := List.all_eq_true.1 h2 s hs
      simpa using this
    · have hsub : v.dedup.Sublist v := List.dedup_sublist v
      have : v.dedup = v := hsub.eq_of_length (not_ne_iff.1 h3).symm
      exact this ▸ List.nodup_dedup v
  · rintro ⟨hne, hlt, hnd⟩
    have c1 : ¬ v.length = 0 := fun h0 => hne (List.length_eq_zero.1 h0)
    have c2 : v.all (fun x => decide (x < g.stateCount)) = true :=
      List.all_eq_true.2 (fun s hs => by simpa using hlt s hs)
    have c3 : ¬ v.length ≠ v.dedup.length := by
      rw [List.dedup_eq_self.2 hnd]
      exact fun h => h rfl
    rw [if_neg c1, if_neg (not_not.2 c2), if_neg c3]

theorem setItem_cases (g : DistributedGame) (k : MoveKey) (v : List Nat) :
    ((g.setItem k v).1 = g ∧ (g.setItem k v).2.isSome) ∨
      ((g.setItem k v).1 = { g with moves := dictSet g.moves k v.dedup } ∧
        (g.setItem k v).2 = none) := by
  unfold setItem
  cases h1 : g.validateKey k.1 k.2 with
  | some msg => exact Or.inl ⟨rfl, rfl⟩
  | none =>
      cases h2 : g.validateNextStates v with
      | some msg => exact Or.inl ⟨rfl, rfl⟩
      | none => exact Or.inr ⟨rfl, rfl⟩

theorem setItem_snd_keyError_iff (g : DistributedGame) (k : MoveKey)
    (v : List Nat) :
    (∃ msg, (g.setItem k v).2 = some (.keyError msg)) ↔ ¬ g.ValidKey k := by
  unfold setItem
  cases h1 : g.validateKey k.1 k.2 with
  | some msg =>
      simp only []
      constructor
      · intro _
        intro hv
        rw [(validateKey_eq_none_iff g k.1 k.2).2 hv] at h1
        exact Option.noConfusion h1
      · intro _; exact ⟨msg, rfl⟩
  | none =>
      have hv : g.ValidKey k := (validateKey_eq_none_iff g k.1 k.2).1 h1
      cases h2 : g.validateNextStates v <;> simp [hv]

theorem applyOp_fields (g : DistributedGame) (op : MoveKey × List Nat) :
    (g.applyOp op).stateNames = g.stateNames ∧
      (g.applyOp op).initialState = g.initialState ∧
      (g.applyOp op).actionsList = g.actionsList ∧
      (g.applyOp op).indistGraphs = g.indistGraphs := by
  unfold applyOp
  rcases setItem_cases g op.1 op.2 with ⟨h, _⟩ | ⟨h, _⟩ <;>
    (rw [h]; exact ⟨rfl, rfl, rfl, rfl⟩)

theorem applyOps_fields (g : DistributedGame) (ops : List (MoveKey × List Nat)) :
    (g.applyOps ops).stateNames = g.stateNames ∧
      (g.applyOps ops).initialState = g.initialState ∧
      (g.applyOps ops).actionsList = g.actionsList ∧
      (g.applyOps ops).indistGraphs = g.indistGraphs := by
  induction ops generalizing g with
  | nil => exact ⟨rfl, rfl, rfl, rfl⟩
  | cons op ops ih =>
      obtain ⟨h1, h2, h3, h4⟩ := ih (g.applyOp op)
      obtain ⟨g1, g2, g3, g4⟩ := applyOp_fields g op
      exact ⟨h1.trans g1, h2.trans g2, h3.trans g3, h4.trans g4⟩

theorem validKey_applyOps (g : DistributedGame) (ops : List (MoveKey × List Nat))
    (k : MoveKey) : (g.applyOps ops).ValidKey k ↔ g.ValidKey k := by
  obtain ⟨h1, _, h3, _⟩ := applyOps_fields g ops
  unfold ValidKey stateCount playerCount
  rw [h1, h3]

/-- The moves invariant every reachable game satisfies: a valid key is
present and bound to a non-empty list of valid state ids. -/
def MovesWF (g : DistributedGame) : Prop :=
  ∀ k : MoveKey, g.ValidKey k →
    ∃ v, dictGet g.moves k = some v ∧ v ≠ [] ∧ ∀ s ∈ v, s < g.stateCount

theorem initMoves_get (stateNames : List String)
    (actionsList : List (List String)) (k : MoveKey) :
    dictGet (initMoves stateNames actionsList) k =
      if k.1 ∈ listProd actionsList ∧ k.2 < stateNames.length then
        some [k.2]
      else none := by
  unfold initMoves
  rw [dictGet_foldl_dictSet]
  have hshape : ∀ kv ∈ (((List.range stateNames.length).map (fun s =>
      (listProd actionsList).map (fun ja => ((ja, s), [s])))).flatten).reverse,
      kv.1.1 ∈ listProd actionsList ∧ kv.1.2 < stateNames.length ∧
        kv.2 = [kv.1.2] := by
    intro kv hkv
    rw [List.mem_reverse] at hkv
    simp only [List.mem_flatten, List.mem_map] at hkv
    obtain ⟨_, ⟨s, hs, rfl⟩, hkv⟩ := hkv
    obtain ⟨ja, hja, rfl⟩ := List.mem_map.1 hkv
    exact ⟨hja, List.mem_range.1 hs, rfl⟩
  cases hf : (((List.range stateNames.length).map (fun s =>
      (listProd actionsList).map (fun ja => ((ja, s), [s])))).flatten).reverse.find?
      (fun kv => decide (kv.1 = k)) with
  | some kv =>
      have hmem := List.mem_of_find?_eq_some hf
      have hkey : kv.1 = k := by simpa using List.find?_some hf
      obtain ⟨hja, hs, hval⟩ := hshape kv hmem
      rw [if_pos ⟨hkey ▸ hja, hkey ▸ hs⟩]
      show some kv.2 = some [k.2]
      rw [hval, hkey]
  | none =>
      have hnone := List.find?_eq_none.1 hf
      rw [if_neg]
      · rfl
      rintro ⟨hja, hs⟩
      refine hnone ((k, [k.2]) : MoveKey × List Nat) ?_ (by simp)
      rw [List.mem_reverse]
      simp only [List.mem_flatten, List.mem_map]
      exact ⟨_, ⟨k.2, List.mem_range.2 hs, rfl⟩, List.mem_map.2 ⟨k.1, hja, rfl⟩⟩

theorem init_ok_spec {sn : List String} {ii : Nat} {al : List (List String)}
    {cl : List (List (List Nat))} {g : DistributedGame}
    (h : init sn ii al cl = .ok g) :
    g.stateNames = sn ∧ g.initialState = ii ∧
      g.actionsList = al.map List.dedup ∧ g.moves = initMoves sn al ∧
      ii < sn.length ∧ al.length = cl.length ∧
      mapExcept (indistGraphFromClasses (List.range sn.length)) cl =
        .ok g.indistGraphs := by
  unfold init at h
  split_ifs at h with h1 h2
  cases hm : mapExcept (indistGraphFromClasses (List.range sn.length)) cl with
  | error e =>
      rw [hm] at h
      exact absurd h (by simp [Except.map])
  | ok graphs =>
      rw [hm] at h
      simp only [Except.map, Except.ok.injEq] at h
      subst h
      exact ⟨rfl, rfl, rfl, rfl, h1, not_ne_iff.1 h2, rfl⟩

theorem getD_map_dedup (al : List (List String)) (i : Nat)
    (hi : i < al.length) :
    (al.map List.dedup).getD i [] = (al.getD i []).dedup := by
  rw [List.getD_eq_getElem _ _ (by simpa using hi), List.getD_eq_getElem _ _ hi]
  simp

theorem validKey_init_iff {sn : List String} {ii : Nat}
    {al : List (List String)} {cl : List (List (List Nat))}
    {g : DistributedGame} (h : init sn ii al cl = .ok g) (k : MoveKey) :
    g.ValidKey k ↔ k.1 ∈ listProd al ∧ k.2 < sn.length := by
  obtain ⟨hsn, _, hal, _, _, _, _⟩ := init_ok_spec h
  unfold ValidKey stateCount playerCount
  rw [hsn, hal]
  constructor
  · rintro ⟨hs, hlen, hact⟩
    refine ⟨mem_listProd.2 ((forall₂_mem_iff_getD _ _).2
      ⟨by simpa using hlen, ?_⟩), hs⟩
    intro i hi
    have := hact i (by simpa using hi)
    rw [getD_map_dedup al i hi] at this
    exact List.mem_dedup.1 this
  · rintro ⟨hja, hs⟩
    obtain ⟨hlen, hp⟩ := (forall₂_mem_iff_getD _ _).1 (mem_listProd.1 hja)
    refine ⟨hs, by simpa using hlen, ?_⟩
    intro i hi
    rw [List.length_map] at hi
    rw [getD_map_dedup al i hi]
    exact List.mem_dedup.2 (hp i hi)

theorem init_MovesWF {sn : List String} {ii : Nat} {al : List (List String)}
    {cl : List (List (List Nat))} {g : DistributedGame}
    (h : init sn ii al cl = .ok g) : g.MovesWF := by
  obtain ⟨hsn, _, _, hm, _, _, _⟩ := init_ok_spec h
  intro k hk
  obtain ⟨hja, hs⟩ := (validKey_init_iff h k).1 hk
  refine ⟨[k.2], ?_, by simp, ?_⟩
  · rw [hm, initMoves_get, if_pos ⟨hja, hs⟩]
  · intro s hsv
    rw [List.mem_singleton] at hsv
    subst hsv
    unfold stateCount
    rw [hsn]
    exact hs

theorem setItem_snd_none_iff (g : DistributedGame) (k : MoveKey)
    (v : List Nat) :
    (g.setItem k v).2 = none ↔
      g.validateKey k.1 k.2 = none ∧ g.validateNextStates v = none := by
  unfold setItem
  cases h1 : g.validateKey k.1 k.2 with
  | some msg => simp
  | none => cases h2 : g.validateNextStates v <;> simp

theorem applyOp_MovesWF (g : DistributedGame) (op : MoveKey × List Nat)
    (h : g.MovesWF) : (g.applyOp op).MovesWF := by
  unfold applyOp
  rcases setItem_cases g op.1 op.2 with ⟨he, _⟩ | ⟨he, hok⟩
  · rw [he]; exact h
  · rw [he]
    intro k hk
    have hk' : g.ValidKey k := hk
    obtain ⟨_, hvv⟩ := (setItem_snd_none_iff g op.1 op.2).1 hok
    obtain ⟨hne, hlt, _⟩ := (validateNextStates_eq_none_iff g op.2).1 hvv
    by_cases hkk : op.1 = k
    · refine ⟨op.2.dedup, ?_, ?_, ?_⟩
      · show dictGet (dictSet g.moves op.1 op.2.dedup) k = _
        rw [dictGet_dictSet, if_pos hkk]
      · exact fun hnil => hne ((List.dedup_eq_nil op.2).1 hnil)
      · intro s hsv
        exact hlt s (List.mem_dedup.1 hsv)
    · obtain ⟨v, hv1, hv2, hv3⟩ := h k hk'
      refine ⟨v, ?_, hv2, hv3⟩
      show dictGet (dictSet g.moves op.1 op.2.dedup) k = _
      rw [dictGet_dictSet, if_neg hkk]
      exact hv1

theorem applyOps_MovesWF (g : DistributedGame)
    (ops : List (MoveKey × List Nat)) (h : g.MovesWF) :
    (g.applyOps ops).MovesWF := by
  induction ops generalizing g with
  | nil => exact h
  | cons op ops ih => exact ih (g.applyOp op) (applyOp_MovesWF g op h)

theorem applyOps_moves_unset (g : DistributedGame)
    (ops : List (MoveKey × List Nat)) (k : MoveKey)
    (h : ∀ op ∈ ops, op.1 ≠ k) :
    dictGet (g.applyOps ops).moves k = dictGet g.moves k := by
  induction ops generalizing g with
  | nil => rfl
  | cons op ops ih =>
      have step : dictGet (g.applyOp op).moves k = dictGet g.moves k := by
        unfold applyOp
        rcases setItem_cases g op.1 op.2 with ⟨he, _⟩ | ⟨he, _⟩
        · rw [he]
        · rw [he]
          show dictGet (dictSet g.moves op.1 op.2.dedup) k = _
          rw [dictGet_dictSet, if_neg (h op (List.mem_cons_self _ _))]
      exact (ih (g.applyOp op) (fun o ho => h o (List.mem_cons_of_mem _ ho))).trans
        step

end DistributedGame

/-! ### Claim C10: `__setitem__` is atomic on error -/

/-- C10: whenever `__setitem__` raises (a KeyError for an invalid key or
a ValueError for an invalid successor set), the game — in particular its
move map — is left unchanged, because both validations precede the
mutation. -/
theorem setItem_atomic_on_error (g : DistributedGame) (k : MoveKey)
    (v : List Nat) (e : GameErr) (h : (g.setItem k v).2 = some e) :
    (g.setItem k v).1 = g ∧ (g.setItem k v).1.moves = g.moves := by
  rcases DistributedGame.setItem_cases g k v with ⟨h1, _⟩ | ⟨_, h2⟩
  · exact ⟨h1, by rw [h1]⟩
  · rw [h2] at h
    exact absurd h (by simp)

/-- The two-state, one-player, one-action game used to witness the
game-level claims. -/
def Gw : DistributedGame :=
  ⟨["s"], 0, [["a"]], [((["a"], 0), [0])], [⟨[0], [(0, 0)]⟩]⟩

theorem setItem_atomic_on_error_witness :
    (Gw.setItem (["b"], 0) [0]).2 =
        some (.keyError "some action cant be performed by corresponding player") ∧
      (Gw.setItem (["b"], 0) [0]).1 = Gw ∧
        (Gw.setItem (["b"], 0) [0]).1.moves = Gw.moves :=
  ⟨by decide, setItem_atomic_on_error Gw (["b"], 0) [0]
    (.keyError "some action cant be performed by corresponding player")
    (by decide)⟩

/-! ### Claim C5: the move map is total with self-loop defaults -/

/-- C5: on a game built by `__init__` from valid arguments followed by
any sequence of `__setitem__` calls, `__getitem__` returns a non-empty
successor set for every valid key, and returns the singleton self-loop
`(state,)` for every valid key `__setitem__` was never called on. -/
theorem getItem_total_default_selfloop (sn : List String) (ii : Nat)
    (al : List (List String)) (cl : List (List (List Nat)))
    (g0 : DistributedGame) (ops : List (MoveKey × List Nat)) (k : MoveKey)
    (hinit : DistributedGame.init sn ii al cl = .ok g0)
    (hvalid : (g0.applyOps ops).ValidKey k) :
    (∃ v, (g0.applyOps ops).getItem k = .ok v ∧ v ≠ []) ∧
      ((∀ op ∈ ops, op.1 ≠ k) →
        (g0.applyOps ops).getItem k = .ok [k.2]) := by
  have hwf : (g0.applyOps ops).MovesWF :=
    DistributedGame.applyOps_MovesWF g0 ops (DistributedGame.init_MovesWF hinit)
  have hvk : (g0.applyOps ops).validateKey k.1 k.2 = none :=
    (DistributedGame.validateKey_eq_none_iff _ k.1 k.2).2 hvalid
  constructor
  · obtain ⟨v, hv1, hv2, _⟩ := hwf k hvalid
    refine ⟨v, ?_, hv2⟩
    unfold DistributedGame.getItem
    rw [hvk, hv1]
  · intro hunset
    have hget : dictGet (g0.applyOps ops).moves k = dictGet g0.moves k :=
      DistributedGame.applyOps_moves_unset g0 ops k hunset
    have hvalid0 : g0.ValidKey k :=
      (DistributedGame.validKey_applyOps g0 ops k).1 hvalid
    obtain ⟨_, _, _, hm, _, _, _⟩ := DistributedGame.init_ok_spec hinit
    have : dictGet g0.moves k = some [k.2] := by
      rw [hm, DistributedGame.initMoves_get,
        if_pos ((DistributedGame.validKey_init_iff hinit k).1 hvalid0)]
    unfold DistributedGame.getItem
    rw [hvk, hget, this]

theorem getItem_total_default_selfloop_witness :
    (∃ v, (Gw.applyOps []).getItem (["a"], 0) = .ok v ∧ v ≠ []) ∧
      ((∀ op ∈ ([] : List (MoveKey × List Nat)), op.1 ≠ ((["a"], 0) : MoveKey)) →
        (Gw.applyOps []).getItem (["a"], 0) = .ok [0]) :=
  getItem_total_default_selfloop ["s"] 0 [["a"]] [[]] Gw [] (["a"], 0)
    rfl (by decide)

/-! ### Claim C7: KeyError exactly on invalid keys -/

/-- C7: on a reachable game, `__getitem__` raises a KeyError iff the key
is invalid — the state is not a state id, the joint action's length
differs from the player count, or some component action is not in the
corresponding player's action set (`ValidKey` is that conjunction) — and
`__setitem__` raises a KeyError under exactly the same condition
regardless of the value passed. -/
theorem getItem_setItem_keyError_iff (sn : List String) (ii : Nat)
    (al : List (List String)) (cl : List (List (List Nat)))
    (g0 : DistributedGame) (ops : List (MoveKey × List Nat)) (k : MoveKey)
    (hinit : DistributedGame.init sn ii al cl = .ok g0) :
    ((∃ msg, (g0.applyOps ops).getItem k = .error (.keyError msg)) ↔
        ¬ (g0.applyOps ops).ValidKey k) ∧
      ∀ v, (∃ msg, ((g0.applyOps ops).setItem k v).2 = some (.keyError msg)) ↔
        ¬ (g0.applyOps ops).ValidKey k := by
  have hwf : (g0.applyOps ops).MovesWF :=
    DistributedGame.applyOps_MovesWF g0 ops (DistributedGame.init_MovesWF hinit)
  constructor
  · constructor
    · rintro ⟨msg, hmsg⟩ hvalid
      have hvk : (g0.applyOps ops).validateKey k.1 k.2 = none :=
        (DistributedGame.validateKey_eq_none_iff _ k.1 k.2).2 hvalid
      obtain ⟨v, hv1, _, _⟩ := hwf k hvalid
      unfold DistributedGame.getItem at hmsg
      rw [hvk, hv1] at hmsg
      exact Except.noConfusion hmsg
    · intro hinvalid
      cases hvk : (g0.applyOps ops).validateKey k.1 k.2 with
      | none =>
          exact absurd ((DistributedGame.validateKey_eq_none_iff _ k.1 k.2).1 hvk)
            hinvalid
      | some msg =>
          refine ⟨msg, ?_⟩
          unfold DistributedGame.getItem
          rw [hvk]
  · intro v
    exact DistributedGame.setItem_snd_keyError_iff (g0.applyOps ops) k v

theorem getItem_setItem_keyError_iff_witness :
    ((∃ msg, (Gw.applyOps []).getItem (["b"], 0) = .error (.keyError msg)) ↔
        ¬ (Gw.applyOps []).ValidKey (["b"], 0)) ∧
      ∀ v, (∃ msg, ((Gw.applyOps []).setItem (["b"], 0) v).2 =
          some (.keyError msg)) ↔ ¬ (Gw.applyOps []).ValidKey (["b"], 0) :=
  getItem_setItem_keyError_iff ["s"] 0 [["a"]] [[]] Gw [] (["b"], 0) rfl

/-! ### Claim C4: validation in `_read_locations` -/

theorem dictSet_keys_subset {α β : Type} [DecidableEq α]
    (d : List (α × β)) (k : α) (v : β) {x : α}
    (hx : x ∈ (dictSet d k v).map Prod.fst) :
    x ∈ d.map Prod.fst ∨ x = k := by
  induction d with
  | nil => simpa [dictSet] using hx
  | cons p d ih =>
      by_cases hp : p.1 = k
      · simp only [dictSet, hp, if_true, List.map_cons, List.mem_cons] at hx ⊢
        rcases hx with h | h
        · exact Or.inr h
        · exact Or.inl (Or.inr h)
      · simp only [dictSet, hp, if_false, List.map_cons, List.mem_cons] at hx ⊢
        rcases hx with h | h
        · exact Or.inl (Or.inl h)
        · rcases ih h with h' | h'
          · exact Or.inl (Or.inr h')
          · exact Or.inr h'

theorem dictSet_keys_nodup {α β : Type} [DecidableEq α]
    (d : List (α × β)) (k : α) (v : β) (h : (d.map Prod.fst).Nodup) :
    ((dictSet d k v).map Prod.fst).Nodup := by
  induction d with
  | nil => simp [dictSet]
  | cons p d ih =>
      rw [List.map_cons, List.nodup_cons] at h
      by_cases hp : p.1 = k
      · simp only [dictSet, hp, if_true, List.map_cons, List.nodup_cons]
        exact ⟨hp ▸ h.1, h.2⟩
      · simp only [dictSet, hp, if_false, List.map_cons, List.nodup_cons]
        refine ⟨?_, ih h.2⟩
        intro hmem
        rcases dictSet_keys_subset d k v hmem with h' | h'
        · exact h.1 h'
        · exact hp h'

theorem foldl_dictSet_keys_nodup {α β : Type} [DecidableEq α]
    (entries : List (α × β)) (d : List (α × β))
    (h : (d.map Prod.fst).Nodup) :
    ((entries.foldl (fun d p => dictSet d p.1 p.2) d).map Prod.fst).Nodup := by
  induction entries generalizing d with
  | nil => exact h
  | cons p entries ih => exact ih _ (dictSet_keys_nodup d p.1 p.2 h)

/-- C4 amended: duplicate location indices do not fail — a later line
silently overwrites an earlier one with the same index — and, after this
overwriting, `_read_locations` succeeds iff the distinct indices cover
`0 .. n-1` exactly, where `n` is the number of distinct indices;
otherwise it raises the validation error. -/
theorem readLocations_ok_iff (entries : List (Int × String)) :
    (∃ d, readLocations entries = .ok d) ↔
      ((entries.foldl (fun d p => dictSet d p.1 p.2) []).map Prod.fst).Perm
        ((List.range
          (entries.foldl (fun d p => dictSet d p.1 p.2) []).length).map
            Int.ofNat) := by
  unfold readLocations
  constructor
  · rintro ⟨d, hd⟩
    dsimp only at hd
    split_ifs at hd with hc
    have hall := List.all_eq_true.1 hc
    have hnd : ((entries.foldl (fun d p => dictSet d p.1 p.2) []).map
        Prod.fst).Nodup := foldl_dictSet_keys_nodup entries [] (by simp)
    have hsub : ((entries.foldl (fun d p => dictSet d p.1 p.2) []).map
        Prod.fst) ⊆ (List.range
          (entries.foldl (fun d p => dictSet d p.1 p.2) []).length).map
            Int.ofNat := by
      intro x hx
      obtain ⟨kv, hkv, rfl⟩ := List.mem_map.1 hx
      obtain ⟨h0, hlt⟩ := by simpa using hall kv hkv
      refine List.mem_map.2 ⟨kv.1.toNat, List.mem_range.2 ?_, ?_⟩
      · omega
      · exact Int.toNat_of_nonneg h0
    refine (List.subperm_of_subset hnd hsub).perm_of_length_le ?_
    simp
  · intro hperm
    have hc : ((entries.foldl (fun d p => dictSet d p.1 p.2) []).all fun kv =>
        decide (0 ≤ kv.1) && decide (kv.1 <
          ((entries.foldl (fun d p => dictSet d p.1 p.2) []).length : Int))) =
        true := by
      refine List.all_eq_true.2 ?_
      intro kv hkv
      have hx : (kv.1 : Int) ∈ (List.range
          (entries.foldl (fun d p => dictSet d p.1 p.2) []).length).map
            Int.ofNat :=
        hperm.subset (List.mem_map.2 ⟨kv, hkv, rfl⟩)
      obtain ⟨m, hm, hmk⟩ := List.mem_map.1 hx
      rw [List.mem_range] at hm
      have hmk' : (m : Int) = kv.1 := hmk
      simp only [Bool.and_eq_true, decide_eq_true_eq]
      omega
    exact ⟨_, by dsimp only; rw [if_pos hc]⟩

/-- C4 counterexample: a Locations section with two lines carrying the
same index `0` loads without any error (the later name wins), although
the claim demands a validation error for duplicate indices; note also
that the line indices `0, 0, 1` do not cover `0..2` exactly, yet no
error is raised. -/
theorem readLocations_duplicate_ok :
    readLocations [(0, "a"), (0, "b"), (1, "c")] = .ok [(0, "b"), (1, "c")] :=
  rfl

/-! ### Graph and mapping helper lemmas -/

theorem hasEdge_iff_mem (g : Graph) (u v : Nat) :
    g.hasEdge u v = true ↔ (u, v) ∈ g.edges ∨ (v, u) ∈ g.edges := by
  unfold Graph.hasEdge
  rw [List.any_eq_true]
  constructor
  · rintro ⟨e, he, hp⟩
    simp only [Bool.or_eq_true, Bool.and_eq_true, beq_iff_eq] at hp
    rcases hp with ⟨h1, h2⟩ | ⟨h1, h2⟩
    · exact Or.inl (by rw [← h1, ← h2]; simpa using he)
    · exact Or.inr (by rw [← h1, ← h2]; simpa using he)
  · rintro (h | h)
    · exact ⟨(u, v), h, by simp⟩
    · exact ⟨(v, u), h, by simp⟩

theorem hasEdge_of_mem {g : Graph} {e : Nat × Nat} (h : e ∈ g.edges) :
    g.hasEdge e.1 e.2 = true :=
  (hasEdge_iff_mem g e.1 e.2).2 (Or.inl (by simpa using h))

theorem dictApply_zip_self (l : List Nat) (u : Nat) :
    dictApply (l.zip l) u = u := by
  induction l with
  | nil => rfl
  | cons x l ih =>
      unfold dictApply dictGet
      by_cases hx : x = u
      · simp [List.zip_cons_cons, hx]
      · simpa [List.zip_cons_cons, hx] using ih

theorem map_swap_zip_self (l : List Nat) :
    (l.zip l).map (fun p => (p.2, p.1)) = l.zip l := by
  induction l with
  | nil => rfl
  | cons x l ih => simp [List.zip_cons_cons, ih]

theorem trim_zip_self (l : List Nat) : trim (l.zip l) = [] := by
  induction l with
  | nil => rfl
  | cons x l ih => simpa [trim, List.zip_cons_cons] using ih

theorem mem_zip_self {α : Type} {l : List α} {p : α × α} (h : p ∈ l.zip l) :
    p.1 = p.2 := by
  induction l with
  | nil => cases h
  | cons x l ih =>
      rw [List.zip_cons_cons, List.mem_cons] at h
      rcases h with h | h
      · rw [h]
      · exact ih h

theorem length_filter_lt_of_mem_not {α : Type} {l : List α} {x : α}
    (p : α → Bool) (hx : x ∈ l) (hpx : p x = false) :
    (l.filter p).length < l.length := by
  induction l with
  | nil => cases hx
  | cons y l ih =>
      rcases List.mem_cons.1 hx with h | h
      · subst h
        rw [List.filter_cons, hpx]
        exact Nat.lt_succ_of_le (List.length_filter_le p l)
      · rw [List.filter_cons]
        cases hpy : p y with
        | true =>
            simpa using Nat.succ_lt_succ (ih h)
        | false =>
            simpa using Nat.lt_succ_of_lt (ih h)

/-! ### The identity map inside the enumerated isomorphisms -/

theorem nil_mem_graphIsomorphisms_self (g : Graph) :
    [] ∈ graphIsomorphisms g g := by
  unfold graphIsomorphisms
  refine List.mem_map.2 ⟨g.nodes.zip g.nodes, ?_, trim_zip_self g.nodes⟩
  refine List.mem_filter.2 ⟨?_, ?_⟩
  · refine List.mem_map.2 ⟨g.nodes, ?_, rfl⟩
    refine List.mem_filter.2 ⟨List.mem_permutations'.2 (List.Perm.refl _), by simp⟩
  · rw [Bool.and_eq_true]
    constructor
    · refine List.all_eq_true.2 ?_
      intro e he
      rw [dictApply_zip_self, dictApply_zip_self]
      exact hasEdge_of_mem he
    · refine List.all_eq_true.2 ?_
      intro e he
      rw [map_swap_zip_self, dictApply_zip_self, dictApply_zip_self]
      exact hasEdge_of_mem he

theorem nil_mem_partitionPreservingMaps {maps : List (List (Nat × Nat))}
    (partition : List Nat) (h : [] ∈ maps) :
    [] ∈ partitionPreservingMaps maps partition :=
  List.mem_filter.2 ⟨h, by simp⟩

theorem dictEq_nil_nil : dictEq [] [] = true := rfl

theorem nil_mem_foldl_intersectLists (l0 : List (List (Nat × Nat)))
    (rest : List (List (List (Nat × Nat)))) (h0 : [] ∈ l0)
    (hr : ∀ l ∈ rest, [] ∈ l) :
    [] ∈ rest.foldl intersectLists l0 := by
  induction rest generalizing l0 with
  | nil => exact h0
  | cons l rest ih =>
      refine ih (intersectLists l0 l) ?_
        (fun l' hl' => hr l' (List.mem_cons_of_mem _ hl'))
      refine List.mem_filter.2 ⟨h0, ?_⟩
      exact List.any_eq_true.2 ⟨[], hr l (List.mem_cons_self _ _), dictEq_nil_nil⟩

/-- Reflexivity of the implemented isomorphism check for models with at
least one player: the trimmed identity appears in every player's
filtered isomorphism list and survives the intersection. -/
theorem isIsomorphic_refl (m : EpistemicModel)
    (hp : 1 ≤ m.indistGraphs.length) :
    m.isIsomorphic m = some true := by
  unfold EpistemicModel.isIsomorphic
  rw [if_neg (fun h => h rfl), if_neg (fun h => h rfl),
    if_neg (fun h => h rfl)]
  cases hz : (m.indistGraphs.zip m.indistGraphs).map (fun p =>
      partitionPreservingMaps (graphIsomorphisms p.1 p.2) m.lastStates) with
  | nil =>
      exfalso
      have : m.indistGraphs.zip m.indistGraphs = [] := by
        cases hzz : m.indistGraphs.zip m.indistGraphs with
        | nil => rfl
        | cons a l => rw [hzz] at hz; exact List.noConfusion hz
      cases hm : m.indistGraphs with
      | nil => rw [hm] at hp; exact absurd hp (by simp)
      | cons g gs => rw [hm, List.zip_cons_cons] at this; exact List.noConfusion this
  | cons l0 rest =>
      have hmem : ∀ l ∈ l0 :: rest, [] ∈ l := by
        intro l hl
        rw [← hz] at hl
        obtain ⟨pr, hpr, rfl⟩ := List.mem_map.1 hl
        have hpe : pr.1 = pr.2 := mem_zip_self hpr
        refine nil_mem_partitionPreservingMaps _ ?_
        rw [hpe]
        exact nil_mem_graphIsomorphisms_self pr.2
      have : [] ∈ rest.foldl intersectLists l0 :=
        nil_mem_foldl_intersectLists l0 rest
          (hmem l0 (List.mem_cons_self _ _))
          (fun l hl => hmem l (List.mem_cons_of_mem _ hl))
      simp only [Option.some.injEq]
      rw [decide_eq_true_eq]
      exact List.length_pos.2 (fun hnil => by rw [hnil] at this; cases this)

/-! ### The spec's data-model invariants for epistemic models -/

/-- The spec's per-graph invariant (section 3): a well-formed graph whose
vertices are history ids `0 .. n-1`, reflexive on every history. -/
def GraphStd (gr : Graph) (n : Nat) : Prop :=
  gr.WF ∧ (∀ u ∈ gr.nodes, u < n) ∧ ∀ h < n, gr.hasEdge h h

instance (gr : Graph) (n : Nat) : Decidable (GraphStd gr n) := by
  unfold GraphStd; infer_instance

/-- The spec's epistemic-model shape (section 3): every player's graph is
standard over the history ids. -/
def ModelShape (m : EpistemicModel) : Prop :=
  ∀ gr ∈ m.indistGraphs, GraphStd gr m.lastStates.length

instance (m : EpistemicModel) : Decidable (ModelShape m) := by
  unfold ModelShape; infer_instance

theorem nodes_perm_range {gr : Graph} {n : Nat} (h : GraphStd gr n) :
    gr.nodes.Perm (List.range n) := by
  obtain ⟨⟨hnd, hwf⟩, hub, hloop⟩ := h
  refine (List.subperm_of_subset hnd ?_).antisymm
    (List.subperm_of_subset (List.nodup_range n) ?_)
  · intro u hu
    exact List.mem_range.2 (hub u hu)
  · intro u hu
    rcases (hasEdge_iff_mem gr u u).1 (hloop u (List.mem_range.1 hu)) with he | he <;>
      exact (hwf _ he).1

theorem nodes_length_of_std {gr : Graph} {n : Nat} (h : GraphStd gr n) :
    gr.nodes.length = n := by
  simpa using (nodes_perm_range h).length_eq

/-! ### Claim C9: reflexivity of `is_isomorphic` -/

/-- C9 amended: `is_isomorphic(m, m)` returns true for every model with
at least one player; on a model with no players the call does not return
at all (`next(isomorphism_gen)` raises StopIteration, modelled as
`none`). -/
theorem isIsomorphic_self_true (m : EpistemicModel)
    (hp : 1 ≤ m.indistGraphs.length) : m.isIsomorphic m = some true :=
  isIsomorphic_refl m hp

theorem isIsomorphic_self_true_witness :
    EpistemicModel.isIsomorphic ⟨[0], [⟨[0], [(0, 0)]⟩]⟩
      ⟨[0], [⟨[0], [(0, 0)]⟩]⟩ = some true :=
  isIsomorphic_self_true ⟨[0], [⟨[0], [(0, 0)]⟩]⟩ (by decide)

/-- C9 counterexample: the epistemic model of a zero-player game — which
`DistributedGame.__init__` and `EpistemicModel.__init__` both construct
without complaint — makes `is_isomorphic(m, m)` raise StopIteration
(modelled as `none`) instead of returning true. -/
theorem isIsomorphic_self_zero_players_raises :
    (DistributedGame.init ["s"] 0 [] []).map
        (fun g => (EpistemicModel.init g).isIsomorphic (EpistemicModel.init g)) =
      .ok none := rfl

/-! ### Claim C1: what `is_isomorphic` actually decides -/

/-- The isomorphism criterion the claim (and `is_isomorphic`'s own
docstring) states: one bijection `phi` on histories that is a graph
isomorphism for every player's pair of graphs simultaneously and matches
last states across the two models, `self.last_states[x] =
other.last_states[phi(x)]`.  `phi` is the list with `phi[x]` the image
of history `x`. -/
def SimultaneousLabelIso (m1 m2 : EpistemicModel) (phi : List Nat) : Prop :=
  phi.length = m1.lastStates.length ∧
    phi.Nodup ∧
    (∀ v ∈ phi, v < m2.lastStates.length) ∧
    m1.lastStates.length = m2.lastStates.length ∧
    m1.indistGraphs.length = m2.indistGraphs.length ∧
    (∀ x < m1.lastStates.length,
      m1.lastStates.getD x 0 = m2.lastStates.getD (phi.getD x 0) 0) ∧
    ∀ p < m1.indistGraphs.length, ∀ u < m1.lastStates.length,
      ∀ v < m1.lastStates.length,
        ((m1.indistGraphs.getD p Graph.empty).hasEdge u v ↔
          (m2.indistGraphs.getD p Graph.empty).hasEdge
            (phi.getD u 0) (phi.getD v 0))

instance (m1 m2 : EpistemicModel) (phi : List Nat) :
    Decidable (SimultaneousLabelIso m1 m2 phi) := by
  unfold SimultaneousLabelIso; infer_instance

theorem perm_range_of_nodup_bound {phi : List Nat} {n : Nat}
    (hlen : phi.length = n) (hnd : phi.Nodup)
    (hb : ∀ v ∈ phi, v < n) : phi.Perm (List.range n) := by
  refine (List.subperm_of_subset hnd ?_).perm_of_length_le (by simp [hlen])
  intro v hv
  exact List.mem_range.2 (hb v hv)

/-- The false-negative pair for C1: three histories over states `0, 1`
with one player who cannot distinguish the two states.  The renaming
`phi = [0, 2, 1]` preserves last states and both edge sets, yet
`is_isomorphic` answers false. -/
def mFalseNeg1 : EpistemicModel :=
  ⟨[0, 1, 0], [⟨[0, 1, 2], [(0, 0), (1, 1), (2, 2), (0, 1)]⟩]⟩

def mFalseNeg2 : EpistemicModel :=
  ⟨[0, 0, 1], [⟨[0, 1, 2], [(0, 0), (1, 1), (2, 2), (0, 2)]⟩]⟩

/-- The false-positive pair for C1: `is_isomorphic` answers true although
no label-preserving simultaneous isomorphism exists. -/
def mFalsePos1 : EpistemicModel :=
  ⟨[0, 0, 1], [⟨[0, 1, 2], [(0, 0), (1, 1), (2, 2), (0, 1)]⟩]⟩

def mFalsePos2 : EpistemicModel :=
  ⟨[0, 1, 0], [⟨[0, 1, 2], [(0, 0), (1, 1), (2, 2), (0, 1)]⟩]⟩

/-- C1: the code diverges from the claim in both directions, because
`_partition_preserving_maps` is called with `self._last_states` as the
partition for `x` and `f[x]` alike — it never consults the other model's
last states, contradicting `is_isomorphic`'s docstring.  On the first
(well-shaped) pair of models a label-preserving simultaneous isomorphism
exists, yet `is_isomorphic` returns false; on the second pair none
exists, yet it returns true (its trimmed identity candidate passes the
self-referential filter vacuously). -/
theorem isIsomorphic_crossLabel_bug :
    (ModelShape mFalseNeg1 ∧ ModelShape mFalseNeg2 ∧
        SimultaneousLabelIso mFalseNeg1 mFalseNeg2 [0, 2, 1] ∧
        mFalseNeg1.isIsomorphic mFalseNeg2 = some false) ∧
      (ModelShape mFalsePos1 ∧ ModelShape mFalsePos2 ∧
        (∀ phi, ¬ SimultaneousLabelIso mFalsePos1 mFalsePos2 phi) ∧
        mFalsePos1.isIsomorphic mFalsePos2 = some true) := by
  refine ⟨⟨by decide, by decide, by decide, by decide⟩,
    by decide, by decide, ?_, by decide⟩
  have hfin : ∀ phi ∈ (List.range 3).permutations',
      ¬ SimultaneousLabelIso mFalsePos1 mFalsePos2 phi := by decide
  intro phi h
  exact hfin phi
    (List.mem_permutations'.2 (perm_range_of_nodup_bound h.1 h.2.1 h.2.2.1)) h

/-! ### Retraction machinery -/

theorem intersectLists_subset (l1 l2 : List (List (Nat × Nat))) :
    ∀ x ∈ intersectLists l1 l2, x ∈ l1 :=
  fun _ hx => (List.mem_filter.1 hx).1

theorem foldl_intersectLists_subset (l0 : List (List (Nat × Nat)))
    (rest : List (List (List (Nat × Nat)))) :
    ∀ x ∈ rest.foldl intersectLists l0, x ∈ l0 := by
  induction rest generalizing l0 with
  | nil => exact fun x hx => hx
  | cons l rest ih =>
      intro x hx
      exact intersectLists_subset l0 l x (ih (intersectLists l0 l) x hx)

theorem pyMaxByLen_mem {l : List (List (Nat × Nat))} {x : List (Nat × Nat)}
    (h : pyMaxByLen l = some x) : x ∈ l := by
  cases l with
  | nil => cases h
  | cons a as =>
      simp only [pyMaxByLen, Option.some.injEq] at h
      subst h
      have aux : ∀ (xs : List (List (Nat × Nat))) (b : List (Nat × Nat)),
          b ∈ a :: as → (∀ y ∈ xs, y ∈ a :: as) →
          xs.foldl (fun best y => if y.length > best.length then y else best) b ∈
            a :: as := by
        intro xs
        induction xs with
        | nil => intro b hb _; exact hb
        | cons y ys ih =>
            intro b hb hy
            simp only [List.foldl_cons]
            by_cases hc : y.length > b.length
            · rw [if_pos hc]
              exact ih y (hy y (List.mem_cons_self _ _))
                (fun z hz => hy z (List.mem_cons_of_mem _ hz))
            · rw [if_neg hc]
              exact ih b hb (fun z hz => hy z (List.mem_cons_of_mem _ hz))
      exact aux as a (List.mem_cons_self _ _) (fun z hz => List.mem_cons_of_mem _ hz)

theorem self_mem_listProd_const {α : Type} (c : List α) :
    ∀ (l : List α), (∀ x ∈ l, x ∈ c) → l ∈ listProd (l.map fun _ => c) := by
  intro l
  induction l with
  | nil => intro _; exact List.mem_singleton.2 rfl
  | cons x l ih =>
      intro h
      simp only [List.map_cons, listProd, List.mem_flatten, List.mem_map]
      exact ⟨_, ⟨x, h x (List.mem_cons_self _ _), rfl⟩,
        List.mem_map.2 ⟨l, ih (fun y hy => h y (List.mem_cons_of_mem _ hy)), rfl⟩⟩

theorem mem_of_mem_listProd_const {α β : Type} {c : List β} :
    ∀ {l : List α} {vs : List β},
      vs ∈ listProd (l.map fun _ => c) → ∀ x ∈ vs, x ∈ c := by
  intro l
  induction l with
  | nil =>
      intro vs hvs x hx
      rw [List.map_nil] at hvs
      rw [List.mem_singleton.1 hvs] at hx
      cases hx
  | cons a l ih =>
      intro vs hvs x hx
      simp only [List.map_cons, listProd, List.mem_flatten, List.mem_map] at hvs
      obtain ⟨_, ⟨y, hy, rfl⟩, hvs⟩ := hvs
      obtain ⟨ws, hws, rfl⟩ := List.mem_map.1 hvs
      rcases List.mem_cons.1 hx with h | h
      · exact h ▸ hy
      · exact ih hws x h

theorem dictGet_eq_none_of_not_mem_keys {f : List (Nat × Nat)} {u : Nat}
    (h : u ∉ f.map Prod.fst) : dictGet f u = none := by
  induction f with
  | nil => rfl
  | cons p f ih =>
      rw [List.map_cons, List.mem_cons, not_or] at h
      unfold dictGet
      rw [if_neg (fun he => h.1 he.symm), ih h.2]

theorem dictGet_of_mem_nodup {f : List (Nat × Nat)} {x v : Nat}
    (hmem : (x, v) ∈ f) (hnd : (f.map Prod.fst).Nodup) :
    dictGet f x = some v := by
  induction f with
  | nil => cases hmem
  | cons p f ih =>
      rw [List.map_cons, List.nodup_cons] at hnd
      rcases List.mem_cons.1 hmem with h | h
      · rw [← h]
        unfold dictGet
        rw [if_pos rfl]
      · unfold dictGet
        rw [if_neg, ih h hnd.2]
        intro he
        exact hnd.1 (he ▸ List.mem_map.2 ⟨(x, v), h, rfl⟩)

theorem trim_keys_subset (f : List (Nat × Nat)) :
    ∀ u ∈ (trim f).map Prod.fst, u ∈ f.map Prod.fst := by
  intro u hu
  obtain ⟨p, hp, rfl⟩ := List.mem_map.1 hu
  exact List.mem_map.2 ⟨p, List.mem_of_mem_filter hp, rfl⟩

theorem dictApply_trim {f : List (Nat × Nat)}
    (hnd : (f.map Prod.fst).Nodup) (u : Nat) :
    dictApply (trim f) u = dictApply f u := by
  induction f with
  | nil => rfl
  | cons p f ih =>
      rw [List.map_cons, List.nodup_cons] at hnd
      by_cases hp : p.1 = u
      · by_cases hfix : p.1 = p.2
        · have htr : trim (p :: f) = trim f := by
            simp [trim, hfix]
          have hget : dictGet (trim f) u = none := by
            refine dictGet_eq_none_of_not_mem_keys ?_
            intro hu
            refine hnd.1 ?_
            rw [hp]
            exact trim_keys_subset f u hu
          show (dictGet (trim (p :: f)) u).getD u = (dictGet (p :: f) u).getD u
          rw [htr, hget]
          show u = (dictGet (p :: f) u).getD u
          unfold dictGet
          rw [if_pos hp]
          show u = p.2
          rw [← hfix, hp]
        · have htr : trim (p :: f) = p :: trim f := by
            simp [trim, hfix]
          rw [show dictApply (trim (p :: f)) u =
              (dictGet (trim (p :: f)) u).getD u from rfl, htr]
          unfold dictApply dictGet
          rw [if_pos hp, if_pos hp]
      · have step : dictApply (trim (p :: f)) u = dictApply (trim f) u := by
          by_cases hfix : p.1 = p.2
          · have : trim (p :: f) = trim f := by simp [trim, hfix]
            rw [this]
          · have : trim (p :: f) = p :: trim f := by simp [trim, hfix]
            rw [this]
            show (dictGet (p :: trim f) u).getD u = _
            rw [dictGet_cons, if_neg hp]
            rfl
        rw [step, ih hnd.2]
        show (dictGet f u).getD u = (dictGet (p :: f) u).getD u
        rw [dictGet_cons, if_neg hp]

theorem allMaps_elim {dom rng : List Nat} {f : List (Nat × Nat)}
    (h : f ∈ allMaps dom rng) :
    f.map Prod.fst = dom ∧ ∀ p ∈ f, p.2 ∈ rng := by
  unfold allMaps at h
  obtain ⟨vs, hvs, rfl⟩ := List.mem_map.1 h
  have hlen : vs.length = dom.length := by
    simpa using length_of_mem_listProd hvs
  constructor
  · exact List.map_fst_zip dom vs (le_of_eq hlen.symm)
  · intro p hp
    have := (List.of_mem_zip (by simpa using hp)).2
    exact mem_of_mem_listProd_const hvs p.2 this

theorem mem_retractions_elim {gr : Graph} {cr : List (Nat × Nat)}
    (h : cr ∈ retractions gr) :
    ∃ f, cr = trim f ∧ f.map Prod.fst = gr.nodes ∧ (∀ p ∈ f, p.2 ∈ gr.nodes) ∧
      (∀ u ∈ gr.nodes, dictApply f (dictApply f u) = dictApply f u) ∧
      ∀ e ∈ gr.edges, gr.hasEdge (dictApply f e.1) (dictApply f e.2) = true := by
  unfold retractions at h
  obtain ⟨f, hf, rfl⟩ := List.mem_map.1 h
  obtain ⟨hmem, hcond⟩ := List.mem_filter.1 hf
  rw [Bool.and_eq_true] at hcond
  obtain ⟨hkeys, hvals⟩ := allMaps_elim hmem
  refine ⟨f, rfl, hkeys, hvals, ?_, ?_⟩
  · intro u hu
    simpa using List.all_eq_true.1 hcond.1 u hu
  · intro e he
    simpa using List.all_eq_true.1 hcond.2 e he

theorem nil_mem_retractions (gr : Graph) : [] ∈ retractions gr := by
  unfold retractions
  refine List.mem_map.2 ⟨gr.nodes.zip gr.nodes, ?_, trim_zip_self gr.nodes⟩
  refine List.mem_filter.2 ⟨?_, ?_⟩
  · exact List.mem_map.2
      ⟨gr.nodes, self_mem_listProd_const gr.nodes gr.nodes (fun x hx => hx), rfl⟩
  · rw [Bool.and_eq_true]
    constructor
    · refine List.all_eq_true.2 ?_
      intro u _
      rw [dictApply_zip_self, dictApply_zip_self]
      exact beq_self_eq_true u
    · refine List.all_eq_true.2 ?_
      intro e he
      rw [dictApply_zip_self, dictApply_zip_self]
      exact hasEdge_of_mem he

theorem dictApply_mem_of_keys {f : List (Nat × Nat)} {dom : List Nat}
    (hkeys : f.map Prod.fst = dom) (hnd : dom.Nodup)
    (hvals : ∀ p ∈ f, p.2 ∈ dom) {u : Nat} (hu : u ∈ dom) :
    dictApply f u ∈ dom := by
  rw [← hkeys] at hu
  obtain ⟨p, hp, hp1⟩ := List.mem_map.1 hu
  have : dictGet f u = some p.2 := by
    refine dictGet_of_mem_nodup ?_ (by rw [hkeys]; exact hnd)
    rw [← hp1]
    simpa using hp
  unfold dictApply
  rw [this]
  exact hvals p hp

theorem retract_nodes_length_lt {gr : Graph} {n : Nat} (hstd : GraphStd gr n)
    {cr : List (Nat × Nat)} (hmem : cr ∈ retractions gr) (hne : cr ≠ []) :
    (gr.relabel (dictApply cr)).nodes.length < n := by
  obtain ⟨f, rfl, hkeys, hvals, hidem, _⟩ := mem_retractions_elim hmem
  have hndnodes : gr.nodes.Nodup := hstd.1.1
  have hndkeys : (f.map Prod.fst).Nodup := by rw [hkeys]; exact hndnodes
  have happly : ∀ u, dictApply (trim f) u = dictApply f u :=
    fun u => dictApply_trim hndkeys u
  have hmapeq : gr.nodes.map (dictApply (trim f)) = gr.nodes.map (dictApply f) :=
    List.map_congr_left (fun u _ => happly u)
  have hperm : ((gr.nodes.map (dictApply f)).dedup).Perm
      (gr.nodes.filter (fun u => dictApply f u == u)) := by
    refine (List.subperm_of_subset (List.nodup_dedup _) ?_).antisymm
      (List.subperm_of_subset (List.Nodup.filter _ hndnodes) ?_)
    · intro x hx
      obtain ⟨u, hu, rfl⟩ := List.mem_map.1 (List.mem_dedup.1 hx)
      refine List.mem_filter.2 ⟨dictApply_mem_of_keys hkeys hndnodes hvals hu, ?_⟩
      simpa using hidem u hu
    · intro x hx
      obtain ⟨hxn, hxfix⟩ := List.mem_filter.1 hx
      refine List.mem_dedup.2 (List.mem_map.2 ⟨x, hxn, ?_⟩)
      simpa using hxfix
  have hlt : (gr.nodes.filter (fun u => dictApply f u == u)).length <
      gr.nodes.length := by
    obtain ⟨p, hp⟩ := List.exists_mem_of_ne_nil _ hne
    obtain ⟨hpf, hpne⟩ := List.mem_filter.1 hp
    have hp1 : p.1 ∈ gr.nodes := by
      rw [← hkeys]
      exact List.mem_map.2 ⟨p, hpf, rfl⟩
    have hval : dictApply f p.1 = p.2 := by
      unfold dictApply
      rw [dictGet_of_mem_nodup (by simpa using hpf) hndkeys]
      rfl
    refine length_filter_lt_of_mem_not _ hp1 ?_
    rw [hval]
    simpa using fun h => (by simpa using hpne : p.1 ≠ p.2) h.symm
  calc (gr.relabel (dictApply (trim f))).nodes.length
      = ((gr.nodes.map (dictApply f)).dedup).length := by
        unfold Graph.relabel
        rw [hmapeq]
    _ = (gr.nodes.filter (fun u => dictApply f u == u)).length := hperm.length_eq
    _ < gr.nodes.length := hlt
    _ = n := nodes_length_of_std hstd

theorem isIsomorphic_of_length_ne (m1 m2 : EpistemicModel)
    (h : m1.lastStates.length ≠ m2.lastStates.length) :
    m1.isIsomorphic m2 = some false := by
  unfold EpistemicModel.isIsomorphic
  rw [if_pos h]

theorem newSubmodel_lastStates_length (hs : List Nat) (ls : List Nat)
    (grs : List Graph) :
    (EpistemicModel.newSubmodel hs ls grs).lastStates.length = hs.length := by
  simp [EpistemicModel.newSubmodel]

theorem pyMaxByLen_eq_none_iff (l : List (List (Nat × Nat))) :
    pyMaxByLen l = none ↔ l = [] := by
  cases l <;> simp [pyMaxByLen]

theorem coreOf_eq_self_or_shrinks (m : EpistemicModel)
    (hp : 1 ≤ m.indistGraphs.length) (hs : ModelShape m) :
    m.coreOf = some m ∨
      ∃ c, m.coreOf = some c ∧ c.lastStates.length < m.lastStates.length := by
  unfold EpistemicModel.coreOf
  cases hm : m.indistGraphs with
  | nil => rw [hm] at hp; exact absurd hp (by simp)
  | cons g0 gs =>
      simp only [List.map_cons]
      have hnil : [] ∈ (gs.map (fun gr =>
          partitionPreservingMaps (retractions gr) m.lastStates)).foldl
            intersectLists
            (partitionPreservingMaps (retractions g0) m.lastStates) := by
        refine nil_mem_foldl_intersectLists _ _
          (nil_mem_partitionPreservingMaps _ (nil_mem_retractions g0)) ?_
        intro l hl
        obtain ⟨gr, _, rfl⟩ := List.mem_map.1 hl
        exact nil_mem_partitionPreservingMaps _ (nil_mem_retractions gr)
      cases hmax : pyMaxByLen ((gs.map (fun gr =>
          partitionPreservingMaps (retractions gr) m.lastStates)).foldl
            intersectLists
            (partitionPreservingMaps (retractions g0) m.lastStates)) with
      | none =>
          exfalso
          rw [pyMaxByLen_eq_none_iff] at hmax
          rw [hmax] at hnil
          cases hnil
      | some cr =>
          dsimp only
          by_cases hcr : cr.length = 0
          · left
            rw [if_pos hcr]
          · right
            rw [if_neg hcr]
            refine ⟨_, rfl, ?_⟩
            have hcrmem : cr ∈ retractions g0 := by
              have h1 := foldl_intersectLists_subset _ _ cr (pyMaxByLen_mem hmax)
              exact (List.mem_filter.1 h1).1
            have hstd : GraphStd g0 m.lastStates.length := by
              refine hs g0 ?_
              rw [hm]
              exact List.mem_cons_self _ _
            have hlt := retract_nodes_length_lt hstd hcrmem
              (fun hnl => hcr (by rw [hnl]; rfl))
            rw [newSubmodel_lastStates_length]
            simpa [retract] using hlt

/-! ### Claim C3: `is_isomorphic(core(m), m)` -/

/-- C3 amended: for a model with at least one player whose graphs have
the spec's shape, `is_isomorphic(core(m), m)` returns true iff the model
is already its own core (`core` returns `m` itself); whenever `core`
properly reduces the model, the history counts differ and
`is_isomorphic` returns false at its first check, so the claim fails for
every reducible model. -/
theorem isIsomorphic_core_iff (m : EpistemicModel)
    (hp : 1 ≤ m.indistGraphs.length) (hs : ModelShape m) :
    m.coreOf.map (fun c => c.isIsomorphic m) = some (some true) ↔
      m.coreOf = some m := by
  constructor
  · intro h
    rcases coreOf_eq_self_or_shrinks m hp hs with hc | ⟨c, hc, hlt⟩
    · exact hc
    · rw [hc] at h
      simp only [Option.map_some'] at h
      rw [isIsomorphic_of_length_ne c m (Nat.ne_of_lt hlt)] at h
      exact absurd (Option.some.inj h) (by simp)
  · intro hc
    rw [hc]
    simp only [Option.map_some']
    rw [isIsomorphic_refl m hp]

theorem isIsomorphic_core_iff_witness :
    (EpistemicModel.coreOf ⟨[0], [⟨[0], [(0, 0)]⟩]⟩).map
        (fun c => c.isIsomorphic ⟨[0], [⟨[0], [(0, 0)]⟩]⟩) =
      some (some true) :=
  (isIsomorphic_core_iff ⟨[0], [⟨[0], [(0, 0)]⟩]⟩ (by decide) (by decide)).2
    (by decide)

/-- C3 counterexample: a two-history model that `core` properly reduces
(both histories end in state 0 and the single player cannot distinguish
them).  The core has one history, so `is_isomorphic(core(m), m)`
compares the history counts 1 and 2 and returns false, not true. -/
theorem isIsomorphic_core_counterexample :
    (EpistemicModel.coreOf ⟨[0, 0], [⟨[0, 1], [(0, 0), (1, 1), (0, 1)]⟩]⟩).map
        (fun c => c.isIsomorphic ⟨[0, 0], [⟨[0, 1], [(0, 0), (1, 1), (0, 1)]⟩]⟩) =
      some (some false) := by decide

/-! ### Claim C6: counting compatible assignments -/

theorem compatibleActions_length (gr : Graph) (actions : List String) :
    (EpistemicModel.compatibleActions gr actions).length =
      actions.length ^ gr.connectedComponents.length := by
  unfold EpistemicModel.compatibleActions listPow
  rw [List.length_map, listProd_length, List.map_replicate, List.prod_replicate]

/-- C6: `_compatible_joint_actions` yields exactly
`prod over players of |A_p| ^ c_p` assignments, where `|A_p|` is the
size of the player's (deduplicated, so distinct) action list and `c_p`
the number of connected components of that player's
indistinguishability graph; for a one-player model this is the claimed
`m ^ k`. -/
theorem compatibleJointActions_count (g : DistributedGame)
    (m : EpistemicModel) :
    (EpistemicModel.compatibleJointActions g m).length =
      ((List.range m.playerCount).map (fun p =>
        (g.getActions p).length ^
          ((m.indistGraphs.getD p Graph.empty).connectedComponents).length)).prod ∧
      (m.playerCount = 1 →
        (EpistemicModel.compatibleJointActions g m).length =
          (g.getActions 0).length ^
            ((m.indistGraphs.getD 0 Graph.empty).connectedComponents).length) := by
  have hmain : (EpistemicModel.compatibleJointActions g m).length =
      ((List.range m.playerCount).map (fun p =>
        (g.getActions p).length ^
          ((m.indistGraphs.getD p Graph.empty).connectedComponents).length)).prod := by
    unfold EpistemicModel.compatibleJointActions
    rw [List.length_map, listProd_length, List.map_map]
    refine congrArg List.prod (List.map_congr_left ?_)
    intro p _
    exact compatibleActions_length (m.indistGraphs.getD p Graph.empty)
      (g.getActions p)
  refine ⟨hmain, ?_⟩
  intro h1
  rw [hmain, h1]
  rw [List.range_succ, List.range_zero, List.nil_append, List.map_cons,
    List.map_nil, List.prod_cons, List.prod_nil, Nat.mul_one]

theorem compatibleJointActions_count_witness :
    (EpistemicModel.compatibleJointActions Gw (EpistemicModel.init Gw)).length =
        ((List.range (EpistemicModel.init Gw).playerCount).map (fun p =>
          (Gw.getActions p).length ^
            (((EpistemicModel.init Gw).indistGraphs.getD p
              Graph.empty).connectedComponents).length)).prod ∧
      ((EpistemicModel.init Gw).playerCount = 1 →
        (EpistemicModel.compatibleJointActions Gw
            (EpistemicModel.init Gw)).length =
          (Gw.getActions 0).length ^
            (((EpistemicModel.init Gw).indistGraphs.getD 0
              Graph.empty).connectedComponents).length) :=
  compatibleJointActions_count Gw (EpistemicModel.init Gw)

/-! ### Claim C2: assignment multiplicity in `unfold` -/

/-- C2 counterexample: a one-player game on states `s0, s1, s2` with the
single action `a`, `(a, s0) -> (s1, s2)` non-deterministic and all
states distinguishable.  The initial model has exactly one compatible
assignment, but `next` splits the successor into two submodels, and
`unfold` pairs the same assignment list with each of them: the
assignment occurs twice across the output lists, not exactly once. -/
theorem unfold_duplicates_assignment_across_split :
    (DistributedGame.init ["s0", "s1", "s2"] 0 [["a"]] [[]]).map (fun g0 =>
      ((EpistemicModel.unfold ((g0.setItem (["a"], 0) [1, 2]).1)
          (EpistemicModel.init ((g0.setItem (["a"], 0) [1, 2]).1)) true).map
        (fun out => (out.map (fun pr => pr.2.count [["a"]])).sum),
       (EpistemicModel.compatibleJointActions ((g0.setItem (["a"], 0) [1, 2]).1)
          (EpistemicModel.init ((g0.setItem (["a"], 0) [1, 2]).1))).count
         [["a"]])) = .ok (some 2, 1) := rfl

/-! ### Connected components partition the nodes -/

theorem ccStep_flatten_perm (comps : List (List Nat)) (e : Nat × Nat) :
    ((Graph.ccStep comps e).flatten).Perm comps.flatten := by
  unfold Graph.ccStep
  dsimp only
  by_cases ht : (comps.filter
      (fun c => c.contains e.1 || c.contains e.2)).isEmpty
  · rw [if_pos ht]
  · rw [if_neg ht]
    have hp : ((comps.filter (fun c => c.contains e.1 || c.contains e.2)) ++
        (comps.filter (fun c => !(c.contains e.1 || c.contains e.2)))).Perm
          comps := List.filter_append_perm _ comps
    have hpf := hp.flatten
    rw [List.flatten_append] at hpf
    rw [List.flatten_cons]
    exact hpf

theorem foldl_ccStep_flatten_perm (es : List (Nat × Nat)) :
    ∀ comps : List (List Nat),
      ((es.foldl Graph.ccStep comps).flatten).Perm comps.flatten := by
  induction es with
  | nil => exact fun comps => List.Perm.refl _
  | cons e es ih =>
      intro comps
      exact (ih (Graph.ccStep comps e)).trans (ccStep_flatten_perm comps e)

theorem connectedComponents_flatten_perm (g : Graph) :
    (g.connectedComponents.flatten).Perm g.nodes := by
  unfold Graph.connectedComponents
  refine (foldl_ccStep_flatten_perm g.edges _).trans ?_
  have : ∀ l : List Nat, (l.map (fun u => [u])).flatten = l := by
    intro l
    induction l with
    | nil => rfl
    | cons x l ih => simp [ih]
  rw [this g.nodes]

theorem connectedComponents_ne_nil (g : Graph) :
    ∀ c ∈ g.connectedComponents, c ≠ [] := by
  unfold Graph.connectedComponents
  have aux : ∀ (es : List (Nat × Nat)) (comps : List (List Nat)),
      (∀ c ∈ comps, c ≠ []) → ∀ c ∈ es.foldl Graph.ccStep comps, c ≠ [] := by
    intro es
    induction es with
    | nil => exact fun comps h => h
    | cons e es ih =>
        intro comps h
        refine ih (Graph.ccStep comps e) ?_
        intro c hc
        unfold Graph.ccStep at hc
        dsimp only at hc
        by_cases ht : (comps.filter
            (fun c => c.contains e.1 || c.contains e.2)).isEmpty
        · rw [if_pos ht] at hc
          exact h c hc
        · rw [if_neg ht] at hc
          rcases List.mem_cons.1 hc with hc | hc
          · subst hc
            cases hf : comps.filter (fun c => c.contains e.1 || c.contains e.2) with
            | nil => rw [hf] at ht; exact absurd rfl ht
            | cons c0 cs =>
                rw [List.flatten_cons]
                have hc0 : c0 ≠ [] := h c0 (List.mem_of_mem_filter
                  (hf ▸ List.mem_cons_self c0 cs))
                intro hnil
                exact hc0 (List.append_eq_nil.1 hnil).1
          · exact h c (List.mem_of_mem_filter hc)
  intro c hc
  refine aux g.edges _ ?_ c hc
  intro c' hc'
  obtain ⟨u, _, rfl⟩ := List.mem_map.1 hc'
  exact List.cons_ne_nil u []

/-! ### The class dict of `_compatible_actions` -/

theorem innerFold_dictGet_skip (c : List Nat) (act : String)
    (d : List (Nat × String)) (h : Nat) (hh : h ∉ c) :
    dictGet (c.foldl (fun d x => dictSet d x act) d) h = dictGet d h := by
  induction c generalizing d with
  | nil => rfl
  | cons x c ih =>
      rw [List.mem_cons, not_or] at hh
      rw [List.foldl_cons, ih _ hh.2, dictGet_dictSet,
        if_neg (fun e => hh.1 e.symm)]

theorem innerFold_dictGet_hit (c : List Nat) (act : String)
    (d : List (Nat × String)) (h : Nat) (hh : h ∈ c) :
    dictGet (c.foldl (fun d x => dictSet d x act) d) h = some act := by
  induction c generalizing d with
  | nil => cases hh
  | cons x c ih =>
      rw [List.foldl_cons]
      by_cases hc : h ∈ c
      · exact ih _ hc
      · have hx : x = h := by
          rcases List.mem_cons.1 hh with h1 | h1
          · exact h1.symm
          · exact absurd h1 hc
        rw [innerFold_dictGet_skip c act _ h hc, dictGet_dictSet, if_pos hx]

theorem outerFold_dictGet_skip (pairs : List (List Nat × String))
    (d : List (Nat × String)) (h : Nat)
    (hh : h ∉ (pairs.map Prod.fst).flatten) :
    dictGet (pairs.foldl
      (fun d p => p.1.foldl (fun d x => dictSet d x p.2) d) d) h =
      dictGet d h := by
  induction pairs generalizing d with
  | nil => rfl
  | cons p pairs ih =>
      rw [List.map_cons, List.flatten_cons, List.mem_append, not_or] at hh
      rw [List.foldl_cons, ih _ hh.2, innerFold_dictGet_skip _ _ _ _ hh.1]

theorem outerFold_dictGet_hit (pairs : List (List Nat × String))
    (c : List Nat) (act : String) (h : Nat)
    (hnd : ((pairs.map Prod.fst).flatten).Nodup)
    (hmem : (c, act) ∈ pairs) (hh : h ∈ c) :
    ∀ d, dictGet (pairs.foldl
      (fun d p => p.1.foldl (fun d x => dictSet d x p.2) d) d) h =
      some act := by
  induction pairs with
  | nil => cases hmem
  | cons p pairs ih =>
      intro d
      rw [List.map_cons, List.flatten_cons] at hnd
      rcases List.mem_cons.1 hmem with h1 | h1
      · have hnot : h ∉ (pairs.map Prod.fst).flatten := by
          intro hmem2
          exact (List.disjoint_of_nodup_append hnd) (h1 ▸ hh) hmem2
        rw [List.foldl_cons, outerFold_dictGet_skip _ _ _ hnot]
        have h2 : p.1 = c ∧ p.2 = act := by
          constructor
          · exact congrArg Prod.fst h1.symm
          · exact congrArg Prod.snd h1.symm
        rw [h2.1]
        exact h2.2 ▸ innerFold_dictGet_hit c _ d h hh
      · rw [List.foldl_cons]
        exact ih (List.Nodup.of_append_right hnd) h1 _

theorem EpistemicModel.buildClassDict_eq_flat (classes : List (List Nat))
    (classActions : List String) :
    EpistemicModel.buildClassDict classes classActions =
      (((classes.zip classActions).map
        (fun p => p.1.map (fun h => (h, p.2)))).flatten).foldl
          (fun d kv => dictSet d kv.1 kv.2) [] := by
  unfold EpistemicModel.buildClassDict
  generalize ([] : List (Nat × String)) = d
  induction (classes.zip classActions) generalizing d with
  | nil => rfl
  | cons p pairs ih =>
      rw [List.foldl_cons, List.map_cons, List.flatten_cons, List.foldl_append,
        ih]
      congr 1
      generalize d = d0
      induction p.1 generalizing d0 with
      | nil => rfl
      | cons x c ihc => rw [List.foldl_cons, List.map_cons, List.foldl_cons, ihc]

theorem EpistemicModel.buildClassDict_keys_nodup (classes : List (List Nat))
    (classActions : List String) :
    ((EpistemicModel.buildClassDict classes classActions).map Prod.fst).Nodup := by
  rw [EpistemicModel.buildClassDict_eq_flat]
  exact foldl_dictSet_keys_nodup _ [] (by simp)

theorem dictGet_isSome_dictSet {α β : Type} [DecidableEq α]
    (d : List (α × β)) (k u : α) (v : β)
    (h : (dictGet d u).isSome) : (dictGet (dictSet d k v) u).isSome := by
  rw [dictGet_dictSet]
  by_cases hk : k = u
  · rw [if_pos hk]; rfl
  · rw [if_neg hk]; exact h

theorem innerFold_isSome_mono (c : List Nat) (act : String)
    (d : List (Nat × String)) (u : Nat) (h : (dictGet d u).isSome) :
    (dictGet (c.foldl (fun d x => dictSet d x act) d) u).isSome := by
  induction c generalizing d with
  | nil => exact h
  | cons x c ih =>
      rw [List.foldl_cons]
      exact ih _ (dictGet_isSome_dictSet d x u act h)

theorem outerFold_isSome_mono (pairs : List (List Nat × String))
    (d : List (Nat × String)) (u : Nat) (h : (dictGet d u).isSome) :
    (dictGet (pairs.foldl
      (fun d p => p.1.foldl (fun d x => dictSet d x p.2) d) d) u).isSome := by
  induction pairs generalizing d with
  | nil => exact h
  | cons p pairs ih =>
      rw [List.foldl_cons]
      exact ih _ (innerFold_isSome_mono p.1 p.2 d u h)

theorem outerFold_isSome_of_mem (pairs : List (List Nat × String))
    (c : List Nat) (act : String) (u : Nat)
    (hpair : (c, act) ∈ pairs) (hu : u ∈ c) :
    ∀ d, (dictGet (pairs.foldl
      (fun d p => p.1.foldl (fun d x => dictSet d x p.2) d) d) u).isSome := by
  induction pairs with
  | nil => cases hpair
  | cons p pairs ih =>
      intro d
      rw [List.foldl_cons]
      rcases List.mem_cons.1 hpair with h1 | h1
      · refine outerFold_isSome_mono pairs _ u ?_
        have hp1 : p.1 = c := congrArg Prod.fst h1.symm
        rw [innerFold_dictGet_hit p.1 p.2 _ u (hp1 ▸ hu)]
        rfl
      · exact ih h1 _

/-- A history of any zipped class is a key of the class dict. -/
theorem innerOuter_isSome {classes : List (List Nat)}
    {classActions : List String} {c : List Nat} {act : String} {u : Nat}
    (hpair : (c, act) ∈ classes.zip classActions) (hu : u ∈ c) :
    (dictGet (EpistemicModel.buildClassDict classes classActions) u).isSome := by
  unfold EpistemicModel.buildClassDict
  exact outerFold_isSome_of_mem _ c act u hpair hu []

theorem EpistemicModel.buildClassDict_mem_keys (classes : List (List Nat))
    (classActions : List String)
    (hlen : classActions.length = classes.length) (u : Nat) :
    (u ∈ (EpistemicModel.buildClassDict classes classActions).map Prod.fst ↔
      u ∈ classes.flatten) := by
  have hkeyiff : ∀ d : List (Nat × String),
      u ∈ d.map Prod.fst ↔ (dictGet d u).isSome := by
    intro d
    rw [dictGet_isSome_iff]
    constructor
    · intro hu
      obtain ⟨p, hp, hp1⟩ := List.mem_map.1 hu
      exact ⟨p.2, by rw [← hp1]; simpa using hp⟩
    · rintro ⟨v, hv⟩
      exact List.mem_map.2 ⟨(u, v), hv, rfl⟩
  rw [hkeyiff]
  constructor
  · intro hsome
    by_contra hnot
    have hfz : (classes.zip classActions).map Prod.fst = classes :=
      List.map_fst_zip classes classActions (le_of_eq hlen.symm)
    have := outerFold_dictGet_skip (classes.zip classActions) [] u
      (by rw [hfz]; exact hnot)
    unfold EpistemicModel.buildClassDict at hsome
    rw [this] at hsome
    cases hsome
  · intro hu
    obtain ⟨c, hc, hu⟩ := List.mem_flatten.1 hu
    obtain ⟨j, hj, hcj⟩ := List.mem_iff_getElem.1 hc
    have hja : j < classActions.length := by omega
    have hjz : j < (classes.zip classActions).length := by
      rw [List.length_zip]
      omega
    have hpair : (c, classActions[j]) ∈ classes.zip classActions := by
      have hz : (classes.zip classActions)[j] =
          (classes[j], classActions[j]) := List.getElem_zip
      rw [← hcj, ← hz]
      exact List.getElem_mem hjz
    exact innerOuter_isSome hpair hu

theorem buildClassDict_keys_perm (classes : List (List Nat))
    (classActions : List String)
    (hlen : classActions.length = classes.length)
    (hnd : classes.flatten.Nodup) :
    ((EpistemicModel.buildClassDict classes classActions).map Prod.fst).Perm
      classes.flatten := by
  refine (List.subperm_of_subset (EpistemicModel.buildClassDict_keys_nodup _ _) ?_).antisymm
    (List.subperm_of_subset hnd ?_)
  · intro u hu
    exact (EpistemicModel.buildClassDict_mem_keys classes classActions hlen u).1 hu
  · intro u hu
    exact (EpistemicModel.buildClassDict_mem_keys classes classActions hlen u).2 hu

theorem buildClassDict_length (classes : List (List Nat))
    (classActions : List String)
    (hlen : classActions.length = classes.length)
    (hnd : classes.flatten.Nodup) :
    (EpistemicModel.buildClassDict classes classActions).length =
      classes.flatten.length := by
  have := (buildClassDict_keys_perm classes classActions hlen hnd).length_eq
  simpa using this

theorem buildClassDict_lookup (classes : List (List Nat))
    (classActions : List String)
    (hlen : classActions.length = classes.length)
    (hnd : classes.flatten.Nodup) {c : List Nat} {act : String} {h : Nat}
    (hpair : (c, act) ∈ classes.zip classActions) (hh : h ∈ c) :
    dictGet (EpistemicModel.buildClassDict classes classActions) h =
      some act := by
  unfold EpistemicModel.buildClassDict
  refine outerFold_dictGet_hit _ c act h ?_ hpair hh []
  rw [List.map_fst_zip classes classActions (le_of_eq hlen.symm)]
  exact hnd

theorem listProd_nodup {α : Type} [DecidableEq α] {ls : List (List α)}
    (h : ∀ l ∈ ls, l.Nodup) : (listProd ls).Nodup := by
  induction ls with
  | nil => simp [listProd]
  | cons l ls ih =>
      unfold listProd
      rw [List.nodup_flatten]
      constructor
      · intro sub hsub
        obtain ⟨x, _, rfl⟩ := List.mem_map.1 hsub
        refine List.Nodup.map ?_ (ih (fun l' hl' => h l' (List.mem_cons_of_mem _ hl')))
        intro a b hab
        exact List.tail_eq_of_cons_eq hab
      · rw [List.pairwise_map]
        refine List.Pairwise.imp ?_ (h l (List.mem_cons_self _ _))
        intro x y hxy z hz1 hz2
        obtain ⟨w, _, rfl⟩ := List.mem_map.1 hz1
        obtain ⟨w', _, hw'⟩ := List.mem_map.1 hz2
        exact hxy (List.head_eq_of_cons_eq hw'.symm)

theorem listPow_length_of_mem {α : Type} {l : List α} {k : Nat}
    {x : List α} (h : x ∈ listPow l k) : x.length = k := by
  unfold listPow at h
  simpa using length_of_mem_listProd h

theorem listPow_nodup {α : Type} [DecidableEq α] {l : List α} (k : Nat)
    (h : l.Nodup) : (listPow l k).Nodup := by
  unfold listPow
  refine listProd_nodup ?_
  intro l' hl'
  rw [List.eq_of_mem_replicate hl']
  exact h

/-! ### Facts about `_compatible_actions` tuples -/

theorem compatibleActions_tuple_length {gr : Graph} {n : Nat}
    (hstd : GraphStd gr n) {actions : List String} {t : List String}
    (ht : t ∈ EpistemicModel.compatibleActions gr actions) : t.length = n := by
  unfold EpistemicModel.compatibleActions at ht
  obtain ⟨ca, hca, rfl⟩ := List.mem_map.1 ht
  have hflat := connectedComponents_flatten_perm gr
  have hnd : gr.connectedComponents.flatten.Nodup :=
    (hflat.nodup_iff).2 hstd.1.1
  have hlen : ca.length = gr.connectedComponents.length := listPow_length_of_mem hca
  rw [List.length_map, List.length_range,
    buildClassDict_length _ _ hlen hnd, hflat.length_eq]
  exact nodes_length_of_std hstd

theorem compatibleActions_tuple_value {gr : Graph} {n : Nat}
    (hstd : GraphStd gr n) {actions : List String} {ca : List String}
    (hca : ca ∈ listPow actions gr.connectedComponents.length)
    {c : List Nat} {act : String} {h : Nat}
    (hpair : (c, act) ∈ gr.connectedComponents.zip ca) (hh : h ∈ c) :
    ((List.range (EpistemicModel.buildClassDict gr.connectedComponents ca).length).map
      (fun i => (dictGet (EpistemicModel.buildClassDict gr.connectedComponents ca) i).getD "")).getD
        h "" = act := by
  have hflat := connectedComponents_flatten_perm gr
  have hnd : gr.connectedComponents.flatten.Nodup :=
    (hflat.nodup_iff).2 hstd.1.1
  have hlen : ca.length = gr.connectedComponents.length := listPow_length_of_mem hca
  have hdlen : (EpistemicModel.buildClassDict gr.connectedComponents ca).length =
      n := by
    rw [buildClassDict_length _ _ hlen hnd, hflat.length_eq]
    exact nodes_length_of_std hstd
  have hhn : h < n := by
    have hmemflat : h ∈ gr.connectedComponents.flatten := by
      refine List.mem_flatten.2 ⟨c, ?_, hh⟩
      have := List.of_mem_zip hpair
      exact this.1
    exact hstd.2.1 h (hflat.mem_iff.1 hmemflat)
  have hget : dictGet (EpistemicModel.buildClassDict gr.connectedComponents ca)
      h = some act := buildClassDict_lookup _ _ hlen hnd hpair hh
  rw [List.getD_eq_getElem _ _ (by rw [List.length_map, List.length_range, hdlen]; exact hhn)]
  rw [List.getElem_map, List.getElem_range, hget]
  rfl

theorem compatibleActions_nodup {gr : Graph} {n : Nat}
    (hstd : GraphStd gr n) {actions : List String} (hact : actions.Nodup) :
    (EpistemicModel.compatibleActions gr actions).Nodup := by
  unfold EpistemicModel.compatibleActions
  dsimp only
  refine List.Nodup.map_on ?_ (listPow_nodup _ hact)
  intro ca hca ca' hca' heq
  by_contra hne
  have hlen : ca.length = gr.connectedComponents.length := listPow_length_of_mem hca
  have hlen' : ca'.length = gr.connectedComponents.length :=
    listPow_length_of_mem hca'
  have hdiff : ∃ j, ∃ hj : j < ca.length, ∃ hj2 : j < ca'.length,
      ca.get ⟨j, hj⟩ ≠ ca'.get ⟨j, hj2⟩ := by
    by_contra hall
    push_neg at hall
    refine hne (List.ext_getElem (by omega) ?_)
    intro j h1 h2
    have hj12 := hall j h1 h2
    rw [List.get_eq_getElem, List.get_eq_getElem] at hj12
    exact hj12
  obtain ⟨j, hj, hj2, hnej⟩ := hdiff
  rw [List.get_eq_getElem, List.get_eq_getElem] at hnej
  have hjc : j < gr.connectedComponents.length := by omega
  have hjz : j < (gr.connectedComponents.zip ca).length := by
    rw [List.length_zip]
    omega
  have hjz2 : j < (gr.connectedComponents.zip ca').length := by
    rw [List.length_zip]
    omega
  have hc0 : gr.connectedComponents[j] ≠ [] :=
    connectedComponents_ne_nil gr _ (List.getElem_mem hjc)
  obtain ⟨h0, hh0⟩ := List.exists_mem_of_ne_nil _ hc0
  have hpair : (gr.connectedComponents[j], ca[j]) ∈
      gr.connectedComponents.zip ca := by
    have hz : (gr.connectedComponents.zip ca)[j] =
        (gr.connectedComponents[j], ca[j]) := List.getElem_zip
    exact hz ▸ List.getElem_mem _
  have hpair2 : (gr.connectedComponents[j], ca'[j]) ∈
      gr.connectedComponents.zip ca' := by
    have hz : (gr.connectedComponents.zip ca')[j] =
        (gr.connectedComponents[j], ca'[j]) := List.getElem_zip
    exact hz ▸ List.getElem_mem _
  have hv := compatibleActions_tuple_value hstd hca hpair hh0
  have hv2 := compatibleActions_tuple_value hstd hca' hpair2 hh0
  rw [heq] at hv
  rw [hv] at hv2
  exact hnej hv2

/-! ### Transposition (`zip`) facts -/

theorem foldl_min_const (xs : List Nat) (n : Nat) (h : ∀ x ∈ xs, x = n) :
    xs.foldl min n = n := by
  induction xs with
  | nil => rfl
  | cons x xs ih =>
      rw [List.foldl_cons, h x (List.mem_cons_self _ _), Nat.min_self]
      exact ih (fun y hy => h y (List.mem_cons_of_mem _ hy))

theorem filterMap_get_eq_map {α : Type} (x : List (List α)) (i : Nat) (d : α)
    (h : ∀ t ∈ x, i < t.length) :
    x.filterMap (fun l => l.get? i) = x.map (fun t => t.getD i d) := by
  induction x with
  | nil => rfl
  | cons t x ih =>
      rw [List.filterMap_cons, List.map_cons]
      have hi := h t (List.mem_cons_self _ _)
      rw [List.get?_eq_getElem? , List.getElem?_eq_getElem hi]
      rw [ih (fun t' ht' => h t' (List.mem_cons_of_mem _ ht'))]
      rw [List.getD_eq_getElem _ _ hi]

theorem zipRows_eq {α : Type} (x : List (List α)) (n : Nat) (d : α)
    (hx : ∀ t ∈ x, t.length = n) (hne : x ≠ []) :
    zipRows x = (List.range n).map (fun i => x.map (fun t => t.getD i d)) := by
  cases x with
  | nil => exact absurd rfl hne
  | cons l0 rest =>
      unfold zipRows
      dsimp only
      have hmin : (rest.map List.length).foldl min l0.length = n := by
        rw [hx l0 (List.mem_cons_self _ _)]
        refine foldl_min_const _ _ ?_
        intro len hlen
        obtain ⟨t, ht, rfl⟩ := List.mem_map.1 hlen
        exact hx t (List.mem_cons_of_mem _ ht)
      rw [hmin]
      refine List.map_congr_left ?_
      intro i hi
      refine filterMap_get_eq_map _ i d ?_
      intro t ht
      rw [hx t ht]
      exact List.mem_range.1 hi

theorem zipRows_injOn {α : Type} (d : α) (n : Nat) {x y : List (List α)}
    (hx : ∀ t ∈ x, t.length = n) (hy : ∀ t ∈ y, t.length = n)
    (hlen : x.length = y.length) (heq : zipRows x = zipRows y) : x = y := by
  cases hxc : x with
  | nil =>
      cases hyc : y with
      | nil => rfl
      | cons t ys => rw [hxc, hyc] at hlen; cases hlen
  | cons t0 xs =>
      cases hyc : y with
      | nil => rw [hxc, hyc] at hlen; cases hlen
      | cons u0 ys =>
          subst hxc
          subst hyc
          rw [zipRows_eq _ n d hx (List.cons_ne_nil _ _),
            zipRows_eq _ n d hy (List.cons_ne_nil _ _)] at heq
          have hrow : ∀ i, i < n →
              (t0 :: xs).map (fun t => t.getD i d) =
                (u0 :: ys).map (fun t => t.getD i d) := by
            intro i hi
            have h1 := congrArg (fun l => l[i]?) heq
            simp only [List.getElem?_map] at h1
            rw [List.getElem?_range hi] at h1
            simp only [Option.map_some'] at h1
            exact Option.some.inj h1
          refine List.ext_getElem hlen ?_
          intro p h1 h2
          refine List.ext_getElem ?_ ?_
          · rw [hx _ (List.getElem_mem h1), hy _ (List.getElem_mem h2)]
          · intro i hi1 hi2
            have hin : i < n := by
              rw [hx _ (List.getElem_mem h1)] at hi1
              exact hi1
            have h3 := congrArg (fun l => l[p]?) (hrow i hin)
            simp only [List.getElem?_map] at h3
            rw [List.getElem?_eq_getElem h1, List.getElem?_eq_getElem h2] at h3
            simp only [Option.map_some'] at h3
            have h4 := Option.some.inj h3
            rw [List.getD_eq_getElem _ _ hi1, List.getD_eq_getElem _ _ hi2] at h4
            exact h4

theorem forall₂_mem_left {α β : Type} {R : α → β → Prop} {x : List α}
    {ls : List β} (h : List.Forall₂ R x ls) {t : α} (ht : t ∈ x) :
    ∃ l ∈ ls, R t l := by
  induction h with
  | nil => cases ht
  | cons hr hrest ih =>
      rcases List.mem_cons.1 ht with h1 | h1
      · exact ⟨_, List.mem_cons_self _ _, h1 ▸ hr⟩
      · obtain ⟨l, hl, hrl⟩ := ih h1
        exact ⟨l, List.mem_cons_of_mem _ hl, hrl⟩

/-! ### The compatible-assignment list has no duplicates -/

theorem getD_actionsList_nodup (g : DistributedGame)
    (hact : ∀ al ∈ g.actionsList, al.Nodup) (p : Nat) :
    (g.actionsList.getD p []).Nodup := by
  by_cases hp : p < g.actionsList.length
  · rw [List.getD_eq_getElem _ _ hp]
    exact hact _ (List.getElem_mem hp)
  · rw [List.getD_eq_default _ _ (Nat.le_of_not_lt hp)]
    exact List.nodup_nil

theorem getD_indistGraphs_std {m : EpistemicModel}
    (hshape : ModelShape m) {p : Nat} (hp : p < m.indistGraphs.length) :
    GraphStd (m.indistGraphs.getD p Graph.empty) m.lastStates.length := by
  rw [List.getD_eq_getElem _ _ hp]
  exact hshape _ (List.getElem_mem hp)

theorem compatibleJointActions_nodup (g : DistributedGame)
    (m : EpistemicModel) (hshape : ModelShape m)
    (hact : ∀ al ∈ g.actionsList, al.Nodup) :
    (EpistemicModel.compatibleJointActions g m).Nodup := by
  unfold EpistemicModel.compatibleJointActions
  have hls : ∀ l ∈ (List.range m.playerCount).map (fun p =>
      EpistemicModel.compatibleActions (m.indistGraphs.getD p Graph.empty)
        (g.getActions p)), l.Nodup ∧ ∀ t ∈ l, t.length = m.lastStates.length := by
    intro l hl
    obtain ⟨p, hp, rfl⟩ := List.mem_map.1 hl
    have hstd := getD_indistGraphs_std hshape (List.mem_range.1 hp)
    constructor
    · exact compatibleActions_nodup hstd (getD_actionsList_nodup g hact p)
    · intro t ht
      exact compatibleActions_tuple_length hstd ht
  refine List.Nodup.map_on ?_ (listProd_nodup (fun l hl => (hls l hl).1))
  intro x hx y hy heq
  have hxl : ∀ t ∈ x, t.length = m.lastStates.length := by
    intro t ht
    obtain ⟨l, hl, htl⟩ := forall₂_mem_left (mem_listProd.1 hx) ht
    exact (hls l hl).2 t htl
  have hyl : ∀ t ∈ y, t.length = m.lastStates.length := by
    intro t ht
    obtain ⟨l, hl, htl⟩ := forall₂_mem_left (mem_listProd.1 hy) ht
    exact (hls l hl).2 t htl
  refine zipRows_injOn "" m.lastStates.length hxl hyl ?_ heq
  rw [length_of_mem_listProd hx, length_of_mem_listProd hy]

/-! ### Grouping by result in `_joint_actions_by_result` -/

theorem bucketAdd_flatten_perm {κ α : Type} [DecidableEq κ]
    (acc : List (κ × List α)) (k : κ) (a : α) :
    (((bucketAdd acc k a).map Prod.snd).flatten).Perm
      (((acc.map Prod.snd).flatten) ++ [a]) := by
  induction acc with
  | nil => simp [bucketAdd]
  | cons b bs ih =>
      by_cases hb : b.1 = k
      · simp only [bucketAdd, hb, if_true, List.map_cons, List.flatten_cons]
        rw [List.append_assoc, List.append_assoc]
        exact List.Perm.append_left b.2 List.perm_append_comm
      · simp only [bucketAdd, hb, if_false, List.map_cons, List.flatten_cons]
        rw [List.append_assoc]
        exact List.Perm.append_left b.2 ih

theorem bucketAdd_inv {κ α : Type} [DecidableEq κ] {P : α → κ → Prop}
    {acc : List (κ × List α)} {k : κ} {a : α}
    (hinv : ∀ b ∈ acc, ∀ x ∈ b.2, P x b.1) (ha : P a k) :
    ∀ b ∈ bucketAdd acc k a, ∀ x ∈ b.2, P x b.1 := by
  induction acc with
  | nil =>
      intro b hb x hx
      rw [List.mem_singleton.1 hb] at hx ⊢
      rw [List.mem_singleton.1 hx]
      exact ha
  | cons b0 bs ih =>
      intro b hb x hx
      by_cases hb0 : b0.1 = k
      · simp only [bucketAdd, hb0, if_true] at hb
        rcases List.mem_cons.1 hb with h1 | h1
        · subst h1
          rcases List.mem_append.1 hx with h2 | h2
          · have := hinv b0 (List.mem_cons_self _ _) x h2
            rw [hb0] at this
            exact this
          · rw [List.mem_singleton.1 h2]
            exact ha
        · exact hinv b (List.mem_cons_of_mem _ h1) x hx
      · simp only [bucketAdd, hb0, if_false] at hb
        rcases List.mem_cons.1 hb with h1 | h1
        · exact hinv b (h1 ▸ List.mem_cons_self _ _) x (h1 ▸ hx)
        · exact ih (fun b' hb' => hinv b' (List.mem_cons_of_mem _ hb')) b h1 x hx

theorem foldBuckets_aux (g : DistributedGame) (m : EpistemicModel) :
    ∀ (l : List (List JointAction)) (acc : List (List (List Nat) × List (List JointAction))),
      (∀ b ∈ acc, ∀ x ∈ b.2, EpistemicModel.resultOf g m x = b.1) →
      (∀ b ∈ l.foldl (fun acc jas =>
          bucketAdd acc (EpistemicModel.resultOf g m jas) jas) acc,
        ∀ x ∈ b.2, EpistemicModel.resultOf g m x = b.1) ∧
      ((((l.foldl (fun acc jas =>
          bucketAdd acc (EpistemicModel.resultOf g m jas) jas) acc).map
            Prod.snd).flatten).Perm (((acc.map Prod.snd).flatten) ++ l)) := by
  intro l
  induction l with
  | nil =>
      intro acc hinv
      exact ⟨hinv, by simp⟩
  | cons a l ih =>
      intro acc hinv
      rw [List.foldl_cons]
      obtain ⟨h1, h2⟩ := ih (bucketAdd acc (EpistemicModel.resultOf g m a) a)
        (bucketAdd_inv hinv rfl)
      refine ⟨h1, ?_⟩
      refine h2.trans ?_
      have h3 := bucketAdd_flatten_perm acc (EpistemicModel.resultOf g m a) a
      refine (h3.append_right l).trans ?_
      rw [List.append_assoc]
      exact List.Perm.refl _

theorem jointActionsByResult_inv (g : DistributedGame) (m : EpistemicModel)
    (l : List (List JointAction)) :
    (∀ b ∈ EpistemicModel.jointActionsByResult g m l, ∀ x ∈ b.2,
        EpistemicModel.resultOf g m x = b.1) ∧
      ((((EpistemicModel.jointActionsByResult g m l).map
        Prod.snd).flatten).Perm l) := by
  obtain ⟨h1, h2⟩ := foldBuckets_aux g m l [] (by intro b hb; cases hb)
  exact ⟨h1, by simpa using h2⟩

/-! ### `next` depends on an assignment only through its result tuple -/

theorem blocks_eq_resultOf (g : DistributedGame) :
    ∀ (ss : List Nat) (jas : List JointAction),
      (ss.zip jas).map (fun p => EpistemicModel.gameLookup g (p.2, p.1)) =
        (jas.zip ss).map (fun p => EpistemicModel.gameLookup g (p.1, p.2)) := by
  intro ss
  induction ss with
  | nil => intro jas; cases jas <;> rfl
  | cons s ss ih =>
      intro jas
      cases jas with
      | nil => rfl
      | cons ja jas => simp [List.zip_cons_cons, ih jas]

theorem nextHistories_eq_resultOf (g : DistributedGame) (m : EpistemicModel)
    (jas : List JointAction) :
    EpistemicModel.nextHistories g m jas =
      ((EpistemicModel.resultOf g m jas).flatten,
        EpistemicModel.offsetRanges (EpistemicModel.resultOf g m jas) 0) := by
  unfold EpistemicModel.nextHistories EpistemicModel.resultOf
  rw [blocks_eq_resultOf g m.lastStates jas]

theorem next_congr (g : DistributedGame) (m : EpistemicModel) (c : Bool)
    {a b : List JointAction}
    (h : EpistemicModel.resultOf g m a = EpistemicModel.resultOf g m b) :
    EpistemicModel.next g m a c = EpistemicModel.next g m b c := by
  unfold EpistemicModel.next
  rw [nextHistories_eq_resultOf, nextHistories_eq_resultOf, h]

/-! ### Summing assignment counts over the `unfold` output -/

theorem mapOption_forall {α β : Type} {f : α → Option β} :
    ∀ {l : List α} {res : List β}, mapOption f l = some res →
      ∀ a ∈ l, ∃ b, f a = some b := by
  intro l
  induction l with
  | nil => intro res _ a ha; cases ha
  | cons x l ih =>
      intro res hres a ha
      unfold mapOption at hres
      cases hx : f x with
      | none => rw [hx] at hres; cases hres
      | some b =>
          rw [hx] at hres
          cases hrec : mapOption f l with
          | none => rw [hrec] at hres; cases hres
          | some bs =>
              rcases List.mem_cons.1 ha with h1 | h1
              · exact ⟨b, h1 ▸ hx⟩
              · exact ih hrec a h1

theorem unfold_sum_aux (g : DistributedGame) (m : EpistemicModel) (c : Bool)
    (a : List JointAction) :
    ∀ (bs : List (List (List Nat) × List (List JointAction)))
      (res : List (List (EpistemicModel × List (List JointAction)))),
      mapOption (fun b => (EpistemicModel.next g m (b.2.headD []) c).map
        (fun ms => ms.map (fun n => (n, b.2)))) bs = some res →
      ((res.flatten).map (fun pr => pr.2.count a)).sum =
        (bs.map (fun b =>
          ((EpistemicModel.next g m (b.2.headD []) c).getD []).length *
            b.2.count a)).sum := by
  intro bs
  induction bs with
  | nil =>
      intro res hres
      unfold mapOption at hres
      rw [← Option.some.inj hres]
      rfl
  | cons b bs ih =>
      intro res hres
      unfold mapOption at hres
      cases hb : EpistemicModel.next g m (b.2.headD []) c with
      | none => rw [hb] at hres; simp only [Option.map_none'] at hres; cases hres
      | some ms =>
          rw [hb] at hres
          simp only [Option.map_some'] at hres
          cases hrec : mapOption (fun b =>
              (EpistemicModel.next g m (b.2.headD []) c).map
                (fun ms => ms.map (fun n => (n, b.2)))) bs with
          | none => rw [hrec] at hres; cases hres
          | some rs =>
              rw [hrec] at hres
              rw [← Option.some.inj hres]
              rw [List.flatten_cons, List.map_append, List.sum_append,
                List.map_cons, List.sum_cons, ih rs hrec, hb]
              congr 1
              rw [List.map_map]
              have : ((fun pr : EpistemicModel × List (List JointAction) =>
                  pr.2.count a) ∘ fun n => (n, b.2)) =
                  fun _ => b.2.count a := rfl
              rw [this, List.map_const', List.sum_replicate, smul_eq_mul]
              rfl

theorem sum_mul_collapse {β : Type} (T : Nat) (f cnt : β → Nat) :
    ∀ (bs : List β), (∀ b ∈ bs, 1 ≤ cnt b → f b = T) →
      (bs.map (fun b => f b * cnt b)).sum = T * (bs.map cnt).sum := by
  intro bs
  induction bs with
  | nil => intro _; rfl
  | cons b bs ih =>
      intro h
      rw [List.map_cons, List.sum_cons, List.map_cons, List.sum_cons,
        Nat.mul_add, ih (fun b' hb' => h b' (List.mem_cons_of_mem _ hb'))]
      congr 1
      by_cases hc : 1 ≤ cnt b
      · rw [h b (List.mem_cons_self _ _) hc]
      · have : cnt b = 0 := by omega
        rw [this, Nat.mul_zero, Nat.mul_zero]

theorem perm_count_eq {α : Type} [BEq α] {l1 l2 : List α} (h : l1.Perm l2)
    (a : α) : l1.count a = l2.count a := by
  rw [List.count_eq_countP, List.count_eq_countP]
  exact h.countP_eq _

theorem count_eq_one_of_nodup_mem {α : Type} [BEq α] [LawfulBEq α]
    {l : List α} {a : α} (hnd : l.Nodup) (ha : a ∈ l) : l.count a = 1 := by
  induction l with
  | nil => cases ha
  | cons x l ih =>
      rw [List.nodup_cons] at hnd
      rw [List.count_cons]
      rcases List.mem_cons.1 ha with h1 | h1
      · subst h1
        rw [List.count_eq_zero.2 hnd.1, if_pos (beq_self_eq_true _)]
      · have hx : ¬ x = a := fun he => hnd.1 (he ▸ h1)
        rw [ih hnd.2 h1, if_neg ?_]
        intro hbeq
        exact hx (eq_of_beq hbeq)

theorem headD_mem {α : Type} {l : List α} (d : α) (h : l ≠ []) :
    l.headD d ∈ l := by
  cases l with
  | nil => exact absurd rfl h
  | cons x xs => exact List.mem_cons_self _ _

/-! ### Claim C2 (amended): exact multiplicity of an assignment -/

/-- C2 amended: `unfold` emits each compatible assignment exactly once
for every successor model that `next` returns for the assignment's
result group — so exactly once overall precisely when that `next` call
yields a single model, and 0 or several times when the successor model
splits into components.  Stated for models of the spec's shape over
games with deduplicated action lists (what `__init__` constructs). -/
theorem unfold_assignment_multiplicity (g : DistributedGame)
    (m : EpistemicModel) (c : Bool) (a : List JointAction)
    (hshape : ModelShape m) (hact : ∀ al ∈ g.actionsList, al.Nodup)
    (ha : a ∈ EpistemicModel.compatibleJointActions g m)
    (out : List (EpistemicModel × List (List JointAction)))
    (hout : EpistemicModel.unfold g m c = some out) :
    ∃ ms, EpistemicModel.next g m a c = some ms ∧
      (out.map (fun pr => pr.2.count a)).sum = ms.length := by
  unfold EpistemicModel.unfold at hout
  obtain ⟨res, hres, rfl⟩ := Option.map_eq_some'.1 hout
  obtain ⟨hinv, hperm⟩ := jointActionsByResult_inv g m
    (EpistemicModel.compatibleJointActions g m)
  have hnd := compatibleJointActions_nodup g m hshape hact
  have hcnt1 : ((EpistemicModel.jointActionsByResult g m
      (EpistemicModel.compatibleJointActions g m)).map
        (fun b => b.2.count a)).sum = 1 := by
    have h1 : ((EpistemicModel.jointActionsByResult g m
        (EpistemicModel.compatibleJointActions g m)).map
          (fun b => b.2.count a)).sum =
        List.count a (((EpistemicModel.jointActionsByResult g m
          (EpistemicModel.compatibleJointActions g m)).map Prod.snd).flatten) := by
      rw [List.count_flatten, List.map_map]
      rfl
    rw [h1, perm_count_eq hperm a, count_eq_one_of_nodup_mem hnd ha]
  have hamem : a ∈ ((EpistemicModel.jointActionsByResult g m
      (EpistemicModel.compatibleJointActions g m)).map Prod.snd).flatten :=
    hperm.mem_iff.2 ha
  obtain ⟨bl, hbl, habl⟩ := List.mem_flatten.1 hamem
  obtain ⟨bstar, hbstar, rfl⟩ := List.mem_map.1 hbl
  have hbne : bstar.2 ≠ [] := fun hnil => by rw [hnil] at habl; cases habl
  obtain ⟨y, hy⟩ := mapOption_forall hres bstar hbstar
  obtain ⟨ms, hms, _⟩ := Option.map_eq_some'.1 hy
  have hrep : EpistemicModel.resultOf g m (bstar.2.headD []) =
      EpistemicModel.resultOf g m a := by
    rw [hinv bstar hbstar _ (headD_mem [] hbne), hinv bstar hbstar a habl]
  have hnexta : EpistemicModel.next g m a c = some ms := by
    rw [← next_congr g m c hrep]
    exact hms
  refine ⟨ms, hnexta, ?_⟩
  rw [unfold_sum_aux g m c a _ res hres]
  rw [sum_mul_collapse ms.length _ _ _ ?_, hcnt1, Nat.mul_one]
  intro b hb hc1
  have hamem_b : a ∈ b.2 := List.count_pos_iff.1 hc1
  have hbne' : b.2 ≠ [] := fun hnil => by rw [hnil] at hamem_b; cases hamem_b
  have hrep' : EpistemicModel.resultOf g m (b.2.headD []) =
      EpistemicModel.resultOf g m a := by
    rw [hinv b hb _ (headD_mem [] hbne'), hinv b hb a hamem_b]
  rw [next_congr g m c hrep', hnexta]
  rfl

/-- The split game of the C2 counterexample, written out: the state of
`DistributedGame.init ["s0","s1","s2"] 0 [["a"]] [[]]` after
`game[("a",), s0] = (s1, s2)`. -/
def G2w : DistributedGame :=
  ⟨["s0", "s1", "s2"], 0, [["a"]],
   [((["a"], 0), [1, 2]), ((["a"], 1), [1]), ((["a"], 2), [2])],
   [⟨[0, 1, 2], [(0, 0), (1, 1), (2, 2)]⟩]⟩

/-- The two single-history successor models of the C2 counterexample. -/
def M2a : EpistemicModel := ⟨[2], [⟨[0], [(0, 0)]⟩]⟩

def M2b : EpistemicModel := ⟨[1], [⟨[0], [(0, 0)]⟩]⟩

theorem unfold_assignment_multiplicity_witness :
    ∃ ms, EpistemicModel.next G2w (EpistemicModel.init G2w) [["a"]] true =
        some ms ∧
      (([(M2a, [[["a"]]]), (M2b, [[["a"]]])].map
        (fun pr => pr.2.count [["a"]])).sum = ms.length) :=
  unfold_assignment_multiplicity G2w (EpistemicModel.init G2w) true [["a"]]
    (by decide) (by decide) (by decide) _ rfl

/-! ### Graph-operation lemmas for the self-loop invariant -/

theorem edges_addNode (g : Graph) (w : Nat) : (g.addNode w).edges = g.edges := by
  unfold Graph.addNode
  split <;> rfl

theorem mem_nodes_addNode {g : Graph} {w x : Nat} :
    x ∈ (g.addNode w).nodes ↔ x ∈ g.nodes ∨ x = w := by
  unfold Graph.addNode
  by_cases h : w ∈ g.nodes
  · rw [if_pos h]
    constructor
    · exact Or.inl
    · rintro (h1 | rfl)
      · exact h1
      · exact h
  · rw [if_neg h]
    show x ∈ g.nodes ++ [w] ↔ _
    rw [List.mem_append, List.mem_singleton]

theorem nodes_addNode_nodup {g : Graph} (h : g.nodes.Nodup) (w : Nat) :
    (g.addNode w).nodes.Nodup := by
  unfold Graph.addNode
  by_cases hw : w ∈ g.nodes
  · rw [if_pos hw]
    exact h
  · rw [if_neg hw]
    show (g.nodes ++ [w]).Nodup
    simp [List.nodup_append, h, hw]

theorem hasEdge_congr_edges {g h : Graph} (he : g.edges = h.edges) (u v : Nat) :
    g.hasEdge u v = h.hasEdge u v := by
  unfold Graph.hasEdge
  rw [he]

theorem addEdge_eq (g : Graph) (u v : Nat) :
    g.addEdge u v = if ((g.addNode u).addNode v).hasEdge u v
      then (g.addNode u).addNode v
      else { (g.addNode u).addNode v with
             edges := ((g.addNode u).addNode v).edges ++ [(u, v)] } := rfl

theorem edges_addEdge_elim {g : Graph} {u v : Nat} :
    ∀ e ∈ (g.addEdge u v).edges, e ∈ g.edges ∨ e = (u, v) := by
  intro e he
  rw [addEdge_eq] at he
  by_cases hc : ((g.addNode u).addNode v).hasEdge u v = true
  · rw [if_pos hc] at he
    rw [edges_addNode, edges_addNode] at he
    exact Or.inl he
  · rw [if_neg hc] at he
    have he' : e ∈ ((g.addNode u).addNode v).edges ++ [(u, v)] := he
    rw [edges_addNode, edges_addNode] at he'
    rcases List.mem_append.1 he' with h1 | h1
    · exact Or.inl h1
    · exact Or.inr (List.mem_singleton.1 h1)

theorem mem_nodes_addEdge {g : Graph} {u v x : Nat} :
    x ∈ (g.addEdge u v).nodes ↔ x ∈ g.nodes ∨ x = u ∨ x = v := by
  rw [addEdge_eq]
  by_cases hc : ((g.addNode u).addNode v).hasEdge u v = true
  · rw [if_pos hc]
    rw [mem_nodes_addNode, mem_nodes_addNode]
    tauto
  · rw [if_neg hc]
    show x ∈ ((g.addNode u).addNode v).nodes ↔ _
    rw [mem_nodes_addNode, mem_nodes_addNode]
    tauto

theorem nodes_addEdge_nodup {g : Graph} (h : g.nodes.Nodup) (u v : Nat) :
    (g.addEdge u v).nodes.Nodup := by
  rw [addEdge_eq]
  by_cases hc : ((g.addNode u).addNode v).hasEdge u v = true
  · rw [if_pos hc]
    exact nodes_addNode_nodup (nodes_addNode_nodup h u) v
  · rw [if_neg hc]
    show ((g.addNode u).addNode v).nodes.Nodup
    exact nodes_addNode_nodup (nodes_addNode_nodup h u) v

theorem WF_addEdge {g : Graph} (h : g.WF) (u v : Nat) : (g.addEdge u v).WF := by
  refine ⟨nodes_addEdge_nodup h.1 u v, ?_⟩
  intro e he
  rcases edges_addEdge_elim e he with h1 | h1
  · obtain ⟨h2, h3⟩ := h.2 e h1
    exact ⟨mem_nodes_addEdge.2 (Or.inl h2), mem_nodes_addEdge.2 (Or.inl h3)⟩
  · rw [h1]
    exact ⟨mem_nodes_addEdge.2 (Or.inr (Or.inl rfl)),
      mem_nodes_addEdge.2 (Or.inr (Or.inr rfl))⟩

theorem hasEdge_addEdge_self (g : Graph) (u v : Nat) :
    (g.addEdge u v).hasEdge u v = true := by
  rw [addEdge_eq]
  by_cases hc : ((g.addNode u).addNode v).hasEdge u v = true
  · rw [if_pos hc]
    exact hc
  · rw [if_neg hc]
    refine (hasEdge_iff_mem _ u v).2 (Or.inl ?_)
    show (u, v) ∈ ((g.addNode u).addNode v).edges ++ [(u, v)]
    exact List.mem_append.2 (Or.inr (List.mem_singleton.2 rfl))

theorem hasEdge_addEdge_mono {g : Graph} {a b : Nat} (h : g.hasEdge a b = true)
    (u v : Nat) : (g.addEdge u v).hasEdge a b = true := by
  rw [addEdge_eq]
  have hg : ((g.addNode u).addNode v).hasEdge a b = true := by
    rw [hasEdge_congr_edges (show ((g.addNode u).addNode v).edges = g.edges by
      rw [edges_addNode, edges_addNode]) a b]
    exact h
  by_cases hc : ((g.addNode u).addNode v).hasEdge u v = true
  · rw [if_pos hc]
    exact hg
  · rw [if_neg hc]
    rcases (hasEdge_iff_mem _ a b).1 hg with h1 | h1
    · refine (hasEdge_iff_mem _ a b).2 (Or.inl ?_)
      show _ ∈ ((g.addNode u).addNode v).edges ++ [(u, v)]
      exact List.mem_append.2 (Or.inl h1)
    · refine (hasEdge_iff_mem _ a b).2 (Or.inr ?_)
      show _ ∈ ((g.addNode u).addNode v).edges ++ [(u, v)]
      exact List.mem_append.2 (Or.inl h1)

theorem addEdgesFrom_hasEdge_mono {a b : Nat} {l : List (Nat × Nat)} :
    ∀ {g : Graph}, g.hasEdge a b = true →
      (g.addEdgesFrom l).hasEdge a b = true := by
  induction l with
  | nil => intro g h; exact h
  | cons e0 l ih =>
      intro g h
      show ((g.addEdge e0.1 e0.2).addEdgesFrom l).hasEdge a b = true
      exact ih (hasEdge_addEdge_mono h e0.1 e0.2)

theorem addEdgesFrom_hasEdge_of_mem {e : Nat × Nat} {l : List (Nat × Nat)}
    (h : e ∈ l) : ∀ (g : Graph), (g.addEdgesFrom l).hasEdge e.1 e.2 = true := by
  induction l with
  | nil => cases h
  | cons e0 l ih =>
      intro g
      show ((g.addEdge e0.1 e0.2).addEdgesFrom l).hasEdge e.1 e.2 = true
      rcases List.mem_cons.1 h with h1 | h1
      · rw [h1]
        exact addEdgesFrom_hasEdge_mono (hasEdge_addEdge_self g e0.1 e0.2)
      · exact ih h1 _

theorem edges_addEdgesFrom_elim {l : List (Nat × Nat)} :
    ∀ {g : Graph} (e : Nat × Nat), e ∈ (g.addEdgesFrom l).edges →
      e ∈ g.edges ∨ e ∈ l := by
  induction l with
  | nil => intro g e he; exact Or.inl he
  | cons e0 l ih =>
      intro g e he
      have he' : e ∈ ((g.addEdge e0.1 e0.2).addEdgesFrom l).edges := he
      rcases ih e he' with h1 | h1
      · rcases edges_addEdge_elim e h1 with h2 | h2
        · exact Or.inl h2
        · rw [h2]
          exact Or.inr (List.mem_cons_self _ _)
      · exact Or.inr (List.mem_cons_of_mem _ h1)

theorem mem_nodes_addEdgesFrom {l : List (Nat × Nat)} :
    ∀ {g : Graph} (x : Nat), x ∈ (g.addEdgesFrom l).nodes →
      x ∈ g.nodes ∨ ∃ e ∈ l, x = e.1 ∨ x = e.2 := by
  induction l with
  | nil => intro g x hx; exact Or.inl hx
  | cons e0 l ih =>
      intro g x hx
      have hx' : x ∈ ((g.addEdge e0.1 e0.2).addEdgesFrom l).nodes := hx
      rcases ih x hx' with h1 | ⟨e, he, h2⟩
      · rcases mem_nodes_addEdge.1 h1 with h2 | h2 | h2
        · exact Or.inl h2
        · exact Or.inr ⟨e0, List.mem_cons_self _ _, Or.inl h2⟩
        · exact Or.inr ⟨e0, List.mem_cons_self _ _, Or.inr h2⟩
      · exact Or.inr ⟨e, List.mem_cons_of_mem _ he, h2⟩

theorem WF_addEdgesFrom {l : List (Nat × Nat)} :
    ∀ {g : Graph}, g.WF → (g.addEdgesFrom l).WF := by
  induction l with
  | nil => intro g h; exact h
  | cons e0 l ih =>
      intro g h
      show ((g.addEdge e0.1 e0.2).addEdgesFrom l).WF
      exact ih (WF_addEdge h e0.1 e0.2)

/-! ### The fresh-id ranges of `_next_histories` -/

theorem offsetRanges_cover :
    ∀ (bs : List (List Nat)) (s n : Nat), n < bs.flatten.length →
      ∃ h, h < bs.length ∧
        (s + n) ∈ (EpistemicModel.offsetRanges bs s).getD h [] ∧
        bs.flatten.getD n 0 ∈ bs.getD h [] := by
  intro bs
  induction bs with
  | nil => intro s n hn; simp at hn
  | cons b bs ih =>
      intro s n hn
      by_cases hb : n < b.length
      · refine ⟨0, Nat.succ_pos _, ?_, ?_⟩
        · show s + n ∈ List.range' s b.length
          rw [List.mem_range']
          exact ⟨n, hb, by omega⟩
        · show (b ++ bs.flatten).getD n 0 ∈ b
          rw [List.getD_append _ _ _ _ hb, List.getD_eq_getElem _ _ hb]
          exact List.getElem_mem hb
      · have hn' : n - b.length < bs.flatten.length := by
          rw [List.flatten_cons, List.length_append] at hn
          omega
        obtain ⟨h, hh, hmem, hval⟩ := ih (s + b.length) (n - b.length) hn'
        refine ⟨h + 1, Nat.succ_lt_succ hh, ?_, ?_⟩
        · show s + n ∈
            (EpistemicModel.offsetRanges bs (s + b.length)).getD h []
          have heq : s + b.length + (n - b.length) = s + n := by omega
          rw [← heq]
          exact hmem
        · show (b ++ bs.flatten).getD n 0 ∈ bs.getD h []
          rw [List.getD_append_right _ _ _ _ (Nat.le_of_not_lt hb)]
          exact hval

theorem offsetRanges_bound :
    ∀ (bs : List (List Nat)) (s h x : Nat),
      x ∈ (EpistemicModel.offsetRanges bs s).getD h [] →
        s ≤ x ∧ x < s + bs.flatten.length := by
  intro bs
  induction bs with
  | nil =>
      intro s h x hx
      have hx' : x ∈ ([] : List Nat) := hx
      cases hx'
  | cons b bs ih =>
      intro s h x hx
      cases h with
      | zero =>
          have hx' : x ∈ List.range' s b.length := hx
          rw [List.mem_range'] at hx'
          obtain ⟨i, hi, rfl⟩ := hx'
          have hlen : (b :: bs).flatten.length = b.length + bs.flatten.length := by
            rw [List.flatten_cons, List.length_append]
          omega
      | succ h =>
          have hx' : x ∈
              (EpistemicModel.offsetRanges bs (s + b.length)).getD h [] := hx
          obtain ⟨h1, h2⟩ := ih (s + b.length) h x hx'
          have hlen : (b :: bs).flatten.length = b.length + bs.flatten.length := by
            rw [List.flatten_cons, List.length_append]
          omega

/-! ### Auxiliary inversion lemmas -/

theorem mapOption_mem_rev {α β : Type} {f : α → Option β} :
    ∀ {l : List α} {res : List β}, mapOption f l = some res →
      ∀ b ∈ res, ∃ a ∈ l, f a = some b := by
  intro l
  induction l with
  | nil =>
      intro res hres b hb
      have hr : res = [] := (Option.some.inj hres).symm
      subst hr
      cases hb
  | cons a l ih =>
      intro res hres b hb
      unfold mapOption at hres
      cases hfa : f a with
      | none => rw [hfa] at hres; cases hres
      | some b0 =>
          rw [hfa] at hres
          cases hrec : mapOption f l with
          | none => rw [hrec] at hres; cases hres
          | some bs =>
              rw [hrec] at hres
              have hr : res = b0 :: bs := (Option.some.inj hres).symm
              subst hr
              rcases List.mem_cons.1 hb with h1 | h1
              · refine ⟨a, List.mem_cons_self _ _, ?_⟩
                rw [h1]
                exact hfa
              · obtain ⟨a', ha', hfa'⟩ := ih hrec b h1
                exact ⟨a', List.mem_cons_of_mem _ ha', hfa'⟩

theorem mapExcept_ok_length {α β ε : Type} {f : α → Except ε β} :
    ∀ {l : List α} {res : List β}, DistributedGame.mapExcept f l = .ok res →
      res.length = l.length := by
  intro l
  induction l with
  | nil =>
      intro res hres
      have hr : res = [] := (Except.ok.inj hres).symm
      subst hr
      rfl
  | cons a l ih =>
      intro res hres
      unfold DistributedGame.mapExcept at hres
      cases hfa : f a with
      | error e => rw [hfa] at hres; cases hres
      | ok b =>
          rw [hfa] at hres
          cases hrec : DistributedGame.mapExcept f l with
          | error e => rw [hrec] at hres; cases hres
          | ok bs =>
              rw [hrec] at hres
              have hr : res = b :: bs := (Except.ok.inj hres).symm
              subst hr
              show bs.length + 1 = l.length + 1
              rw [ih hrec]

theorem mapExcept_ok_mem_rev {α β ε : Type} {f : α → Except ε β} :
    ∀ {l : List α} {res : List β}, DistributedGame.mapExcept f l = .ok res →
      ∀ b ∈ res, ∃ a ∈ l, f a = .ok b := by
  intro l
  induction l with
  | nil =>
      intro res hres b hb
      have hr : res = [] := (Except.ok.inj hres).symm
      subst hr
      cases hb
  | cons a l ih =>
      intro res hres b hb
      unfold DistributedGame.mapExcept at hres
      cases hfa : f a with
      | error e => rw [hfa] at hres; cases hres
      | ok b0 =>
          rw [hfa] at hres
          cases hrec : DistributedGame.mapExcept f l with
          | error e => rw [hrec] at hres; cases hres
          | ok bs =>
              rw [hrec] at hres
              have hr : res = b0 :: bs := (Except.ok.inj hres).symm
              subst hr
              rcases List.mem_cons.1 hb with h1 | h1
              · refine ⟨a, List.mem_cons_self _ _, ?_⟩
                rw [h1]
                exact hfa
              · obtain ⟨a', ha', hfa'⟩ := ih hrec b h1
                exact ⟨a', List.mem_cons_of_mem _ ha', hfa'⟩

theorem bucketAdd_ne_nil {κ α : Type} [DecidableEq κ]
    {acc : List (κ × List α)} {k : κ} {a : α}
    (h : ∀ b ∈ acc, b.2 ≠ []) : ∀ b ∈ bucketAdd acc k a, b.2 ≠ [] := by
  induction acc with
  | nil =>
      intro b hb
      rw [List.mem_singleton.1 hb]
      simp
  | cons b0 bs ih =>
      intro b hb
      by_cases hb0 : b0.1 = k
      · simp only [bucketAdd, hb0, if_true] at hb
        rcases List.mem_cons.1 hb with h1 | h1
        · rw [h1]
          simp
        · exact h b (List.mem_cons_of_mem _ h1)
      · simp only [bucketAdd, hb0, if_false] at hb
        rcases List.mem_cons.1 hb with h1 | h1
        · rw [h1]
          exact h b0 (List.mem_cons_self _ _)
        · exact ih (fun b' hb' => h b' (List.mem_cons_of_mem _ hb')) b h1

theorem jointActionsByResult_ne_nil (g : DistributedGame) (m : EpistemicModel)
    (l : List (List JointAction)) :
    ∀ b ∈ EpistemicModel.jointActionsByResult g m l, b.2 ≠ [] := by
  unfold EpistemicModel.jointActionsByResult
  have aux : ∀ (l' : List (List JointAction))
      (acc : List (List (List Nat) × List (List JointAction))),
      (∀ b ∈ acc, b.2 ≠ []) →
      ∀ b ∈ l'.foldl (fun acc jas =>
          bucketAdd acc (EpistemicModel.resultOf g m jas) jas) acc, b.2 ≠ [] := by
    intro l'
    induction l' with
    | nil => intro acc h; exact h
    | cons jas l' ih =>
        intro acc h
        rw [List.foldl_cons]
        exact ih _ (bucketAdd_ne_nil h)
  exact aux l [] (fun b hb => absurd hb (List.not_mem_nil b))

theorem mem_dictSet_elim {α β : Type} [DecidableEq α] {k : α} {v : β} :
    ∀ {d : List (α × β)} {q : α × β}, q ∈ dictSet d k v → q ∈ d ∨ q = (k, v) := by
  intro d
  induction d with
  | nil =>
      intro q hq
      exact Or.inr (List.mem_singleton.1 hq)
  | cons p d ih =>
      intro q hq
      by_cases hp : p.1 = k
      · simp only [dictSet, hp, if_true] at hq
        rcases List.mem_cons.1 hq with h1 | h1
        · exact Or.inr h1
        · exact Or.inl (List.mem_cons_of_mem _ h1)
      · simp only [dictSet, hp, if_false] at hq
        rcases List.mem_cons.1 hq with h1 | h1
        · rw [h1]
          exact Or.inl (List.mem_cons_self _ _)
        · rcases ih h1 with h2 | h2
          · exact Or.inl (List.mem_cons_of_mem _ h2)
          · exact Or.inr h2

/-! ### Membership in `_new_indist_histories` -/

theorem mem_newIndistHistories_elim {g : DistributedGame} {m : EpistemicModel}
    {player : Nat} {nls : List Nat} {sl : List (List Nat)} {q : Nat × Nat}
    (h : q ∈ EpistemicModel.newIndistHistories g m player nls sl) :
    ∃ e ∈ (m.indistGraphs.getD player Graph.empty).edges,
      q.1 ∈ sl.getD e.1 [] ∧ q.2 ∈ sl.getD e.2 [] ∧
        g.areDistinguishable player (nls.getD q.1 0) (nls.getD q.2 0) = false := by
  unfold EpistemicModel.newIndistHistories at h
  obtain ⟨hq, hpred⟩ := List.mem_filter.1 h
  obtain ⟨sub, hsub, hq2⟩ := List.mem_flatten.1 hq
  obtain ⟨e, he, rfl⟩ := List.mem_map.1 hsub
  obtain ⟨sub2, hsub2, hq3⟩ := List.mem_flatten.1 hq2
  obtain ⟨n1, hn1, rfl⟩ := List.mem_map.1 hsub2
  obtain ⟨n2, hn2, rfl⟩ := List.mem_map.1 hq3
  refine ⟨e, he, hn1, hn2, ?_⟩
  simpa using hpred

theorem mem_newIndistHistories_intro {g : DistributedGame} {m : EpistemicModel}
    {player : Nat} {nls : List Nat} {sl : List (List Nat)}
    {e : Nat × Nat} {n1 n2 : Nat}
    (he : e ∈ (m.indistGraphs.getD player Graph.empty).edges)
    (h1 : n1 ∈ sl.getD e.1 []) (h2 : n2 ∈ sl.getD e.2 [])
    (hd : g.areDistinguishable player (nls.getD n1 0) (nls.getD n2 0) = false) :
    (n1, n2) ∈ EpistemicModel.newIndistHistories g m player nls sl := by
  unfold EpistemicModel.newIndistHistories
  refine List.mem_filter.2 ⟨?_, ?_⟩
  · refine List.mem_flatten.2 ⟨_, List.mem_map.2 ⟨e, he, rfl⟩, ?_⟩
    refine List.mem_flatten.2 ⟨_, List.mem_map.2 ⟨n1, h1, rfl⟩, ?_⟩
    exact List.mem_map.2 ⟨n2, h2, rfl⟩
  · simpa using hd

/-! ### The union graph folded in `next` -/

theorem unionFold_WF (grs : List Graph) :
    ∀ {u : Graph}, u.WF →
      (grs.foldl (fun u gr => u.addEdgesFrom gr.edges) u).WF := by
  induction grs with
  | nil => intro u h; exact h
  | cons gr grs ih =>
      intro u h
      rw [List.foldl_cons]
      exact ih (WF_addEdgesFrom h)

theorem unionFold_nodes_elim (grs : List Graph) :
    ∀ {u : Graph} (x : Nat),
      x ∈ (grs.foldl (fun u gr => u.addEdgesFrom gr.edges) u).nodes →
        x ∈ u.nodes ∨ ∃ gr ∈ grs, ∃ e ∈ gr.edges, x = e.1 ∨ x = e.2 := by
  induction grs with
  | nil => intro u x hx; exact Or.inl hx
  | cons gr grs ih =>
      intro u x hx
      rw [List.foldl_cons] at hx
      rcases ih x hx with h1 | ⟨gr', hgr', h2⟩
      · rcases mem_nodes_addEdgesFrom x h1 with h2 | ⟨e, he, h3⟩
        · exact Or.inl h2
        · exact Or.inr ⟨gr, List.mem_cons_self _ _, e, he, h3⟩
      · exact Or.inr ⟨gr', List.mem_cons_of_mem _ hgr', h2⟩

/-! ### `_new_submodel` preserves the standard shape -/

theorem subgraph_nodes_perm {gr : Graph} {hs : List Nat} (hnd : gr.nodes.Nodup)
    (hhs : hs.Nodup) (hsub : ∀ x ∈ hs, x ∈ gr.nodes) :
    (gr.subgraph hs).nodes.Perm hs := by
  show (gr.nodes.filter (· ∈ hs)).Perm hs
  refine (List.subperm_of_subset (List.Nodup.filter _ hnd) ?_).antisymm
    (List.subperm_of_subset hhs ?_)
  · intro x hx
    have hx' := List.mem_filter.1 hx
    simpa using hx'.2
  · intro x hx
    exact List.mem_filter.2 ⟨hsub x hx, by simpa using hx⟩

theorem subgraph_WF {gr : Graph} (h : gr.WF) (hs : List Nat) :
    (gr.subgraph hs).WF := by
  unfold Graph.subgraph
  refine ⟨List.Nodup.filter _ h.1, ?_⟩
  intro e he
  obtain ⟨h1, h2⟩ := List.mem_filter.1 he
  rw [Bool.and_eq_true] at h2
  obtain ⟨h21, h22⟩ := h2
  obtain ⟨hn1, hn2⟩ := h.2 e h1
  exact ⟨List.mem_filter.2 ⟨hn1, h21⟩, List.mem_filter.2 ⟨hn2, h22⟩⟩

theorem subgraph_edges_mem {gr : Graph} {hs : List Nat} {e : Nat × Nat}
    (he : e ∈ gr.edges) (h1 : e.1 ∈ hs) (h2 : e.2 ∈ hs) :
    e ∈ (gr.subgraph hs).edges := by
  refine List.mem_filter.2 ⟨he, ?_⟩
  rw [Bool.and_eq_true]
  exact ⟨by simpa using h1, by simpa using h2⟩

theorem indexOf_map_self {l : List Nat} (hnd : l.Nodup) :
    l.map (fun u => l.indexOf u) = List.range l.length := by
  refine List.ext_getElem (by rw [List.length_map, List.length_range]) ?_
  intro i h1 h2
  rw [List.getElem_map, List.getElem_range]
  exact List.indexOf_getElem hnd i (by simpa using h1)

theorem relabel_WF {gr : Graph} (h : gr.WF) (f : Nat → Nat) :
    (gr.relabel f).WF := by
  unfold Graph.relabel
  refine ⟨List.nodup_dedup _, ?_⟩
  intro e he
  obtain ⟨e0, he0, rfl⟩ := List.mem_map.1 he
  obtain ⟨h1, h2⟩ := h.2 e0 he0
  exact ⟨List.mem_dedup.2 (List.mem_map.2 ⟨e0.1, h1, rfl⟩),
    List.mem_dedup.2 (List.mem_map.2 ⟨e0.2, h2, rfl⟩)⟩

theorem convertLabels_subgraph_std {gr : Graph} {hs : List Nat}
    (hwf : gr.WF) (hhs : hs.Nodup) (hsub : ∀ x ∈ hs, x ∈ gr.nodes)
    (hloops : ∀ x ∈ hs, gr.hasEdge x x = true) :
    GraphStd (gr.subgraph hs).convertLabels hs.length := by
  have hperm := subgraph_nodes_perm hwf.1 hhs hsub
  have hlen : (gr.subgraph hs).nodes.length = hs.length := hperm.length_eq
  have hsnd : (gr.subgraph hs).nodes.Nodup := List.Nodup.filter _ hwf.1
  have hsubwf := subgraph_WF hwf hs
  have hnodes : (gr.subgraph hs).convertLabels.nodes = List.range hs.length := by
    show ((gr.subgraph hs).nodes.map
      (fun u => (gr.subgraph hs).nodes.indexOf u)).dedup = _
    rw [indexOf_map_self hsnd, hlen, List.dedup_eq_self.2 (List.nodup_range _)]
  refine ⟨⟨?_, ?_⟩, ?_, ?_⟩
  · rw [hnodes]
    exact List.nodup_range _
  · intro e he
    have he' : e ∈ (gr.subgraph hs).edges.map
        (fun e0 => ((gr.subgraph hs).nodes.indexOf e0.1,
          (gr.subgraph hs).nodes.indexOf e0.2)) := he
    obtain ⟨e0, he0, rfl⟩ := List.mem_map.1 he'
    obtain ⟨h1, h2⟩ := hsubwf.2 e0 he0
    rw [hnodes]
    constructor
    · rw [List.mem_range, ← hlen]
      exact List.indexOf_lt_length.2 h1
    · rw [List.mem_range, ← hlen]
      exact List.indexOf_lt_length.2 h2
  · intro x hx
    rw [hnodes] at hx
    exact List.mem_range.1 hx
  · intro i hi
    have hi' : i < (gr.subgraph hs).nodes.length := by
      rw [hlen]
      exact hi
    have hxhs : (gr.subgraph hs).nodes[i] ∈ hs :=
      hperm.mem_iff.1 (List.getElem_mem hi')
    have hxgr : ((gr.subgraph hs).nodes[i], (gr.subgraph hs).nodes[i]) ∈
        gr.edges := by
      rcases (hasEdge_iff_mem gr _ _).1 (hloops _ hxhs) with h1 | h1
      · exact h1
      · exact h1
    have hxsub : ((gr.subgraph hs).nodes[i], (gr.subgraph hs).nodes[i]) ∈
        (gr.subgraph hs).edges := subgraph_edges_mem hxgr hxhs hxhs
    have hconv : (i, i) ∈ (gr.subgraph hs).convertLabels.edges := by
      have h2 : ((gr.subgraph hs).nodes.indexOf (gr.subgraph hs).nodes[i],
          (gr.subgraph hs).nodes.indexOf (gr.subgraph hs).nodes[i]) ∈
          (gr.subgraph hs).edges.map (fun e0 =>
            ((gr.subgraph hs).nodes.indexOf e0.1,
              (gr.subgraph hs).nodes.indexOf e0.2)) :=
        List.mem_map.2 ⟨_, hxsub, rfl⟩
      rw [List.indexOf_getElem hsnd i hi'] at h2
      exact h2
    exact hasEdge_of_mem hconv

theorem newSubmodel_std (N : Nat) (hs ls : List Nat) (grs : List Graph)
    (hne : grs ≠ []) (hwf : ∀ gr ∈ grs, gr.WF)
    (hloops : ∀ x ∈ hs, ∀ gr ∈ grs, gr.hasEdge x x = true)
    (hnd : hs.Nodup) (hbound : ∀ x ∈ hs, x < ls.length)
    (hval : ∀ s ∈ ls, s < N) :
    ModelShape (EpistemicModel.newSubmodel hs ls grs) ∧
      (EpistemicModel.newSubmodel hs ls grs).indistGraphs.length = grs.length ∧
      ∀ s ∈ (EpistemicModel.newSubmodel hs ls grs).lastStates, s < N := by
  have hsub : ∀ gr ∈ grs, ∀ x ∈ hs, x ∈ gr.nodes := by
    intro gr hgr x hx
    rcases (hasEdge_iff_mem gr x x).1 (hloops x hx gr hgr) with h1 | h1 <;>
      exact ((hwf gr hgr).2 _ h1).1
  refine ⟨?_, ?_, ?_⟩
  · intro gr' hgr'
    rw [newSubmodel_lastStates_length]
    have hgr'2 : gr' ∈ (grs.map (fun gr => gr.subgraph hs)).map
        Graph.convertLabels := hgr'
    obtain ⟨sub, hsubm, rfl⟩ := List.mem_map.1 hgr'2
    obtain ⟨gr, hgr, rfl⟩ := List.mem_map.1 hsubm
    exact convertLabels_subgraph_std (hwf gr hgr) hnd
      (fun x hx => hsub gr hgr x hx) (fun x hx => hloops x hx gr hgr)
  · show ((grs.map (fun gr => gr.subgraph hs)).map Graph.convertLabels).length = _
    rw [List.length_map, List.length_map]
  · intro s hsv
    cases grs with
    | nil => exact absurd rfl hne
    | cons g0 rest =>
        have hsv' : s ∈ (List.range hs.length).map (fun i =>
            ((((g0 :: rest).map (fun gr => gr.subgraph hs)).headD
                Graph.empty).nodes.get? i |>.bind (ls.get? ·)).getD 0) := hsv
        obtain ⟨i, hi, rfl⟩ := List.mem_map.1 hsv'
        rw [List.mem_range] at hi
        have hperm := subgraph_nodes_perm
          (hwf g0 (List.mem_cons_self _ _)).1 hnd
          (fun x hx => hsub g0 (List.mem_cons_self _ _) x hx)
        have hlen : (g0.subgraph hs).nodes.length = hs.length := hperm.length_eq
        have hi' : i < (g0.subgraph hs).nodes.length := by
          rw [hlen]
          exact hi
        have hn : (g0.subgraph hs).nodes.get? i =
            some ((g0.subgraph hs).nodes[i]) := by
          rw [List.get?_eq_getElem?, List.getElem?_eq_getElem hi']
        have hxhs : (g0.subgraph hs).nodes[i] ∈ hs :=
          hperm.mem_iff.1 (List.getElem_mem hi')
        have hxlt : (g0.subgraph hs).nodes[i] < ls.length := hbound _ hxhs
        have hl : ls.get? ((g0.subgraph hs).nodes[i]) =
            some (ls[(g0.subgraph hs).nodes[i]]) := by
          rw [List.get?_eq_getElem?, List.getElem?_eq_getElem hxlt]
        have hfin : (((g0.subgraph hs).nodes.get? i).bind
            (fun x => ls.get? x)).getD 0 < N := by
          rw [hn]
          show (ls.get? ((g0.subgraph hs).nodes[i])).getD 0 < N
          rw [hl]
          show ls[(g0.subgraph hs).nodes[i]] < N
          exact hval _ (List.getElem_mem hxlt)
        exact hfin

/-! ### Well-formed games and standard models -/

/-- The game invariant every externally constructed `DistributedGame`
satisfies: one indistinguishability graph per player, a self-loop on
every state in every player's graph, a valid initial state, and the
`_moves` invariant. -/
def GameWF (g : DistributedGame) : Prop :=
  g.indistGraphs.length = g.playerCount ∧
    (∀ grp ∈ g.indistGraphs, ∀ s, s < g.stateCount → grp.hasEdge s s = true) ∧
    g.initialState < g.stateCount ∧ g.MovesWF

/-- The model invariant maintained by the public operations: the spec's
shape (standard graphs over the history ids, including a self-loop on
every history), one indistinguishability graph per player of the game,
and every last state a state id. -/
def ModelStd (g : DistributedGame) (m : EpistemicModel) : Prop :=
  ModelShape m ∧ m.indistGraphs.length = g.playerCount ∧
    ∀ s ∈ m.lastStates, s < g.stateCount

theorem gameLookup_valid {g : DistributedGame} {k : MoveKey}
    (hk : g.ValidKey k) (hm : g.MovesWF) :
    EpistemicModel.gameLookup g k ≠ [] ∧
      ∀ s ∈ EpistemicModel.gameLookup g k, s < g.stateCount := by
  obtain ⟨v, hv, hne, hbnd⟩ := hm k hk
  have hget : g.getItem k = .ok v := by
    unfold DistributedGame.getItem
    rw [(DistributedGame.validateKey_eq_none_iff g k.1 k.2).2 hk, hv]
  unfold EpistemicModel.gameLookup
  rw [hget]
  exact ⟨hne, hbnd⟩

/-! ### Values of the `compatible_actions` dict -/

theorem foldl_dictSet_mem_elim {α β : Type} [DecidableEq α] (act : β) :
    ∀ (c : List α) (d : List (α × β)) (q : α × β),
      q ∈ c.foldl (fun d h => dictSet d h act) d → q ∈ d ∨ q.2 = act := by
  intro c
  induction c with
  | nil => intro d q hq; exact Or.inl hq
  | cons h0 c ih =>
      intro d q hq
      rw [List.foldl_cons] at hq
      rcases ih _ q hq with h1 | h1
      · rcases mem_dictSet_elim h1 with h2 | h2
        · exact Or.inl h2
        · right
          rw [h2]
      · exact Or.inr h1

theorem buildClassDict_values (classes : List (List Nat))
    (classActions : List String) :
    ∀ q ∈ EpistemicModel.buildClassDict classes classActions,
      q.2 ∈ classActions := by
  unfold EpistemicModel.buildClassDict
  have aux : ∀ (pairs : List (List Nat × String)) (d : List (Nat × String)),
      (∀ q ∈ d, q.2 ∈ classActions) →
      (∀ p ∈ pairs, p.2 ∈ classActions) →
      ∀ q ∈ pairs.foldl (fun d p => p.1.foldl (fun d h => dictSet d h p.2) d) d,
        q.2 ∈ classActions := by
    intro pairs
    induction pairs with
    | nil => intro d hd _ q hq; exact hd q hq
    | cons p pairs ih =>
        intro d hd hp q hq
        rw [List.foldl_cons] at hq
        refine ih _ ?_ (fun p' hp' => hp p' (List.mem_cons_of_mem _ hp')) q hq
        intro q' hq'
        rcases foldl_dictSet_mem_elim p.2 p.1 d q' hq' with h1 | h1
        · exact hd q' h1
        · rw [h1]
          exact hp p (List.mem_cons_self _ _)
  refine aux _ [] (fun q hq => absurd hq (List.not_mem_nil q)) ?_
  intro p hp
  exact (List.of_mem_zip hp).2

theorem mem_of_mem_listPow {α : Type} {l : List α} :
    ∀ {k : Nat} {vs : List α}, vs ∈ listPow l k → ∀ x ∈ vs, x ∈ l := by
  intro k
  induction k with
  | zero =>
      intro vs hvs x hx
      have hv : vs = [] := List.mem_singleton.1 hvs
      subst hv
      cases hx
  | succ k ih =>
      intro vs hvs x hx
      have hvs' : vs ∈ (l.map (fun a => (listPow l k).map (a :: ·))).flatten := hvs
      obtain ⟨sub, hsub, hvs2⟩ := List.mem_flatten.1 hvs'
      obtain ⟨a, ha, rfl⟩ := List.mem_map.1 hsub
      obtain ⟨ws, hws, rfl⟩ := List.mem_map.1 hvs2
      rcases List.mem_cons.1 hx with h1 | h1
      · rw [h1]
        exact ha
      · exact ih hws x h1

theorem compatibleActions_values {gr : Graph} {n : Nat} (hstd : GraphStd gr n)
    {actions : List String} {t : List String}
    (ht : t ∈ EpistemicModel.compatibleActions gr actions) :
    ∀ v ∈ t, v ∈ actions := by
  unfold EpistemicModel.compatibleActions at ht
  obtain ⟨ca, hca, rfl⟩ := List.mem_map.1 ht
  intro v hv
  obtain ⟨i, hi, rfl⟩ := List.mem_map.1 hv
  rw [List.mem_range] at hi
  have hflat := connectedComponents_flatten_perm gr
  have hnd : gr.connectedComponents.flatten.Nodup := (hflat.nodup_iff).2 hstd.1.1
  have hlen : ca.length = gr.connectedComponents.length :=
    listPow_length_of_mem hca
  have hdlen : (EpistemicModel.buildClassDict gr.connectedComponents ca).length
      = n := by
    rw [buildClassDict_length _ _ hlen hnd, hflat.length_eq,
      nodes_length_of_std hstd]
  rw [hdlen] at hi
  have hiflat : i ∈ gr.connectedComponents.flatten := by
    rw [hflat.mem_iff, (nodes_perm_range hstd).mem_iff]
    exact List.mem_range.2 hi
  have hkey := (EpistemicModel.buildClassDict_mem_keys _ _ hlen i).2 hiflat
  have hsome : ∃ vv, (i, vv) ∈
      EpistemicModel.buildClassDict gr.connectedComponents ca := by
    obtain ⟨p, hp, hp1⟩ := List.mem_map.1 hkey
    refine ⟨p.2, ?_⟩
    rw [← hp1]
    exact hp
  have hisSome :
      (dictGet (EpistemicModel.buildClassDict gr.connectedComponents ca)
        i).isSome := (dictGet_isSome_iff _ _).2 hsome
  cases hget : dictGet (EpistemicModel.buildClassDict gr.connectedComponents ca)
      i with
  | none => rw [hget] at hisSome; cases hisSome
  | some act =>
      show act ∈ actions
      have hmem := dictGet_mem hget
      have hact := buildClassDict_values _ _ _ hmem
      exact mem_of_mem_listPow hca act hact

/-! ### Compatible assignments use only valid keys -/

theorem compatible_valid (g : DistributedGame) (m : EpistemicModel)
    (hstd : ModelStd g m) {a : List JointAction}
    (ha : a ∈ EpistemicModel.compatibleJointActions g m) :
    ∀ p ∈ m.lastStates.zip a, g.ValidKey (p.2, p.1) := by
  unfold EpistemicModel.compatibleJointActions at ha
  obtain ⟨x, hx, rfl⟩ := List.mem_map.1 ha
  intro p hp
  have hls : ∀ t ∈ x, t.length = m.lastStates.length := by
    intro t ht
    obtain ⟨l, hl, htl⟩ := forall₂_mem_left (mem_listProd.1 hx) ht
    obtain ⟨pl, hpl, rfl⟩ := List.mem_map.1 hl
    exact compatibleActions_tuple_length
      (getD_indistGraphs_std hstd.1 (List.mem_range.1 hpl)) htl
  have hxlen : x.length = m.playerCount := by
    have := length_of_mem_listProd hx
    simpa using this
  by_cases hxe : x = []
  · subst hxe
    rw [show zipRows ([] : List (List String)) = [] from rfl,
      List.zip_nil_right] at hp
    cases hp
  · rw [zipRows_eq x m.lastStates.length "" hls hxe] at hp
    obtain ⟨i, hilen, hpi⟩ := List.mem_iff_getElem.1 hp
    have hi2 : i < m.lastStates.length := by
      rw [List.length_zip, List.length_map, List.length_range,
        Nat.min_self] at hilen
      exact hilen
    have hpeq : p = (m.lastStates[i], x.map (fun t => t.getD i "")) := by
      rw [← hpi, List.getElem_zip]
      congr 1
      rw [List.getElem_map, List.getElem_range]
    rw [hpeq]
    refine ⟨hstd.2.2 _ (List.getElem_mem hi2), ?_, ?_⟩
    · show (x.map (fun t => t.getD i "")).length = g.playerCount
      rw [List.length_map, hxlen]
      exact hstd.2.1
    · intro j hj
      have hjx : j < x.length := by
        rw [hxlen]
        show j < m.indistGraphs.length
        rw [hstd.2.1]
        exact hj
      show (x.map (fun t => t.getD i "")).getD j "" ∈ g.actionsList.getD j []
      have hrow : (x.map (fun t => t.getD i "")).getD j "" =
          (x[j]).getD i "" := by
        rw [List.getD_eq_getElem _ _ (by rw [List.length_map]; exact hjx),
          List.getElem_map]
      rw [hrow]
      have hxj : x[j] ∈ EpistemicModel.compatibleActions
          (m.indistGraphs.getD j Graph.empty) (g.getActions j) := by
        have hforall := mem_listProd.1 hx
        rw [List.forall₂_iff_get] at hforall
        obtain ⟨hflen, hfget⟩ := hforall
        have hjls : j < ((List.range m.playerCount).map (fun pl =>
            EpistemicModel.compatibleActions
              (m.indistGraphs.getD pl Graph.empty)
              (g.getActions pl))).length := by
          rw [List.length_map, List.length_range]
          rw [hxlen] at hjx
          exact hjx
        have hthis := hfget j hjx hjls
        rw [List.get_eq_getElem, List.get_eq_getElem, List.getElem_map,
          List.getElem_range] at hthis
        exact hthis
      have hstd_j := getD_indistGraphs_std hstd.1
        (show j < m.indistGraphs.length by rw [hstd.2.1]; exact hj)
      have htl : (x[j]).length = m.lastStates.length :=
        compatibleActions_tuple_length hstd_j hxj
      have hgetd : (x[j]).getD i "" ∈ x[j] := by
        rw [List.getD_eq_getElem _ _ (by rw [htl]; exact hi2)]
        exact List.getElem_mem _
      exact compatibleActions_values hstd_j hxj _ hgetd

/-! ### `core()` preserves the standard shape -/

theorem coreOf_cases {m m' : EpistemicModel} (hc : m.coreOf = some m') :
    m' = m ∨ ∃ g0 gs cr, m.indistGraphs = g0 :: gs ∧ cr ∈ retractions g0 ∧
      cr ≠ [] ∧
      m' = EpistemicModel.newSubmodel
        ((m.indistGraphs.map (fun gr => retract gr cr)).headD Graph.empty).nodes
        m.lastStates (m.indistGraphs.map (fun gr => retract gr cr)) := by
  unfold EpistemicModel.coreOf at hc
  cases hm : m.indistGraphs with
  | nil =>
      rw [hm] at hc
      cases hc
  | cons g0 gs =>
      rw [hm] at hc
      simp only [List.map_cons] at hc
      cases hmax : pyMaxByLen ((gs.map (fun gr =>
          partitionPreservingMaps (retractions gr) m.lastStates)).foldl
            intersectLists
            (partitionPreservingMaps (retractions g0) m.lastStates)) with
      | none =>
          rw [hmax] at hc
          cases hc
      | some cr =>
          rw [hmax] at hc
          dsimp only at hc
          by_cases hcr : cr.length = 0
          · rw [if_pos hcr] at hc
            exact Or.inl (Option.some.inj hc).symm
          · rw [if_neg hcr] at hc
            right
            have hcrmem : cr ∈ retractions g0 := by
              have h1 := foldl_intersectLists_subset _ _ cr (pyMaxByLen_mem hmax)
              exact (List.mem_filter.1 h1).1
            refine ⟨g0, gs, cr, rfl, hcrmem,
              fun h0 => hcr (by rw [h0]; rfl), ?_⟩
            simp only [List.map_cons] at hc ⊢
            exact (Option.some.inj hc).symm

theorem coreOf_preserves_std {g : DistributedGame} {m m' : EpistemicModel}
    (hstd : ModelStd g m) (hc : m.coreOf = some m') : ModelStd g m' := by
  rcases coreOf_cases hc with rfl | ⟨g0, gs, cr, hm, hcr, hcne, rfl⟩
  · exact hstd
  · have hg0 : GraphStd g0 m.lastStates.length := by
      refine hstd.1 g0 ?_
      rw [hm]
      exact List.mem_cons_self _ _
    obtain ⟨f, rfl, hkeys, hvals, hidem, hedges⟩ := mem_retractions_elim hcr
    have hnd0 : g0.nodes.Nodup := hg0.1.1
    have hndk : (f.map Prod.fst).Nodup := by
      rw [hkeys]
      exact hnd0
    have happ : ∀ u, dictApply (trim f) u = dictApply f u :=
      fun u => dictApply_trim hndk u
    have hhead : (m.indistGraphs.map (fun gr => retract gr (trim f))).headD
        Graph.empty = retract g0 (trim f) := by
      rw [hm]
      rfl
    have hne2 : m.indistGraphs.map (fun gr => retract gr (trim f)) ≠ [] := by
      rw [hm]
      simp
    have hwf2 : ∀ gr' ∈ m.indistGraphs.map (fun gr => retract gr (trim f)),
        gr'.WF := by
      intro gr' hgr'
      obtain ⟨grp, hgrp, rfl⟩ := List.mem_map.1 hgr'
      exact relabel_WF (hstd.1 grp hgrp).1 _
    have hloops2 : ∀ x ∈ ((m.indistGraphs.map (fun gr =>
        retract gr (trim f))).headD Graph.empty).nodes,
        ∀ gr' ∈ m.indistGraphs.map (fun gr => retract gr (trim f)),
          gr'.hasEdge x x = true := by
      intro x hx gr' hgr'
      obtain ⟨grp, hgrp, rfl⟩ := List.mem_map.1 hgr'
      have hx' : x ∈ (g0.nodes.map (dictApply (trim f))).dedup := by
        rw [hhead] at hx
        exact hx
      obtain ⟨u0, hu0, rfl⟩ := List.mem_map.1 (List.mem_dedup.1 hx')
      have hgstd : GraphStd grp m.lastStates.length := hstd.1 grp hgrp
      have hu0n : u0 < m.lastStates.length := hg0.2.1 u0 hu0
      have hmemedge : (u0, u0) ∈ grp.edges := by
        rcases (hasEdge_iff_mem grp u0 u0).1 (hgstd.2.2 u0 hu0n) with h1 | h1
        · exact h1
        · exact h1
      have hmm2 : (dictApply (trim f) u0, dictApply (trim f) u0) ∈
          (retract grp (trim f)).edges :=
        List.mem_map.2 ⟨(u0, u0), hmemedge, rfl⟩
      exact hasEdge_of_mem hmm2
    have hnd2 : ((m.indistGraphs.map (fun gr =>
        retract gr (trim f))).headD Graph.empty).nodes.Nodup := by
      rw [hhead]
      exact List.nodup_dedup _
    have hbound2 : ∀ x ∈ ((m.indistGraphs.map (fun gr =>
        retract gr (trim f))).headD Graph.empty).nodes,
        x < m.lastStates.length := by
      intro x hx
      have hx' : x ∈ (g0.nodes.map (dictApply (trim f))).dedup := by
        rw [hhead] at hx
        exact hx
      obtain ⟨u0, hu0, rfl⟩ := List.mem_map.1 (List.mem_dedup.1 hx')
      rw [happ u0]
      exact hg0.2.1 _ (dictApply_mem_of_keys hkeys hnd0 hvals hu0)
    obtain ⟨hshape, hglen, hvals2⟩ := newSubmodel_std g.stateCount
      ((m.indistGraphs.map (fun gr => retract gr (trim f))).headD
        Graph.empty).nodes
      m.lastStates (m.indistGraphs.map (fun gr => retract gr (trim f)))
      hne2 hwf2 hloops2 hnd2 hbound2 hstd.2.2
    refine ⟨hshape, ?_, hvals2⟩
    rw [hglen, List.length_map]
    exact hstd.2.1

/-! ### `next` preserves the standard shape -/

/-- The per-player indistinguishability graphs built by `next` before
the component split (the `new_indist_graphs` list of the source). -/
def newGraphsOf (g : DistributedGame) (m : EpistemicModel)
    (jas : List JointAction) : List Graph :=
  (List.range m.playerCount).map (fun pl =>
    Graph.empty.addEdgesFrom (EpistemicModel.newIndistHistories g m pl
      (EpistemicModel.nextHistories g m jas).1
      (EpistemicModel.nextHistories g m jas).2))

/-- The connected components of the union graph folded by `next`. -/
def compsOf (g : DistributedGame) (m : EpistemicModel)
    (jas : List JointAction) : List (List Nat) :=
  ((newGraphsOf g m jas).foldl (fun u gr => u.addEdgesFrom gr.edges)
    Graph.empty).connectedComponents

/-- The `next_models` list of the source before the optional `core`. -/
def nextModelsOf (g : DistributedGame) (m : EpistemicModel)
    (jas : List JointAction) : List EpistemicModel :=
  if (compsOf g m jas).length = 1 then
    [EpistemicModel.mk (EpistemicModel.nextHistories g m jas).1
      (newGraphsOf g m jas)]
  else
    (compsOf g m jas).map (fun cc =>
      EpistemicModel.newSubmodel cc (EpistemicModel.nextHistories g m jas).1
        (newGraphsOf g m jas))

theorem next_eq (g : DistributedGame) (m : EpistemicModel)
    (jas : List JointAction) (c : Bool) :
    EpistemicModel.next g m jas c =
      (if c then mapOption EpistemicModel.coreOf (nextModelsOf g m jas)
       else some (nextModelsOf g m jas)) := rfl

theorem next_pre_std {g : DistributedGame} {m : EpistemicModel}
    {jas : List JointAction} (hgw : GameWF g) (hstd : ModelStd g m)
    (hvalid : ∀ p ∈ m.lastStates.zip jas, g.ValidKey (p.2, p.1)) :
    (∀ s ∈ (EpistemicModel.nextHistories g m jas).1, s < g.stateCount) ∧
      (∀ gr ∈ newGraphsOf g m jas,
        GraphStd gr (EpistemicModel.nextHistories g m jas).1.length) ∧
      (newGraphsOf g m jas).length = g.playerCount := by
  have hRval : ∀ b ∈ (m.lastStates.zip jas).map (fun p =>
      EpistemicModel.gameLookup g (p.2, p.1)), ∀ s ∈ b, s < g.stateCount := by
    intro b hb
    obtain ⟨p, hp, rfl⟩ := List.mem_map.1 hb
    exact (gameLookup_valid (hvalid p hp) hgw.2.2.2).2
  have hval1 : ∀ s ∈ (EpistemicModel.nextHistories g m jas).1,
      s < g.stateCount := by
    intro s hs
    have hs' : s ∈ ((m.lastStates.zip jas).map (fun p =>
        EpistemicModel.gameLookup g (p.2, p.1))).flatten := hs
    obtain ⟨b, hb, hsb⟩ := List.mem_flatten.1 hs'
    exact hRval b hb s hsb
  refine ⟨hval1, ?_, ?_⟩
  · intro gr hgr
    have hgr' : gr ∈ (List.range m.playerCount).map (fun pl =>
        Graph.empty.addEdgesFrom (EpistemicModel.newIndistHistories g m pl
          (EpistemicModel.nextHistories g m jas).1
          (EpistemicModel.nextHistories g m jas).2)) := hgr
    obtain ⟨pl, hpl, rfl⟩ := List.mem_map.1 hgr'
    rw [List.mem_range] at hpl
    refine ⟨WF_addEdgesFrom (by decide), ?_, ?_⟩
    · intro x hx
      rcases mem_nodes_addEdgesFrom x hx with h1 | ⟨q, hq, h2⟩
      · cases h1
      · obtain ⟨e, he, hq1, hq2, hq3⟩ := mem_newIndistHistories_elim hq
        have hq1' : q.1 ∈ (EpistemicModel.offsetRanges
            ((m.lastStates.zip jas).map (fun p =>
              EpistemicModel.gameLookup g (p.2, p.1))) 0).getD e.1 [] := hq1
        have hq2' : q.2 ∈ (EpistemicModel.offsetRanges
            ((m.lastStates.zip jas).map (fun p =>
              EpistemicModel.gameLookup g (p.2, p.1))) 0).getD e.2 [] := hq2
        have hb1 := offsetRanges_bound _ 0 e.1 q.1 hq1'
        have hb2 := offsetRanges_bound _ 0 e.2 q.2 hq2'
        show x < ((m.lastStates.zip jas).map (fun p =>
            EpistemicModel.gameLookup g (p.2, p.1))).flatten.length
        rcases h2 with h2 | h2
        · rw [h2]
          omega
        · rw [h2]
          omega
    · intro n hn
      have hn' : n < ((m.lastStates.zip jas).map (fun p =>
          EpistemicModel.gameLookup g (p.2, p.1))).flatten.length := hn
      obtain ⟨h, hh, hmem, hvalmem⟩ := offsetRanges_cover _ 0 n hn'
      rw [Nat.zero_add] at hmem
      have hRlen : ((m.lastStates.zip jas).map (fun p =>
          EpistemicModel.gameLookup g (p.2, p.1))).length ≤
          m.lastStates.length := by
        rw [List.length_map, List.length_zip]
        exact Nat.min_le_left _ _
      have hhm : h < m.lastStates.length := Nat.lt_of_lt_of_le hh hRlen
      have hplm : pl < m.indistGraphs.length := hpl
      have hostd := getD_indistGraphs_std hstd.1 hplm
      have hedge : (h, h) ∈ (m.indistGraphs.getD pl Graph.empty).edges := by
        rcases (hasEdge_iff_mem _ h h).1 (hostd.2.2 h hhm) with h1 | h1
        · exact h1
        · exact h1
      have hs0 : ((m.lastStates.zip jas).map (fun p =>
          EpistemicModel.gameLookup g (p.2, p.1))).flatten.getD n 0 <
          g.stateCount := by
        have hblock : ((m.lastStates.zip jas).map (fun p =>
            EpistemicModel.gameLookup g (p.2, p.1))).getD h [] ∈
            (m.lastStates.zip jas).map (fun p =>
              EpistemicModel.gameLookup g (p.2, p.1)) := by
          rw [List.getD_eq_getElem _ _ hh]
          exact List.getElem_mem hh
        exact hRval _ hblock _ hvalmem
      have hd : g.areDistinguishable pl
          (((m.lastStates.zip jas).map (fun p =>
            EpistemicModel.gameLookup g (p.2, p.1))).flatten.getD n 0)
          (((m.lastStates.zip jas).map (fun p =>
            EpistemicModel.gameLookup g (p.2, p.1))).flatten.getD n 0)
          = false := by
        unfold DistributedGame.areDistinguishable
        have hplg : pl < g.indistGraphs.length := by
          rw [hgw.1]
          show pl < g.playerCount
          rw [← hstd.2.1]
          exact hpl
        have hgameloop : (g.indistGraphs.getD pl Graph.empty).hasEdge
            (((m.lastStates.zip jas).map (fun p =>
              EpistemicModel.gameLookup g (p.2, p.1))).flatten.getD n 0)
            (((m.lastStates.zip jas).map (fun p =>
              EpistemicModel.gameLookup g (p.2, p.1))).flatten.getD n 0)
            = true := by
          rw [List.getD_eq_getElem _ _ hplg]
          exact hgw.2.1 _ (List.getElem_mem hplg) _ hs0
        rw [hgameloop]
        rfl
      have hmemnih : (n, n) ∈ EpistemicModel.newIndistHistories g m pl
          (EpistemicModel.nextHistories g m jas).1
          (EpistemicModel.nextHistories g m jas).2 :=
        @mem_newIndistHistories_intro g m pl
          (EpistemicModel.nextHistories g m jas).1
          (EpistemicModel.nextHistories g m jas).2 (h, h) n n
          hedge hmem hmem hd
      exact addEdgesFrom_hasEdge_of_mem hmemnih Graph.empty
  · unfold newGraphsOf
    rw [List.length_map, List.length_range]
    exact hstd.2.1

theorem next_preserves_std {g : DistributedGame} {m : EpistemicModel}
    {jas : List JointAction} {c : Bool} {ms : List EpistemicModel}
    {m' : EpistemicModel} (hgw : GameWF g) (hstd : ModelStd g m)
    (hvalid : ∀ p ∈ m.lastStates.zip jas, g.ValidKey (p.2, p.1))
    (hnext : EpistemicModel.next g m jas c = some ms) (hm' : m' ∈ ms) :
    ModelStd g m' := by
  obtain ⟨hval1, hgstd, hglen⟩ := next_pre_std hgw hstd hvalid
  have hmodels : ∀ n ∈ nextModelsOf g m jas, ModelStd g n := by
    intro n hn
    unfold nextModelsOf at hn
    by_cases hcomps : (compsOf g m jas).length = 1
    · rw [if_pos hcomps] at hn
      rw [List.mem_singleton.1 hn]
      exact ⟨fun gr hgr => hgstd gr hgr, hglen, hval1⟩
    · rw [if_neg hcomps] at hn
      obtain ⟨cc, hcc, rfl⟩ := List.mem_map.1 hn
      have hunionwf : ((newGraphsOf g m jas).foldl
          (fun u gr => u.addEdgesFrom gr.edges) Graph.empty).WF :=
        unionFold_WF _ (by decide)
      have hccflat := connectedComponents_flatten_perm
        ((newGraphsOf g m jas).foldl (fun u gr => u.addEdgesFrom gr.edges)
          Graph.empty)
      have hccsub : ∀ x ∈ cc, x <
          (EpistemicModel.nextHistories g m jas).1.length := by
        intro x hx
        have hxu : x ∈ ((newGraphsOf g m jas).foldl
            (fun u gr => u.addEdgesFrom gr.edges) Graph.empty).nodes := by
          rw [← hccflat.mem_iff]
          exact List.mem_flatten.2 ⟨cc, hcc, hx⟩
        rcases unionFold_nodes_elim _ x hxu with h1 | ⟨gr, hgr, e, he, h2⟩
        · cases h1
        · have hstd_gr := hgstd gr hgr
          obtain ⟨hn1, hn2⟩ := hstd_gr.1.2 e he
          rcases h2 with h2 | h2
          · rw [h2]
            exact hstd_gr.2.1 _ hn1
          · rw [h2]
            exact hstd_gr.2.1 _ hn2
      have hgrne : newGraphsOf g m jas ≠ [] := by
        intro h0
        have hcomps0 : compsOf g m jas = [] := by
          unfold compsOf
          rw [h0]
          rfl
        rw [hcomps0] at hcc
        cases hcc
      have hflatnd : (compsOf g m jas).flatten.Nodup :=
        hccflat.nodup_iff.2 hunionwf.1
      have hccnd : cc.Nodup := (List.nodup_flatten.1 hflatnd).1 cc hcc
      obtain ⟨hshape, hglen2, hval2⟩ := newSubmodel_std g.stateCount cc
        (EpistemicModel.nextHistories g m jas).1 (newGraphsOf g m jas) hgrne
        (fun gr hgr => (hgstd gr hgr).1)
        (fun x hx gr hgr => (hgstd gr hgr).2.2 x (hccsub x hx))
        hccnd hccsub hval1
      refine ⟨hshape, ?_, hval2⟩
      rw [hglen2]
      exact hglen
  rw [next_eq] at hnext
  cases c with
  | false =>
      have hms : ms = nextModelsOf g m jas := (Option.some.inj hnext).symm
      rw [hms] at hm'
      exact hmodels m' hm'
  | true =>
      obtain ⟨n, hn, hcn⟩ := mapOption_mem_rev hnext m' hm'
      exact coreOf_preserves_std (hmodels n hn) hcn

/-! ### Claim C8: every produced model has a self-loop on every history -/

/-- The models produced by the public operations: the constructor model
and everything `next`, `core`, and `unfold` return.  The `next` rule
carries the precondition that every `(joint_action, state)` pair read
from the game is a valid key: on an invalid key the source's
`game[joint_action, state]` lookup raises a KeyError and the call
produces no model (the embedding's `gameLookup` totalises the lookup, so
the hypothesis restricts the rule to the runs the source completes).
`unfold` generates its own assignments and needs no such hypothesis. -/
inductive Produced (g : DistributedGame) : EpistemicModel → Prop where
  | init : Produced g (EpistemicModel.init g)
  | next {m : EpistemicModel} {jas : List JointAction} {c : Bool}
      {ms : List EpistemicModel} {m' : EpistemicModel} : Produced g m →
      (∀ p ∈ m.lastStates.zip jas, g.ValidKey (p.2, p.1)) →
      EpistemicModel.next g m jas c = some ms → m' ∈ ms → Produced g m'
  | core {m m' : EpistemicModel} : Produced g m →
      EpistemicModel.coreOf m = some m' → Produced g m'
  | unfold {m : EpistemicModel} {c : Bool}
      {out : List (EpistemicModel × List (List JointAction))}
      {m' : EpistemicModel} {as : List (List JointAction)} : Produced g m →
      EpistemicModel.unfold g m c = some out → (m', as) ∈ out → Produced g m'

theorem init_model_std {g : DistributedGame} (hgw : GameWF g) :
    ModelStd g (EpistemicModel.init g) := by
  refine ⟨?_, ?_, ?_⟩
  · intro gr hgr
    have hgr' : gr ∈ (List.range g.playerCount).map
        (fun _ => Graph.empty.addEdge 0 0) := hgr
    obtain ⟨pl, hpl, rfl⟩ := List.mem_map.1 hgr'
    have h1 : GraphStd (Graph.empty.addEdge 0 0) 1 := by decide
    exact h1
  · show ((List.range g.playerCount).map
        (fun _ => Graph.empty.addEdge 0 0)).length = g.playerCount
    rw [List.length_map, List.length_range]
  · intro s hs
    have hs' : s ∈ [g.initialState] := hs
    rw [List.mem_singleton.1 hs']
    exact hgw.2.2.1

theorem unfold_preserves_std {g : DistributedGame} {m : EpistemicModel}
    {c : Bool} {out : List (EpistemicModel × List (List JointAction))}
    {m' : EpistemicModel} {as : List (List JointAction)}
    (hgw : GameWF g) (hstd : ModelStd g m)
    (hu : EpistemicModel.unfold g m c = some out) (hmem : (m', as) ∈ out) :
    ModelStd g m' := by
  unfold EpistemicModel.unfold at hu
  cases hmo : mapOption (fun b =>
      (EpistemicModel.next g m (b.2.headD []) c).map
        (fun ms => ms.map (fun n => (n, b.2))))
      (EpistemicModel.jointActionsByResult g m
        (EpistemicModel.compatibleJointActions g m)) with
  | none =>
      rw [hmo] at hu
      cases hu
  | some res =>
      rw [hmo] at hu
      have hout : out = res.flatten := (Option.some.inj hu).symm
      obtain ⟨rb, hrb, hmrb⟩ := List.mem_flatten.1 (hout ▸ hmem)
      obtain ⟨b, hb, hfb⟩ := mapOption_mem_rev hmo rb hrb
      cases hnx : EpistemicModel.next g m (b.2.headD []) c with
      | none =>
          rw [hnx] at hfb
          cases hfb
      | some ms =>
          rw [hnx] at hfb
          have hrb2 : rb = ms.map (fun n => (n, b.2)) :=
            (Option.some.inj hfb).symm
          rw [hrb2] at hmrb
          obtain ⟨n, hn, hpair⟩ := List.mem_map.1 hmrb
          have hm'n : n = m' := congrArg Prod.fst hpair
          subst hm'n
          have hbne : b.2 ≠ [] := jointActionsByResult_ne_nil g m _ b hb
          have hrep : b.2.headD [] ∈
              EpistemicModel.compatibleJointActions g m := by
            have h1 : b.2.headD [] ∈ b.2 := headD_mem _ hbne
            have h2 := (jointActionsByResult_inv g m
              (EpistemicModel.compatibleJointActions g m)).2
            refine h2.mem_iff.1 ?_
            exact List.mem_flatten.2 ⟨b.2, List.mem_map.2 ⟨b, hb, rfl⟩, h1⟩
          exact next_preserves_std hgw hstd
            (compatible_valid g m hstd hrep) hnx hn

theorem produced_std {g : DistributedGame} (hgw : GameWF g)
    {m : EpistemicModel} (hp : Produced g m) : ModelStd g m := by
  induction hp with
  | init => exact init_model_std hgw
  | next hpm hval hnx hmem ih => exact next_preserves_std hgw ih hval hnx hmem
  | core hpm hc ih => exact coreOf_preserves_std ih hc
  | unfold hpm hu hmem ih => exact unfold_preserves_std hgw ih hu hmem

theorem init_applyOps_GameWF {sn : List String} {ii : Nat}
    {al : List (List String)} {cl : List (List (List Nat))}
    {g0 : DistributedGame}
    (hinit : DistributedGame.init sn ii al cl = .ok g0)
    (ops : List (MoveKey × List Nat)) : GameWF (g0.applyOps ops) := by
  obtain ⟨hsn, hii, hal, hmv, hlt, hlen, hmex⟩ :=
    DistributedGame.init_ok_spec hinit
  obtain ⟨f1, f2, f3, f4⟩ := DistributedGame.applyOps_fields g0 ops
  refine ⟨?_, ?_, ?_, ?_⟩
  · show (g0.applyOps ops).indistGraphs.length =
      (g0.applyOps ops).actionsList.length
    rw [f4, f3, hal]
    have hglen : g0.indistGraphs.length = cl.length := mapExcept_ok_length hmex
    rw [hglen, List.length_map, hlen]
  · intro grp hgrp s hslt
    rw [f4] at hgrp
    have hslt2 : s < sn.length := by
      have hsc : (g0.applyOps ops).stateCount = sn.length := by
        unfold DistributedGame.stateCount
        rw [f1, hsn]
      rw [hsc] at hslt
      exact hslt
    obtain ⟨classes, hcl, hok⟩ := mapExcept_ok_mem_rev hmex grp hgrp
    unfold DistributedGame.indistGraphFromClasses at hok
    by_cases hpart :
        DistributedGame.isPartition classes (List.range sn.length) = true
    · rw [if_pos hpart] at hok
      have hgr : grp = ((classes.map DistributedGame.combinations2).flatten.foldl
          (fun gg e => gg.addEdge e.1 e.2) Graph.empty).addEdgesFrom
            ((List.range sn.length).map (fun st => (st, st))) :=
        (Except.ok.inj hok).symm
      rw [hgr]
      have hmem2 : ((s : Nat), s) ∈
          (List.range sn.length).map (fun st => (st, st)) :=
        List.mem_map.2 ⟨s, List.mem_range.2 hslt2, rfl⟩
      exact addEdgesFrom_hasEdge_of_mem hmem2 _
    · rw [if_neg hpart] at hok
      cases hok
  · show (g0.applyOps ops).initialState < (g0.applyOps ops).stateCount
    unfold DistributedGame.stateCount
    rw [f2, f1, hii, hsn]
    exact hlt
  · exact DistributedGame.applyOps_MovesWF g0 ops
      (DistributedGame.init_MovesWF hinit)

/-- C8: for every game built by `__init__` followed by any sequence of
`__setitem__` calls, every epistemic model produced by the public
operations — the constructor's initial model and every model returned
by `next`, `unfold`, or `core` — carries a self-loop on every history
in every player's indistinguishability graph. -/
theorem produced_all_selfloops (sn : List String) (ii : Nat)
    (al : List (List String)) (cl : List (List (List Nat)))
    (g0 : DistributedGame) (ops : List (MoveKey × List Nat))
    (hinit : DistributedGame.init sn ii al cl = .ok g0)
    (m : EpistemicModel) (hm : Produced (g0.applyOps ops) m) :
    ∀ gr ∈ m.indistGraphs, ∀ h, h < m.lastStates.length →
      gr.hasEdge h h = true := by
  have hgw := init_applyOps_GameWF hinit ops
  have hstd := produced_std hgw hm
  intro gr hgr h hh
  exact (hstd.1 gr hgr).2.2 h hh

theorem produced_all_selfloops_witness :
    Graph.hasEdge ⟨[0], [(0, 0)]⟩ 0 0 = true :=
  produced_all_selfloops ["s"] 0 [["a"]] [[[0]]] Gw [] rfl
    (EpistemicModel.init (Gw.applyOps [])) Produced.init
    ⟨[0], [(0, 0)]⟩ (by decide) 0 (by decide)

end Epunfold
